import Mathlib

/-!
Verification of the ruSAT CNF data model and DPLL solvers.

The Rust sources are embedded shallowly:

* `BTreeSet<isize>` (a clause's literal set) becomes a strictly sorted
  `List ℤ`; its iteration order is the ascending order, so `iter().next()`
  is the head of the list.
* `HashSet<CNFClause>` (a system's clause set) becomes a `List CNFClause`
  holding the set's traversal order; set semantics are captured by a
  no-duplicates invariant (`WfSystem`).
* `HashSet<isize>` (unit sets) becomes a `List ℤ` holding the traversal
  order, with `List.insert` as the deduplicating insert.
* `BTreeSet<isize>` (interpretations) becomes a `List ℤ` maintained by the
  sorted deduplicating insert `insertSorted`.
* A Rust panic (`unwrap` on `None`, `add(0)`) is modelled as `none`.
* The recursion of `concurrent_dpll` / `basic_dpll` is modelled with an
  explicit fuel parameter; the public wrappers supply a fuel that is proved
  sufficient, so the wrappers compute exactly the Rust functions' results.
* `thread::spawn(..).join()` in `concurrent_dpll` joins each thread right
  after spawning it, so the concurrent solver is semantically sequential:
  positive branch first, then negative branch, results read in send order.
-/

inductive ClauseType where
  | Unknown : ClauseType
  | Tautology : ClauseType
  | Satisfiable : ClauseType
  | Unsatisfiable : ClauseType
deriving DecidableEq

/-- Insertion into a strictly sorted list, keeping it sorted and duplicate
free: the model of `BTreeSet::insert`. -/
def insertSorted (x : ℤ) : List ℤ → List ℤ
  | [] => [x]
  | y :: ys => if x < y then x :: y :: ys else if x = y then y :: ys else y :: insertSorted x ys

/-- `extend`ing one ordered set by the elements of a list. -/
def interpExtend (I : List ℤ) (J : List ℤ) : List ℤ :=
  J.foldl (fun a x => insertSorted x a) I

/-- `extend`ing a hash set (kept as a traversal-ordered list) by a list of
new elements, with `List.insert` as the deduplicating insert. -/
def listExtend (acc : List ℤ) (nu : List ℤ) : List ℤ :=
  nu.foldl (fun a x => a.insert x) acc

/-- `CNFClause` from `cnf_system.rs`: a clause is the strictly sorted list
of its literals (the content of the `BTreeSet<isize>`). -/
structure CNFClause where
  literals : List ℤ
deriving DecidableEq

namespace CNFClause

/-- `CNFClause::new`. -/
def new : CNFClause := ⟨[]⟩

/-- `CNFClause::empty`: note that it stores the literal `0` as the marker
of an unsatisfiable clause. -/
def empty : CNFClause := ⟨[0]⟩

/-- `CNFClause::len`. -/
def len (c : CNFClause) : ℕ := c.literals.length

/-- `CNFClause::contains`. -/
def contains (c : CNFClause) (lit : ℤ) : Bool := decide (lit ∈ c.literals)

/-- `CNFClause::get_unit`: the sole literal of a unit clause. -/
def get_unit (c : CNFClause) : Option ℤ :=
  if c.len = 1 then c.literals.head? else none

/-- `CNFClause::add`: panics (`none`) on literal `0`, otherwise inserts and
reports whether the literal was newly added. -/
def add (c : CNFClause) (lit : ℤ) : Option (Bool × CNFClause) :=
  if lit = 0 then none
  else some (decide (lit ∉ c.literals), ⟨insertSorted lit c.literals⟩)

/-- `CNFClause::remove`: removes a literal, reporting whether it was there. -/
def remove (c : CNFClause) (lit : ℤ) : Bool × CNFClause :=
  (decide (lit ∈ c.literals), ⟨c.literals.erase lit⟩)

/-- `CNFClause::is_tautology`. -/
def is_tautology (c : CNFClause) : Bool :=
  (c.literals.filter (fun x => decide (x < 0))).any (fun x => decide (-x ∈ c.literals))

/-- `CNFClause::is_empty`. -/
def is_empty (c : CNFClause) : Bool := decide (c.len = 0)

/-- A model of the derived `Hash` instance: a hash of the literal sequence
in its (sorted) iteration order. -/
def hashVal (c : CNFClause) : ℤ :=
  c.literals.foldl (fun h x => h * 31 + x) 7

end CNFClause

/-- `CNFSystem` from `cnf_system.rs`: the clause set in traversal order. -/
structure CNFSystem where
  clauses : List CNFClause
deriving DecidableEq

namespace CNFSystem

/-- `CNFSystem::new(None)`. -/
def new : CNFSystem := ⟨[]⟩

/-- `CNFSystem::contains`. -/
def contains (S : CNFSystem) (c : CNFClause) : Bool := decide (c ∈ S.clauses)

/-- `CNFSystem::add_clause`: set insert, reporting whether it was new. -/
def add_clause (S : CNFSystem) (c : CNFClause) : Bool × CNFSystem :=
  if c ∈ S.clauses then (false, S) else (true, ⟨S.clauses ++ [c]⟩)

/-- `CNFSystem::remove_clause`: set removal, reporting whether it was there. -/
def remove_clause (S : CNFSystem) (c : CNFClause) : Bool × CNFSystem :=
  (decide (c ∈ S.clauses), ⟨S.clauses.erase c⟩)

/-- `CNFSystem::len`. -/
def len (S : CNFSystem) : ℕ := S.clauses.length

end CNFSystem

/-- The multiset size of a system: total number of stored literals. -/
def totalLen (S : CNFSystem) : ℕ := (S.clauses.map (fun c => c.literals.length)).sum

/-- The distinct literals occurring in a system. -/
def sysLits (S : CNFSystem) : List ℤ :=
  S.clauses.foldr (fun c acc => c.literals.union acc) []

/-- Whether a literal occurs in some clause of the system. -/
def occursB (S : CNFSystem) (x : ℤ) : Bool := S.clauses.any (fun c => decide (x ∈ c.literals))

/-- Whether some unit in the list touches the system: its literal or the
negation occurs.  Propagating such a unit strictly shrinks the system. -/
def relevantB (S : CNFSystem) (units : List ℤ) : Bool :=
  units.any (fun u => occursB S u || occursB S (-u))

/-- The well-formedness guaranteed by the Rust containers: the clause list
is duplicate free (`HashSet`) and every clause's literal list is strictly
sorted (`BTreeSet`). -/
def WfSystem (S : CNFSystem) : Prop :=
  S.clauses.Nodup ∧ ∀ c ∈ S.clauses, c.literals.Sorted (· < ·)

/-- No clause of the system stores the reserved literal `0`. -/
def NoZero (S : CNFSystem) : Prop := ∀ c ∈ S.clauses, (0 : ℤ) ∉ c.literals

/-- Every clause of the system is nonempty. -/
def NoEmptyClause (S : CNFSystem) : Prop := ∀ c ∈ S.clauses, c.literals ≠ []

/-- The removal phase shared by both propagation routines: remove each of
the listed clauses from the system. -/
def removeClauses (S : CNFSystem) (cs : List CNFClause) : CNFSystem :=
  cs.foldl (fun s c => (s.remove_clause c).2) S

/-- The reduction loop of `concurrent_dpll_propagate` (`dpll.rs`): for each
clause that contained `-lit`, remove it from the system, erase `-lit`, fail
on an empty result, record a new unit on a singleton result, and reinsert.
Returns `none` on conflict. -/
def reduceClauses (lit : ℤ) : List CNFClause → CNFSystem → List ℤ → Option (List ℤ × CNFSystem)
  | [], S, nu => some (nu, S)
  | c :: rest, S, nu =>
    let rc := S.remove_clause c
    if rc.1 then
      let c2 : CNFClause := ⟨c.literals.erase (-lit)⟩
      match c2.len with
      | 0 => none
      | 1 => reduceClauses lit rest ((rc.2).add_clause c2).2 (nu.insert c2.literals.headI)
      | _ + 2 => reduceClauses lit rest ((rc.2).add_clause c2).2 nu
    else reduceClauses lit rest rc.2 nu

/-- `concurrent_dpll_propagate` from `dpll.rs`: clauses containing `lit`
are removed, clauses containing `-lit` are reduced; `none` means CONFLICT,
otherwise the newly revealed units are returned with the new system. -/
def concurrent_dpll_propagate (S : CNFSystem) (lit : ℤ) : Option (List ℤ × CNFSystem) :=
  let clauses_to_remove := S.clauses.filter (fun c => c.contains lit)
  let clauses_to_reduce := S.clauses.filter (fun c => !(c.contains lit) && c.contains (-lit))
  reduceClauses lit clauses_to_reduce (removeClauses S clauses_to_remove) []

/-- One generation of the unit-propagation loop in `concurrent_dpll`: the
`for each_unit_literal in current_units` body.  An `error` result is an
early `return` of the Rust function, `ok` carries the state for the next
generation. -/
def processUnits : List ℤ → CNFSystem → List ℤ → List ℤ →
    Except (ClauseType × List ℤ) (CNFSystem × List ℤ × List ℤ)
  | [], S, interp, revealed => Except.ok (S, interp, revealed)
  | u :: rest, S, interp, revealed =>
    match concurrent_dpll_propagate S u with
    | none => Except.error (ClauseType.Unsatisfiable, interp)
    | some (nu, S1) =>
      let interp1 := insertSorted u interp
      if S1.len = 0 then Except.error (ClauseType.Satisfiable, interp1)
      else processUnits rest S1 interp1 (listExtend revealed nu)

/-- The `while current_units.len() > 0` loop of `concurrent_dpll`, with
fuel (`none` = fuel exhausted; the callers supply provably enough). -/
def propagateUnits : ℕ → CNFSystem → List ℤ → List ℤ →
    Option (Except (ClauseType × List ℤ) (CNFSystem × List ℤ))
  | 0, _, _, _ => none
  | f + 1, S, units, interp =>
    if units.length = 0 then some (Except.ok (S, interp))
    else
      match processUnits units S interp [] with
      | Except.error r => some (Except.error r)
      | Except.ok (S1, interp1, revealed) => propagateUnits f S1 revealed interp1

/-- The decision literal: the first literal (in `BTreeSet` order, i.e. the
least one) of the first clause in traversal order; `none` models the panic
of `unwrap` when the system or its first clause is empty. -/
def decisionLiteral (S : CNFSystem) : Option ℤ :=
  match S.clauses with
  | [] => none
  | c :: _ => c.literals.head?

/-- The combiner at a decision of `concurrent_dpll`: given the accumulated
unit interpretation and the two branch outcomes (positive first, `none` a
branch panic), produce the call's outcome.  A positive-branch verdict other
than UNSATISFIABLE is returned with the accumulated units extended by the
branch interpretation; otherwise the negative branch decides: UNSATISFIABLE
is returned with the negative interpretation alone, anything else with the
accumulated units extended. -/
def combineRes (interp : List ℤ) :
    Option (ClauseType × List ℤ) → Option (ClauseType × List ℤ) → Option (ClauseType × List ℤ)
  | none, _ => none
  | some _, none => none
  | some p1, some p2 =>
    if p1.1 = ClauseType.Unsatisfiable then
      if p2.1 = ClauseType.Unsatisfiable then some (ClauseType.Unsatisfiable, p2.2)
      else some (p2.1, interpExtend interp p2.2)
    else some (p1.1, interpExtend interp p1.2)

/-- `concurrent_dpll` from `dpll.rs`, with fuel.  The outer `Option` is
fuel exhaustion, the inner `Option` is a panic.  Both decision branches are
always evaluated (each spawned thread is joined immediately and a panic
propagates through `join().unwrap()`), the positive one first. -/
def dpllF : ℕ → CNFSystem → List ℤ → ℤ → Option (Option (ClauseType × List ℤ))
  | 0, _, _, _ => none
  | f + 1, S, units, tc =>
    match propagateUnits (totalLen S + 2) S units [] with
    | none => none
    | some (Except.error r) => some (some r)
    | some (Except.ok (S1, interp)) =>
      match decisionLiteral S1 with
      | none => some none
      | some l =>
        let tc2 := if 2 ≤ tc then tc - 2 else 0
        match dpllF f S1 [l] tc2, dpllF f S1 [-l] tc2 with
        | none, _ => none
        | _, none => none
        | some a, some b => some (combineRes interp a b)

/-- `concurrent_dpll`: the fueled search run with provably sufficient fuel.
`none` is a panic. -/
def concurrent_dpll (S : CNFSystem) (units : List ℤ) (thread_count : ℤ) :
    Option (ClauseType × List ℤ) :=
  (dpllF (2 * totalLen S + 2) S units thread_count).join

/-- The reduction loop of `basic_dpll_propagate` (`DPLL.rs`): like the
concurrent one, but it never stops early; it reinserts even emptied
clauses and just clears the `no_empty_clauses` flag. -/
def basicReduce (lit : ℤ) : List CNFClause → CNFSystem → Bool → Bool × CNFSystem
  | [], S, flag => (flag, S)
  | c :: rest, S, flag =>
    let rc := S.remove_clause c
    if rc.1 then
      let c2 : CNFClause := ⟨c.literals.erase (-lit)⟩
      let flag2 := if flag then !c2.is_empty else flag
      basicReduce lit rest ((rc.2).add_clause c2).2 flag2
    else basicReduce lit rest rc.2 flag

/-- `basic_dpll_propagate` from `DPLL.rs`: returns `false` iff some clause
was reduced to nothing. -/
def basic_dpll_propagate (S : CNFSystem) (lit : ℤ) : Bool × CNFSystem :=
  let clauses_to_remove := S.clauses.filter (fun c => c.contains lit)
  let clauses_to_reduce := S.clauses.filter (fun c => !(c.contains lit) && c.contains (-lit))
  basicReduce lit clauses_to_reduce (removeClauses S clauses_to_remove) true

/-- `basic_dpll_get_unit_literal` from `DPLL.rs`: the unit literal of the
first unit clause in traversal order. -/
def basic_dpll_get_unit_literal (S : CNFSystem) : Option ℤ :=
  S.clauses.findSome? (fun c => c.get_unit)

/-- The unit-propagation `loop` of `basic_dpll`, with fuel.  `error` is an
early `return`, `ok` is the fall-through to the decision. -/
def basicLoopF : ℕ → CNFSystem → List ℤ →
    Option (Except (ClauseType × List ℤ) (CNFSystem × List ℤ))
  | 0, _, _ => none
  | f + 1, S, interp =>
    match basic_dpll_get_unit_literal S with
    | some lit =>
      let pr := basic_dpll_propagate S lit
      if !pr.1 then some (Except.error (ClauseType.Unsatisfiable, interp))
      else if pr.2.len = 0 then
        some (Except.error (ClauseType.Satisfiable, insertSorted lit interp))
      else basicLoopF f pr.2 interp
    | none => some (Except.ok (S, interp))

/-- `basic_dpll` from `DPLL.rs`, with fuel.  At a decision the literal `l`
is wrapped into the unit clause `{l}` (which panics if `l = 0`, since it is
built with `CNFClause::add`), the positive branch explores `S ∪ {{l}}`, and
only if it is unsatisfiable is `S ∪ {{-l}}` explored. -/
def basicDpllF : ℕ → CNFSystem → Option (Option (ClauseType × List ℤ))
  | 0, _ => none
  | f + 1, S =>
    match basicLoopF (totalLen S + 1) S [] with
    | none => none
    | some (Except.error r) => some (some r)
    | some (Except.ok (S1, interp)) =>
      match decisionLiteral S1 with
      | none => some none
      | some l =>
        if l = 0 then some none
        else
          match basicDpllF f (S1.add_clause ⟨[l]⟩).2 with
          | none => none
          | some none => some none
          | some (some p1) =>
            if p1.1 = ClauseType.Unsatisfiable then
              match basicDpllF f (S1.add_clause ⟨[-l]⟩).2 with
              | none => none
              | some none => some none
              | some (some p2) =>
                if p2.1 = ClauseType.Satisfiable then
                  some (some (ClauseType.Satisfiable,
                    interpExtend (insertSorted (-l) interp) p2.2))
                else some (some (p2.1, p2.2))
            else some (some (p1.1, interpExtend (insertSorted l interp) p1.2))

/-- `basic_dpll`: the fueled search run with provably sufficient fuel.
`none` is a panic. -/
def basic_dpll (S : CNFSystem) : Option (ClauseType × List ℤ) :=
  (basicDpllF (2 * (sysLits S).length + 2) S).join

/-- The unit literals of a system's unit clauses, in traversal order: the
units that `main.rs` hands to the solver together with the parsed system. -/
def unitLiterals (S : CNFSystem) : List ℤ :=
  S.clauses.foldr (fun c acc => match c.get_unit with | some u => acc.insert u | none => acc) []

/-- A total assignment: `A v` is the value of the positive variable `v`. -/
def litTrue (A : ℤ → Bool) (x : ℤ) : Prop :=
  if 0 < x then A x = true else A (-x) = false

/-- A clause is satisfied when one of its literals is true. -/
def clauseSat (A : ℤ → Bool) (c : CNFClause) : Prop := ∃ x ∈ c.literals, litTrue A x

/-- A system is satisfied when every clause is. -/
def sysSat (A : ℤ → Bool) (S : CNFSystem) : Prop := ∀ c ∈ S.clauses, clauseSat A c

/-- Propositional satisfiability of the clause set. -/
def Satisfiable (S : CNFSystem) : Prop := ∃ A, sysSat A S

/-- The assignment read off an interpretation list. -/
def modelOf (I : List ℤ) : ℤ → Bool := fun v => decide (v ∈ I)

/-- The assignment `A` overridden so that literal `u` becomes true. -/
def forceLit (A : ℤ → Bool) (u : ℤ) : ℤ → Bool :=
  fun v => if v = u ∨ v = -u then decide (0 < u) else A v

/-- Applying a list of clause operations, `none` when some `add` panicked. -/
inductive ClauseOp where
  | addLit : ℤ → ClauseOp
  | removeLit : ℤ → ClauseOp
deriving DecidableEq

/-- Run a sequence of `add`/`remove` operations on a clause. -/
def runOps (c : CNFClause) : List ClauseOp → Option CNFClause
  | [] => some c
  | ClauseOp.addLit x :: rest =>
    match c.add x with
    | none => none
    | some (_, c1) => runOps c1 rest
  | ClauseOp.removeLit x :: rest => runOps (c.remove x).2 rest

/-- Build a clause by `add`ing a list of literals to `CNFClause::new`;
`none` when some literal was `0`. -/
def buildClause (ls : List ℤ) : Option CNFClause :=
  runOps CNFClause.new (ls.map ClauseOp.addLit)

/-! ### List-level helper lemmas -/

theorem mem_insertSorted {x b : ℤ} {l : List ℤ} :
    b ∈ insertSorted x l ↔ b = x ∨ b ∈ l := by
  induction l with
  | nil => simp [insertSorted]
  | cons y ys ih =>
    simp only [insertSorted]
    split_ifs with h1 h2
    · simp only [List.mem_cons]
    · subst h2
      simp only [List.mem_cons]
      tauto
    · simp only [List.mem_cons, ih]
      tauto

theorem sorted_insertSorted {x : ℤ} {l : List ℤ} (h : l.Sorted (· < ·)) :
    (insertSorted x l).Sorted (· < ·) := by
  induction l with
  | nil => simp [insertSorted]
  | cons y ys ih =>
    rw [List.sorted_cons] at h
    simp only [insertSorted]
    split_ifs with h1 h2
    · rw [List.sorted_cons]
      refine ⟨?_, List.sorted_cons.mpr h⟩
      intro b hb
      rcases List.mem_cons.mp hb with rfl | hb
      · exact h1
      · exact h1.trans (h.1 b hb)
    · rw [List.sorted_cons]
      exact h
    · rw [List.sorted_cons]
      refine ⟨?_, ih h.2⟩
      intro b hb
      rcases mem_insertSorted.mp hb with rfl | h3
      · omega
      · exact h.1 b h3

theorem mem_interpExtend {J I : List ℤ} {b : ℤ} :
    b ∈ interpExtend I J ↔ b ∈ I ∨ b ∈ J := by
  induction J generalizing I with
  | nil => simp [interpExtend]
  | cons x xs ih =>
    simp only [interpExtend, List.foldl_cons] at ih ⊢
    rw [ih, mem_insertSorted]
    simp only [List.mem_cons]
    tauto

theorem mem_listExtend {nu acc : List ℤ} {b : ℤ} :
    b ∈ listExtend acc nu ↔ b ∈ acc ∨ b ∈ nu := by
  induction nu generalizing acc with
  | nil => simp [listExtend]
  | cons x xs ih =>
    simp only [listExtend, List.foldl_cons] at ih ⊢
    rw [ih, List.mem_insert_iff]
    simp only [List.mem_cons]
    tauto

theorem foldl_erase_comm {α : Type} [DecidableEq α] (cs : List α) (a : α) (l : List α)
    (h : ∀ x ∈ cs, x ≠ a) : cs.foldl List.erase (a :: l) = a :: cs.foldl List.erase l := by
  induction cs generalizing l with
  | nil => rfl
  | cons c cs ih =>
    simp only [List.foldl_cons]
    rw [List.erase_cons_tail]
    · exact ih _ (fun x hx => h x (List.mem_cons_of_mem _ hx))
    · simp only [beq_iff_eq]
      exact fun hc => h c (List.mem_cons_self _ _) hc.symm

theorem foldl_erase_filter {α : Type} [DecidableEq α] (l : List α) (p : α → Bool) :
    (l.filter p).foldl List.erase l = l.filter (fun a => !(p a)) := by
  induction l with
  | nil => rfl
  | cons a t ih =>
    by_cases h : p a = true
    · rw [List.filter_cons_of_pos h]
      simp only [List.foldl_cons, List.erase_cons_head]
      rw [ih, List.filter_cons_of_neg]
      simp [h]
    · rw [List.filter_cons_of_neg (by simpa using h)]
      rw [foldl_erase_comm]
      · rw [ih, List.filter_cons_of_pos]
        simp only [Bool.not_eq_true'] at h
        simp [h]
      · intro x hx hxa
        subst hxa
        exact h (List.of_mem_filter hx)

/-! ### Clause-level lemmas -/

theorem CNFClause.add_eq_none_iff {c : CNFClause} {lit : ℤ} :
    c.add lit = none ↔ lit = 0 := by
  unfold CNFClause.add
  split_ifs with h
  · simp [h]
  · simp [h]

theorem CNFClause.add_eq_some {c : CNFClause} {lit : ℤ} (h : lit ≠ 0) :
    c.add lit = some (decide (lit ∉ c.literals), ⟨insertSorted lit c.literals⟩) := by
  unfold CNFClause.add
  simp [h]

theorem runOps_no_zero (ops : List ClauseOp) (c c' : CNFClause)
    (h0 : (0 : ℤ) ∉ c.literals) (h : runOps c ops = some c') : (0 : ℤ) ∉ c'.literals := by
  induction ops generalizing c with
  | nil =>
    simp only [runOps, Option.some.injEq] at h
    exact h ▸ h0
  | cons op rest ih =>
    cases op with
    | addLit x =>
      by_cases hx0 : x = 0
      · subst hx0
        simp only [runOps, CNFClause.add_eq_none_iff.mpr rfl] at h
        exact Option.noConfusion h
      · simp only [runOps, CNFClause.add_eq_some hx0] at h
        refine ih _ ?_ h
        intro hmem
        rcases mem_insertSorted.mp hmem with h' | h'
        · exact hx0 h'.symm
        · exact h0 h'
    | removeLit x =>
      simp only [runOps, CNFClause.remove] at h
      refine ih _ ?_ h
      intro hmem
      exact h0 (List.erase_subset _ _ hmem)

theorem runOps_adds_spec (ls : List ℤ) : ∀ (c0 c : CNFClause),
    runOps c0 (ls.map ClauseOp.addLit) = some c →
    (∀ b, b ∈ c.literals ↔ b ∈ ls ∨ b ∈ c0.literals) ∧
    (c0.literals.Sorted (· < ·) → c.literals.Sorted (· < ·)) := by
  induction ls with
  | nil =>
    intro c0 c h
    simp only [List.map_nil, runOps, Option.some.injEq] at h
    subst h
    exact ⟨fun b => by simp, fun h => h⟩
  | cons x xs ih =>
    intro c0 c h
    by_cases hx0 : x = 0
    · subst hx0
      simp only [List.map_cons, runOps, CNFClause.add_eq_none_iff.mpr rfl] at h
      exact Option.noConfusion h
    · simp only [List.map_cons, runOps, CNFClause.add_eq_some hx0] at h
      obtain ⟨hmem, hsort⟩ := ih _ _ h
      constructor
      · intro b
        rw [hmem b]
        simp only [List.mem_cons]
        constructor
        · rintro (hb | hb)
          · tauto
          · rcases mem_insertSorted.mp hb with rfl | hb
            · tauto
            · tauto
        · rintro ((rfl | hb) | hb)
          · exact Or.inr (mem_insertSorted.mpr (Or.inl rfl))
          · tauto
          · exact Or.inr (mem_insertSorted.mpr (Or.inr hb))
      · intro hs
        exact hsort (sorted_insertSorted hs)

theorem buildClause_spec {ls : List ℤ} {c : CNFClause} (h : buildClause ls = some c) :
    (∀ b, b ∈ c.literals ↔ b ∈ ls) ∧ c.literals.Sorted (· < ·) := by
  obtain ⟨hmem, hsort⟩ := runOps_adds_spec ls CNFClause.new c h
  refine ⟨fun b => ?_, hsort (by simp [CNFClause.new])⟩
  rw [hmem b]
  simp [CNFClause.new]

theorem eq_of_sorted_of_mem_iff {l1 l2 : List ℤ} (h1 : l1.Sorted (· < ·))
    (h2 : l2.Sorted (· < ·)) (hm : ∀ b, b ∈ l1 ↔ b ∈ l2) : l1 = l2 := by
  letI : IsAntisymm ℤ (· < ·) := ⟨fun a b hab hba => absurd hba (lt_asymm hab)⟩
  refine List.eq_of_perm_of_sorted ?_ h1 h2
  exact (List.perm_ext_iff_of_nodup h1.nodup h2.nodup).mpr hm

/-! ### Claims about the clause store -/

/-- C6 counterexample: the public constructor `CNFClause::empty` stores the
literal `0`, so it is not true that every clause produced by the public
constructors is free of zero. -/
theorem C6_empty_stores_zero : (0 : ℤ) ∈ CNFClause.empty.literals := by decide

/-- C6 (amended): for every clause produced by `CNFClause::new` followed by
any sequence of `add`/`remove` operations that does not panic, zero is never
a member; only the deliberate unsatisfiable-clause marker `CNFClause::empty`
stores zero. -/
theorem C6_no_zero_reachable (ops : List ClauseOp) (c : CNFClause)
    (h : runOps CNFClause.new ops = some c) : (0 : ℤ) ∉ c.literals :=
  runOps_no_zero ops CNFClause.new c (by simp [CNFClause.new]) h

/-- Witness for C6: a concrete operation sequence. -/
theorem C6_no_zero_reachable_witness :
    (0 : ℤ) ∉ (CNFClause.mk [-2, 5]).literals :=
  C6_no_zero_reachable
    [ClauseOp.addLit 3, ClauseOp.addLit 5, ClauseOp.removeLit 3, ClauseOp.addLit (-2)]
    ⟨[-2, 5]⟩ (by decide)

/-- C7: `CNFClause::add` panics exactly on literal `0`; on a nonzero
literal it returns `true` iff the literal was not already present, and the
resulting clause holds exactly the old literals plus the new one. -/
theorem C7_add_contract (c : CNFClause) (lit : ℤ) :
    (c.add lit = none ↔ lit = 0) ∧
    (∀ b c2, c.add lit = some (b, c2) →
      (b = true ↔ lit ∉ c.literals) ∧ (∀ x, x ∈ c2.literals ↔ x = lit ∨ x ∈ c.literals)) := by
  refine ⟨CNFClause.add_eq_none_iff, ?_⟩
  intro b c2 h
  have hlit : lit ≠ 0 := by
    intro h0
    rw [CNFClause.add_eq_none_iff.mpr h0] at h
    exact Option.noConfusion h
  rw [CNFClause.add_eq_some hlit] at h
  simp only [Option.some.injEq, Prod.mk.injEq] at h
  obtain ⟨hb, hc2⟩ := h
  subst hb
  subst hc2
  exact ⟨by simp, fun x => mem_insertSorted⟩

/-- Witness for C7 at a concrete clause and literal. -/
theorem C7_add_contract_witness :
    ((CNFClause.mk [2]).add 0 = none) ∧
    (true = true ↔ (3 : ℤ) ∉ (CNFClause.mk [2]).literals) := by
  constructor
  · exact (C7_add_contract ⟨[2]⟩ 0).1.mpr rfl
  · exact ((C7_add_contract ⟨[2]⟩ 3).2 true ⟨[2, 3]⟩ (by decide)).1

/-- C9: clauses built by adding the same multiset of nonzero literals in any
two orders are equal, and hence hash equal. -/
theorem C9_perm_build_eq (l1 l2 : List ℤ) (hp : l1.Perm l2)
    (c1 c2 : CNFClause) (h1 : buildClause l1 = some c1) (h2 : buildClause l2 = some c2) :
    c1 = c2 ∧ c1.hashVal = c2.hashVal := by
  obtain ⟨hm1, hs1⟩ := buildClause_spec h1
  obtain ⟨hm2, hs2⟩ := buildClause_spec h2
  have : c1.literals = c2.literals := by
    refine eq_of_sorted_of_mem_iff hs1 hs2 (fun b => ?_)
    rw [hm1 b, hm2 b]
    exact ⟨fun h => hp.mem_iff.mp h, fun h => hp.mem_iff.mpr h⟩
  have hc : c1 = c2 := by
    cases c1
    cases c2
    simpa using this
  exact ⟨hc, by rw [hc]⟩

/-- Witness for C9: two permuted builds with a repeated literal. -/
theorem C9_perm_build_eq_witness :
    CNFClause.mk [-1, 4] = CNFClause.mk [-1, 4] ∧
    (CNFClause.mk [-1, 4]).hashVal = (CNFClause.mk [-1, 4]).hashVal :=
  C9_perm_build_eq [4, -1, 4] [-1, 4, 4] (by decide) ⟨[-1, 4]⟩ ⟨[-1, 4]⟩
    (by decide) (by decide)

/-! ### System-level helper lemmas -/

theorem mem_add_clause {S : CNFSystem} {c d : CNFClause} :
    d ∈ (S.add_clause c).2.clauses ↔ d ∈ S.clauses ∨ d = c := by
  unfold CNFSystem.add_clause
  split_ifs with h
  · constructor
    · exact Or.inl
    · rintro (hd | rfl)
      · exact hd
      · exact h
  · simp

theorem add_clause_nodup {S : CNFSystem} {c : CNFClause} (h : S.clauses.Nodup) :
    (S.add_clause c).2.clauses.Nodup := by
  unfold CNFSystem.add_clause
  split_ifs with hc
  · exact h
  · simp [List.nodup_append, h, hc]

theorem totalLen_erase_add {S : CNFSystem} {c : CNFClause} (h : c ∈ S.clauses) :
    totalLen ⟨S.clauses.erase c⟩ + c.literals.length = totalLen S := by
  have hp : List.Perm S.clauses (c :: S.clauses.erase c) := List.perm_cons_erase h
  have hs := (hp.map (fun d => d.literals.length)).sum_eq
  simp only [totalLen, List.map_cons, List.sum_cons] at hs ⊢
  omega

theorem totalLen_add_clause {S : CNFSystem} {c : CNFClause} :
    totalLen (S.add_clause c).2 ≤ totalLen S + c.literals.length := by
  unfold CNFSystem.add_clause
  split_ifs with h
  · simp [totalLen]
  · simp [totalLen, List.sum_append]

/-! ### Unfolding lemmas for the reduction loop -/

theorem reduceClauses_cons_nil {lit : ℤ} {c : CNFClause} {rest : List CNFClause}
    {W : CNFSystem} {nu : List ℤ} (hcW : c ∈ W.clauses)
    (hL : c.literals.erase (-lit) = []) :
    reduceClauses lit (c :: rest) W nu = none := by
  simp [reduceClauses, CNFSystem.remove_clause, hcW, hL, CNFClause.len]

theorem reduceClauses_cons_one {lit : ℤ} {c : CNFClause} {rest : List CNFClause}
    {W : CNFSystem} {nu : List ℤ} {x : ℤ} (hcW : c ∈ W.clauses)
    (hL : c.literals.erase (-lit) = [x]) :
    reduceClauses lit (c :: rest) W nu =
      reduceClauses lit rest
        ((CNFSystem.mk (W.clauses.erase c)).add_clause ⟨[x]⟩).2 (nu.insert x) := by
  simp [reduceClauses, CNFSystem.remove_clause, hcW, hL, CNFClause.len]

theorem reduceClauses_cons_big {lit : ℤ} {c : CNFClause} {rest : List CNFClause}
    {W : CNFSystem} {nu : List ℤ} {x y : ℤ} {t : List ℤ} (hcW : c ∈ W.clauses)
    (hL : c.literals.erase (-lit) = x :: y :: t) :
    reduceClauses lit (c :: rest) W nu =
      reduceClauses lit rest
        ((CNFSystem.mk (W.clauses.erase c)).add_clause ⟨x :: y :: t⟩).2 nu := by
  simp [reduceClauses, CNFSystem.remove_clause, hcW, hL, CNFClause.len]

theorem reduceClauses_go (lit : ℤ) (todo : List CNFClause) :
    ∀ (W : CNFSystem) (nu : List ℤ),
    (∀ c ∈ todo, c ∈ W.clauses) →
    todo.Nodup →
    W.clauses.Nodup →
    (∀ c ∈ todo, lit ∉ c.literals ∧ -lit ∈ c.literals ∧ c.literals.Nodup) →
    ((reduceClauses lit todo W nu = none ↔ ∃ c ∈ todo, c.literals.erase (-lit) = []) ∧
     ∀ nu' W', reduceClauses lit todo W nu = some (nu', W') →
       (∀ d, d ∈ W'.clauses ↔
          (d ∈ W.clauses ∧ d ∉ todo) ∨ ∃ c ∈ todo, d = ⟨c.literals.erase (-lit)⟩) ∧
       (∀ x, x ∈ nu' ↔ x ∈ nu ∨ ∃ c ∈ todo, c.literals.erase (-lit) = [x]) ∧
       W'.clauses.Nodup ∧
       totalLen W' + todo.length ≤ totalLen W) := by
  induction todo with
  | nil =>
    intro W nu _ _ hWnd _
    refine ⟨by simp [reduceClauses], ?_⟩
    intro nu' W' h
    simp only [reduceClauses, Option.some.injEq, Prod.mk.injEq] at h
    obtain ⟨rfl, rfl⟩ := h
    exact ⟨fun d => by simp, fun x => by simp, hWnd, by simp⟩
  | cons c rest ih =>
    intro W nu hpres hnd hWnd hc
    have hcW : c ∈ W.clauses := hpres c (List.mem_cons_self c rest)
    obtain ⟨hclit, hcneg, hcnodup⟩ := hc c (List.mem_cons_self c rest)
    have hcnotrest : c ∉ rest := (List.nodup_cons.mp hnd).1
    have hndrest : rest.Nodup := (List.nodup_cons.mp hnd).2
    have hcrest : ∀ d ∈ rest, lit ∉ d.literals ∧ -lit ∈ d.literals ∧ d.literals.Nodup :=
      fun d hd => hc d (List.mem_cons_of_mem c hd)
    have hpresrest : ∀ d ∈ rest, d ∈ W.clauses :=
      fun d hd => hpres d (List.mem_cons_of_mem c hd)
    have hnegout : -lit ∉ c.literals.erase (-lit) := hcnodup.not_mem_erase
    rcases hL : c.literals.erase (-lit) with _ | ⟨x, _ | ⟨y, t⟩⟩
    · -- the reduced clause is empty: conflict
      rw [reduceClauses_cons_nil hcW hL]
      refine ⟨⟨fun _ => ⟨c, List.mem_cons_self c rest, hL⟩, fun _ => rfl⟩, ?_⟩
      intro nu' W' h
      exact Option.noConfusion h
    · -- the reduced clause is a unit [x]
      rw [reduceClauses_cons_one hcW hL]
      have hc2rest : (⟨[x]⟩ : CNFClause) ∉ rest := by
        intro hmem
        have := (hcrest _ hmem).2.1
        rw [hL] at hnegout
        simp only [List.mem_singleton] at this
        exact hnegout (by simp [this])
      have hW1nd : (W.clauses.erase c).Nodup := hWnd.erase c
      have hW2nd : ((CNFSystem.mk (W.clauses.erase c)).add_clause ⟨[x]⟩).2.clauses.Nodup :=
        add_clause_nodup hW1nd
      have hpres2 : ∀ d ∈ rest, d ∈ ((CNFSystem.mk (W.clauses.erase c)).add_clause ⟨[x]⟩).2.clauses := by
        intro d hd
        refine mem_add_clause.mpr (Or.inl ?_)
        exact (List.Nodup.mem_erase_iff hWnd).mpr
          ⟨fun h' => hcnotrest (h' ▸ hd), hpresrest d hd⟩
      obtain ⟨ihnone, ihsome⟩ := ih _ (nu.insert x) hpres2 hndrest hW2nd hcrest
      constructor
      · rw [ihnone]
        constructor
        · rintro ⟨d, hd, hde⟩
          exact ⟨d, List.mem_cons_of_mem c hd, hde⟩
        · rintro ⟨d, hd, hde⟩
          rcases List.mem_cons.mp hd with rfl | hd
          · rw [hL] at hde
            exact absurd hde (by simp)
          · exact ⟨d, hd, hde⟩
      · intro nu' W' h
        obtain ⟨ihmem, ihnu, ihnd, ihlen⟩ := ihsome nu' W' h
        refine ⟨?_, ?_, ihnd, ?_⟩
        · intro d
          rw [ihmem d]
          have hW2mem : ∀ e : CNFClause,
              e ∈ ((CNFSystem.mk (W.clauses.erase c)).add_clause ⟨[x]⟩).2.clauses ↔
              (e ≠ c ∧ e ∈ W.clauses) ∨ e = ⟨[x]⟩ := by
            intro e
            rw [mem_add_clause]
            constructor
            · rintro (he | rfl)
              · exact Or.inl ((List.Nodup.mem_erase_iff hWnd).mp he)
              · exact Or.inr rfl
            · rintro (⟨hne, he⟩ | rfl)
              · exact Or.inl ((List.Nodup.mem_erase_iff hWnd).mpr ⟨hne, he⟩)
              · exact Or.inr rfl
          constructor
          · rintro (⟨hdW2, hdrest⟩ | ⟨c', hc', hdc'⟩)
            · rcases (hW2mem d).mp hdW2 with ⟨hne, hdW⟩ | rfl
              · exact Or.inl ⟨hdW, by
                  intro hmem
                  rcases List.mem_cons.mp hmem with rfl | h'
                  · exact hne rfl
                  · exact hdrest h'⟩
              · exact Or.inr ⟨c, List.mem_cons_self c rest, by rw [hL]⟩
            · exact Or.inr ⟨c', List.mem_cons_of_mem c hc', hdc'⟩
          · rintro (⟨hdW, hdall⟩ | ⟨c', hc', hdc'⟩)
            · refine Or.inl ⟨(hW2mem d).mpr (Or.inl ⟨fun h' => hdall (h' ▸ List.mem_cons_self c rest), hdW⟩), ?_⟩
              exact fun h' => hdall (List.mem_cons_of_mem c h')
            · rcases List.mem_cons.mp hc' with rfl | hc'
              · rw [hL] at hdc'
                refine Or.inl ⟨(hW2mem d).mpr (Or.inr hdc'), ?_⟩
                rw [hdc']
                exact hc2rest
              · exact Or.inr ⟨c', hc', hdc'⟩
        · intro z
          rw [ihnu z, List.mem_insert_iff]
          constructor
          · rintro ((rfl | hz) | ⟨c', hc', hce⟩)
            · exact Or.inr ⟨c, List.mem_cons_self c rest, by rw [hL]⟩
            · exact Or.inl hz
            · exact Or.inr ⟨c', List.mem_cons_of_mem c hc', hce⟩
          · rintro (hz | ⟨c', hc', hce⟩)
            · exact Or.inl (Or.inr hz)
            · rcases List.mem_cons.mp hc' with rfl | hc'
              · rw [hL] at hce
                simp only [List.cons.injEq, and_true] at hce
                exact Or.inl (Or.inl hce.symm)
              · exact Or.inr ⟨c', hc', hce⟩
        · have h1 : totalLen ⟨W.clauses.erase c⟩ + c.literals.length = totalLen W :=
            totalLen_erase_add hcW
          have h2 : totalLen ((CNFSystem.mk (W.clauses.erase c)).add_clause ⟨[x]⟩).2 ≤
              totalLen ⟨W.clauses.erase c⟩ + 1 := totalLen_add_clause
          have h3 : c.literals.length = ([x] : List ℤ).length + 1 := by
            have := List.length_erase_of_mem hcneg
            rw [hL] at this
            simp at this ⊢
            omega
          simp only [List.length_cons] at ihlen ⊢
          simp only [List.length_singleton] at h3
          omega
    · -- the reduced clause still has at least two literals
      rw [reduceClauses_cons_big hcW hL]
      have hc2rest : (⟨x :: y :: t⟩ : CNFClause) ∉ rest := by
        intro hmem
        have := (hcrest _ hmem).2.1
        rw [hL] at hnegout
        exact hnegout this
      have hW1nd : (W.clauses.erase c).Nodup := hWnd.erase c
      have hW2nd : ((CNFSystem.mk (W.clauses.erase c)).add_clause ⟨x :: y :: t⟩).2.clauses.Nodup :=
        add_clause_nodup hW1nd
      have hpres2 : ∀ d ∈ rest,
          d ∈ ((CNFSystem.mk (W.clauses.erase c)).add_clause ⟨x :: y :: t⟩).2.clauses := by
        intro d hd
        refine mem_add_clause.mpr (Or.inl ?_)
        exact (List.Nodup.mem_erase_iff hWnd).mpr
          ⟨fun h' => hcnotrest (h' ▸ hd), hpresrest d hd⟩
      obtain ⟨ihnone, ihsome⟩ := ih _ nu hpres2 hndrest hW2nd hcrest
      constructor
      · rw [ihnone]
        constructor
        · rintro ⟨d, hd, hde⟩
          exact ⟨d, List.mem_cons_of_mem c hd, hde⟩
        · rintro ⟨d, hd, hde⟩
          rcases List.mem_cons.mp hd with rfl | hd
          · rw [hL] at hde
            exact absurd hde (by simp)
          · exact ⟨d, hd, hde⟩
      · intro nu' W' h
        obtain ⟨ihmem, ihnu, ihnd, ihlen⟩ := ihsome nu' W' h
        have hW2mem : ∀ e : CNFClause,
            e ∈ ((CNFSystem.mk (W.clauses.erase c)).add_clause ⟨x :: y :: t⟩).2.clauses ↔
            (e ≠ c ∧ e ∈ W.clauses) ∨ e = ⟨x :: y :: t⟩ := by
          intro e
          rw [mem_add_clause]
          constructor
          · rintro (he | rfl)
            · exact Or.inl ((List.Nodup.mem_erase_iff hWnd).mp he)
            · exact Or.inr rfl
          · rintro (⟨hne, he⟩ | rfl)
            · exact Or.inl ((List.Nodup.mem_erase_iff hWnd).mpr ⟨hne, he⟩)
            · exact Or.inr rfl
        refine ⟨?_, ?_, ihnd, ?_⟩
        · intro d
          rw [ihmem d]
          constructor
          · rintro (⟨hdW2, hdrest⟩ | ⟨c', hc', hdc'⟩)
            · rcases (hW2mem d).mp hdW2 with ⟨hne, hdW⟩ | rfl
              · exact Or.inl ⟨hdW, by
                  intro hmem
                  rcases List.mem_cons.mp hmem with rfl | h'
                  · exact hne rfl
                  · exact hdrest h'⟩
              · exact Or.inr ⟨c, List.mem_cons_self c rest, by rw [hL]⟩
            · exact Or.inr ⟨c', List.mem_cons_of_mem c hc', hdc'⟩
          · rintro (⟨hdW, hdall⟩ | ⟨c', hc', hdc'⟩)
            · refine Or.inl ⟨(hW2mem d).mpr (Or.inl ⟨fun h' => hdall (h' ▸ List.mem_cons_self c rest), hdW⟩), ?_⟩
              exact fun h' => hdall (List.mem_cons_of_mem c h')
            · rcases List.mem_cons.mp hc' with rfl | hc'
              · rw [hL] at hdc'
                refine Or.inl ⟨(hW2mem d).mpr (Or.inr hdc'), ?_⟩
                rw [hdc']
                exact hc2rest
              · exact Or.inr ⟨c', hc', hdc'⟩
        · intro z
          rw [ihnu z]
          constructor
          · rintro (hz | ⟨c', hc', hce⟩)
            · exact Or.inl hz
            · exact Or.inr ⟨c', List.mem_cons_of_mem c hc', hce⟩
          · rintro (hz | ⟨c', hc', hce⟩)
            · exact Or.inl hz
            · rcases List.mem_cons.mp hc' with rfl | hc'
              · rw [hL] at hce
                exact absurd hce (by simp)
              · exact Or.inr ⟨c', hc', hce⟩
        · have h1 : totalLen ⟨W.clauses.erase c⟩ + c.literals.length = totalLen W :=
            totalLen_erase_add hcW
          have hproj : (⟨x :: y :: t⟩ : CNFClause).literals.length = t.length + 2 := by
            show (x :: y :: t).length = t.length + 2
            simp only [List.length_cons]
          have h2 : totalLen ((CNFSystem.mk (W.clauses.erase c)).add_clause ⟨x :: y :: t⟩).2 ≤
              totalLen ⟨W.clauses.erase c⟩ + (t.length + 2) := by
            have h5 := @totalLen_add_clause ⟨W.clauses.erase c⟩ ⟨x :: y :: t⟩
            rw [hproj] at h5
            exact h5
          have h3 : c.literals.length = t.length + 3 := by
            have h4 := List.length_erase_of_mem hcneg
            rw [hL] at h4
            simp only [List.length_cons] at h4
            omega
          simp only [List.length_cons] at ihlen ⊢
          omega

/-! ### Characterization of `concurrent_dpll_propagate` -/

theorem removeClauses_clauses (S : CNFSystem) (cs : List CNFClause) :
    (removeClauses S cs).clauses = cs.foldl List.erase S.clauses := by
  unfold removeClauses
  induction cs generalizing S with
  | nil => rfl
  | cons c cs ih =>
    simp only [List.foldl_cons]
    exact ih ⟨S.clauses.erase c⟩

theorem removePhase_clauses (S : CNFSystem) (lit : ℤ) :
    (removeClauses S (S.clauses.filter (fun c => c.contains lit))).clauses
      = S.clauses.filter (fun c => !(c.contains lit)) := by
  rw [removeClauses_clauses, foldl_erase_filter]

theorem erase_eq_nil {l : List ℤ} {a : ℤ} (h : l.erase a = []) : l = [] ∨ l = [a] := by
  cases l with
  | nil => exact Or.inl rfl
  | cons x t =>
    by_cases hx : x = a
    · subst hx
      rw [List.erase_cons_head] at h
      exact Or.inr (by rw [h])
    · rw [List.erase_cons_tail (by simpa using hx)] at h
      exact absurd h (by simp)

theorem contains_eq_true_iff {c : CNFClause} {x : ℤ} : c.contains x = true ↔ x ∈ c.literals := by
  simp [CNFClause.contains]

theorem propagate_todo_spec {S : CNFSystem} {lit : ℤ} {c : CNFClause} :
    c ∈ S.clauses.filter (fun c => !(c.contains lit) && c.contains (-lit)) ↔
      c ∈ S.clauses ∧ lit ∉ c.literals ∧ -lit ∈ c.literals := by
  rw [List.mem_filter]
  simp [CNFClause.contains]

/-- The full input-output characterization of `concurrent_dpll_propagate`
on a well-formed system. -/
theorem propagate_spec {S : CNFSystem} {lit : ℤ} (hwf : WfSystem S) (hlit : lit ≠ 0) :
    (concurrent_dpll_propagate S lit = none ↔ ∃ c ∈ S.clauses, c.literals = [-lit]) ∧
    (∀ nu S', concurrent_dpll_propagate S lit = some (nu, S') →
      (∀ d, d ∈ S'.clauses ↔
        (d ∈ S.clauses ∧ lit ∉ d.literals ∧ -lit ∉ d.literals) ∨
        (∃ c ∈ S.clauses, lit ∉ c.literals ∧ -lit ∈ c.literals ∧ d = ⟨c.literals.erase (-lit)⟩)) ∧
      (∀ x, x ∈ nu ↔
        ∃ c ∈ S.clauses, lit ∉ c.literals ∧ -lit ∈ c.literals ∧ c.literals.erase (-lit) = [x]) ∧
      WfSystem S') := by
  have hS1 := removePhase_clauses S lit
  set todo := S.clauses.filter (fun c => !(c.contains lit) && c.contains (-lit)) with htodo
  set S1 := removeClauses S (S.clauses.filter (fun c => c.contains lit)) with hS1def
  have hpres : ∀ c ∈ todo, c ∈ S1.clauses := by
    intro c hc
    rw [hS1]
    obtain ⟨hcs, h1, _⟩ := propagate_todo_spec.mp hc
    rw [List.mem_filter]
    exact ⟨hcs, by simp [CNFClause.contains, h1]⟩
  have hnd : todo.Nodup := hwf.1.filter _
  have hS1nd : S1.clauses.Nodup := by
    rw [hS1]
    exact hwf.1.filter _
  have hctodo : ∀ c ∈ todo, lit ∉ c.literals ∧ -lit ∈ c.literals ∧ c.literals.Nodup := by
    intro c hc
    obtain ⟨hcs, h1, h2⟩ := propagate_todo_spec.mp hc
    exact ⟨h1, h2, (hwf.2 c hcs).nodup⟩
  obtain ⟨hnone, hsome⟩ := reduceClauses_go lit todo S1 [] hpres hnd hS1nd hctodo
  have hprop : concurrent_dpll_propagate S lit = reduceClauses lit todo S1 [] := rfl
  constructor
  · rw [hprop, hnone]
    constructor
    · rintro ⟨c, hc, hce⟩
      obtain ⟨hcs, h1, h2⟩ := propagate_todo_spec.mp hc
      refine ⟨c, hcs, ?_⟩
      rcases erase_eq_nil hce with h0 | h0
      · rw [h0] at h2
        exact absurd h2 (by simp)
      · exact h0
    · rintro ⟨c, hc, hce⟩
      refine ⟨c, propagate_todo_spec.mpr ⟨hc, ?_, ?_⟩, ?_⟩
      · rw [hce]
        simp only [List.mem_singleton]
        intro h'
        exact hlit (by omega)
      · rw [hce]
        simp
      · rw [hce]
        simp
  · intro nu S' h
    rw [hprop] at h
    obtain ⟨hmem, hnu, hndW, _⟩ := hsome nu S' h
    have hS1mem : ∀ d : CNFClause, d ∈ S1.clauses ↔ d ∈ S.clauses ∧ lit ∉ d.literals := by
      intro d
      rw [hS1, List.mem_filter]
      simp [CNFClause.contains]
    refine ⟨?_, ?_, ?_⟩
    · intro d
      rw [hmem d]
      constructor
      · rintro (⟨hdS1, hdtodo⟩ | ⟨c, hc, hdc⟩)
        · obtain ⟨hdS, hdlit⟩ := (hS1mem d).mp hdS1
          refine Or.inl ⟨hdS, hdlit, ?_⟩
          intro hneg
          exact hdtodo (propagate_todo_spec.mpr ⟨hdS, hdlit, hneg⟩)
        · obtain ⟨hcs, h1, h2⟩ := propagate_todo_spec.mp hc
          exact Or.inr ⟨c, hcs, h1, h2, hdc⟩
      · rintro (⟨hdS, h1, h2⟩ | ⟨c, hcs, h1, h2, hdc⟩)
        · refine Or.inl ⟨(hS1mem d).mpr ⟨hdS, h1⟩, ?_⟩
          intro hdtodo
          exact h2 (propagate_todo_spec.mp hdtodo).2.2
        · exact Or.inr ⟨c, propagate_todo_spec.mpr ⟨hcs, h1, h2⟩, hdc⟩
    · intro x
      rw [hnu x]
      simp only [List.not_mem_nil, false_or]
      constructor
      · rintro ⟨c, hc, hce⟩
        obtain ⟨hcs, h1, h2⟩ := propagate_todo_spec.mp hc
        exact ⟨c, hcs, h1, h2, hce⟩
      · rintro ⟨c, hcs, h1, h2, hce⟩
        exact ⟨c, propagate_todo_spec.mpr ⟨hcs, h1, h2⟩, hce⟩
    · refine ⟨hndW, ?_⟩
      intro d hd
      rcases (hmem d).mp hd with ⟨hdS1, _⟩ | ⟨c, hc, hdc⟩
      · exact hwf.2 d ((hS1mem d).mp hdS1).1
      · obtain ⟨hcs, _, _⟩ := propagate_todo_spec.mp hc
        rw [hdc]
        exact (hwf.2 c hcs).sublist (List.erase_sublist _ _)

/-! ### Size lemmas for propagation (no well-formedness needed) -/

theorem reduceClauses_len (lit : ℤ) (todo : List CNFClause) :
    ∀ (W : CNFSystem) (nu nu' : List ℤ) (W' : CNFSystem),
    (∀ c ∈ todo, -lit ∈ c.literals) →
    reduceClauses lit todo W nu = some (nu', W') →
    totalLen W' ≤ totalLen W ∧ (nu' = nu ∨ totalLen W' < totalLen W) ∧
    ((∃ c ∈ todo, c ∈ W.clauses) → totalLen W' < totalLen W) := by
  induction todo with
  | nil =>
    intro W nu nu' W' _ h
    simp only [reduceClauses, Option.some.injEq, Prod.mk.injEq] at h
    obtain ⟨rfl, rfl⟩ := h
    exact ⟨le_refl _, Or.inl rfl, by rintro ⟨c, hc, -⟩; exact absurd hc (List.not_mem_nil c)⟩
  | cons c rest ih =>
    intro W nu nu' W' hneg h
    have hnegc : -lit ∈ c.literals := hneg c (List.mem_cons_self c rest)
    have hnegrest : ∀ d ∈ rest, -lit ∈ d.literals :=
      fun d hd => hneg d (List.mem_cons_of_mem c hd)
    by_cases hcW : c ∈ W.clauses
    · have hlen1 : totalLen ⟨W.clauses.erase c⟩ + c.literals.length = totalLen W :=
        totalLen_erase_add hcW
      have hle : (c.literals.erase (-lit)).length + 1 = c.literals.length := by
        have := List.length_erase_of_mem hnegc
        have hpos : 0 < c.literals.length := List.length_pos.mpr (List.ne_nil_of_mem hnegc)
        omega
      rcases hL : c.literals.erase (-lit) with _ | ⟨x, _ | ⟨y, t⟩⟩
      · rw [reduceClauses_cons_nil hcW hL] at h
        exact Option.noConfusion h
      · rw [reduceClauses_cons_one hcW hL] at h
        obtain ⟨ih1, _, _⟩ := ih _ _ _ _ hnegrest h
        have h2 : totalLen ((CNFSystem.mk (W.clauses.erase c)).add_clause ⟨[x]⟩).2 ≤
            totalLen ⟨W.clauses.erase c⟩ + 1 := by
          have h5 := @totalLen_add_clause ⟨W.clauses.erase c⟩ ⟨[x]⟩
          simpa using h5
        rw [hL] at hle
        simp only [List.length_singleton] at hle
        have : totalLen W' < totalLen W := by omega
        exact ⟨le_of_lt this, Or.inr this, fun _ => this⟩
      · rw [reduceClauses_cons_big hcW hL] at h
        obtain ⟨ih1, _, _⟩ := ih _ _ _ _ hnegrest h
        have h2 : totalLen ((CNFSystem.mk (W.clauses.erase c)).add_clause ⟨x :: y :: t⟩).2 ≤
            totalLen ⟨W.clauses.erase c⟩ + (t.length + 2) := by
          have h5 := @totalLen_add_clause ⟨W.clauses.erase c⟩ ⟨x :: y :: t⟩
          have hproj : (⟨x :: y :: t⟩ : CNFClause).literals.length = t.length + 2 := by
            show (x :: y :: t).length = t.length + 2
            simp only [List.length_cons]
          rw [hproj] at h5
          exact h5
        rw [hL] at hle
        simp only [List.length_cons] at hle
        have : totalLen W' < totalLen W := by omega
        exact ⟨le_of_lt this, Or.inr this, fun _ => this⟩
    · have hguard : (W.remove_clause c).1 = false := by
        simp [CNFSystem.remove_clause, hcW]
      have hW2 : (W.remove_clause c).2 = W := by
        simp only [CNFSystem.remove_clause]
        rw [List.erase_of_not_mem hcW]
      have hstep : reduceClauses lit (c :: rest) W nu = reduceClauses lit rest W nu := by
        simp only [reduceClauses]
        rw [hguard, hW2]
        simp
      rw [hstep] at h
      obtain ⟨ih1, ih2, ih3⟩ := ih _ _ _ _ hnegrest h
      refine ⟨ih1, ih2, ?_⟩
      rintro ⟨d, hd, hdW⟩
      rcases List.mem_cons.mp hd with rfl | hd
      · exact absurd hdW hcW
      · exact ih3 ⟨d, hd, hdW⟩

theorem totalLen_filter_split (l : List CNFClause) (p : CNFClause → Bool) :
    totalLen ⟨l.filter p⟩ + totalLen ⟨l.filter (fun c => !(p c))⟩ = totalLen ⟨l⟩ := by
  induction l with
  | nil => rfl
  | cons a t ih =>
    by_cases h : p a = true
    · rw [List.filter_cons_of_pos h, List.filter_cons_of_neg (by simp [h])]
      simp only [totalLen, List.map_cons, List.sum_cons] at ih ⊢
      omega
    · rw [List.filter_cons_of_neg (by simpa using h), List.filter_cons_of_pos (by simp [h])]
      simp only [totalLen, List.map_cons, List.sum_cons] at ih ⊢
      omega

theorem one_le_totalLen_of_mem {l : List CNFClause} {c : CNFClause}
    (hc : c ∈ l) (hne : c.literals ≠ []) : 1 ≤ totalLen ⟨l⟩ := by
  induction l with
  | nil => exact absurd hc (List.not_mem_nil c)
  | cons a t ih =>
    simp only [totalLen, List.map_cons, List.sum_cons]
    rcases List.mem_cons.mp hc with rfl | hc
    · have : 0 < c.literals.length := List.length_pos.mpr hne
      omega
    · have := ih hc
      simp only [totalLen] at this
      omega

/-- Propagation never grows the system, strictly shrinks it when it reveals
units or when the literal's variable occurs. -/
theorem propagate_len {S : CNFSystem} {lit : ℤ} {nu : List ℤ} {S' : CNFSystem}
    (h : concurrent_dpll_propagate S lit = some (nu, S')) :
    totalLen S' ≤ totalLen S ∧ (nu ≠ [] → totalLen S' < totalLen S) ∧
    ((occursB S lit = true ∨ occursB S (-lit) = true) → totalLen S' < totalLen S) := by
  have hneg : ∀ c ∈ S.clauses.filter (fun c => !(c.contains lit) && c.contains (-lit)),
      -lit ∈ c.literals := fun c hc => (propagate_todo_spec.mp hc).2.2
  have hS1 := removePhase_clauses S lit
  obtain ⟨h1, h2, h3⟩ := reduceClauses_len lit _ _ _ _ _ hneg h
  have hsplit := totalLen_filter_split S.clauses (fun c => c.contains lit)
  have hS1le : totalLen (removeClauses S (S.clauses.filter (fun c => c.contains lit))) ≤
      totalLen S := by
    have : totalLen (removeClauses S (S.clauses.filter (fun c => c.contains lit))) =
        totalLen ⟨S.clauses.filter (fun c => !(c.contains lit))⟩ := by
      simp only [totalLen, hS1]
    rw [this]
    have hS2 : totalLen ⟨S.clauses⟩ = totalLen S := rfl
    omega
  refine ⟨le_trans h1 hS1le, ?_, ?_⟩
  · intro hnu
    rcases h2 with rfl | hlt
    · exact absurd rfl hnu
    · exact lt_of_lt_of_le hlt hS1le
  · rintro (hocc | hocc)
    · -- some clause contains lit: the removal phase already shrinks the system
      simp only [occursB, List.any_eq_true, decide_eq_true_eq] at hocc
      obtain ⟨c, hc, hlitc⟩ := hocc
      have hcf : c ∈ S.clauses.filter (fun c => c.contains lit) :=
        List.mem_filter.mpr ⟨hc, by simp [CNFClause.contains, hlitc]⟩
      have hone : 1 ≤ totalLen ⟨S.clauses.filter (fun c => c.contains lit)⟩ :=
        one_le_totalLen_of_mem hcf (List.ne_nil_of_mem hlitc)
      have hS1lt : totalLen (removeClauses S (S.clauses.filter (fun c => c.contains lit))) <
          totalLen S := by
        have heq : totalLen (removeClauses S (S.clauses.filter (fun c => c.contains lit))) =
            totalLen ⟨S.clauses.filter (fun c => !(c.contains lit))⟩ := by
          simp only [totalLen, hS1]
        have hS2 : totalLen ⟨S.clauses⟩ = totalLen S := rfl
        omega
      exact lt_of_le_of_lt h1 hS1lt
    · -- some clause contains -lit: either it also contains lit (removed) or it is reduced
      simp only [occursB, List.any_eq_true, decide_eq_true_eq] at hocc
      obtain ⟨c, hc, hnegc⟩ := hocc
      by_cases hlitc : lit ∈ c.literals
      · have hcf : c ∈ S.clauses.filter (fun c => c.contains lit) :=
          List.mem_filter.mpr ⟨hc, by simp [CNFClause.contains, hlitc]⟩
        have hone : 1 ≤ totalLen ⟨S.clauses.filter (fun c => c.contains lit)⟩ :=
          one_le_totalLen_of_mem hcf (List.ne_nil_of_mem hlitc)
        have hS1lt : totalLen (removeClauses S (S.clauses.filter (fun c => c.contains lit))) <
            totalLen S := by
          have heq : totalLen (removeClauses S (S.clauses.filter (fun c => c.contains lit))) =
              totalLen ⟨S.clauses.filter (fun c => !(c.contains lit))⟩ := by
            simp only [totalLen, hS1]
          have hS2 : totalLen ⟨S.clauses⟩ = totalLen S := rfl
          omega
        exact lt_of_le_of_lt h1 hS1lt
      · refine lt_of_lt_of_le (h3 ⟨c, propagate_todo_spec.mpr ⟨hc, hlitc, hnegc⟩, ?_⟩) hS1le
        show c ∈ (removeClauses S (S.clauses.filter (fun c => c.contains lit))).clauses
        rw [hS1, List.mem_filter]
        exact ⟨hc, by simp [CNFClause.contains, hlitc]⟩

/-- A propagation that touches nothing is the identity. -/
theorem propagate_no_op {S : CNFSystem} {lit : ℤ}
    (h1 : occursB S lit = false) (h2 : occursB S (-lit) = false) :
    concurrent_dpll_propagate S lit = some ([], S) := by
  have hf1 : S.clauses.filter (fun c => c.contains lit) = [] := by
    rw [List.filter_eq_nil_iff]
    intro c hc
    simp only [occursB, List.any_eq_false, decide_eq_true_eq] at h1
    simp [CNFClause.contains, h1 c hc]
  have hf2 : S.clauses.filter (fun c => !(c.contains lit) && c.contains (-lit)) = [] := by
    rw [List.filter_eq_nil_iff]
    intro c hc
    simp only [occursB, List.any_eq_false, decide_eq_true_eq] at h2
    simp [CNFClause.contains, h2 c hc]
  show reduceClauses lit _ (removeClauses S _) [] = some ([], S)
  rw [hf1, hf2]
  rfl

/-! ### Corollaries of the propagation characterization -/

theorem occursB_iff {S : CNFSystem} {x : ℤ} :
    occursB S x = true ↔ ∃ c ∈ S.clauses, x ∈ c.literals := by
  simp [occursB]

theorem propagate_wf {S : CNFSystem} {lit : ℤ} {nu : List ℤ} {S' : CNFSystem}
    (hwf : WfSystem S) (hlit : lit ≠ 0)
    (h : concurrent_dpll_propagate S lit = some (nu, S')) : WfSystem S' :=
  ((propagate_spec hwf hlit).2 nu S' h).2.2

theorem propagate_scrub {S : CNFSystem} {lit : ℤ} {nu : List ℤ} {S' : CNFSystem}
    (hwf : WfSystem S) (hlit : lit ≠ 0)
    (h : concurrent_dpll_propagate S lit = some (nu, S')) :
    ∀ d ∈ S'.clauses, lit ∉ d.literals ∧ -lit ∉ d.literals := by
  intro d hd
  rcases (((propagate_spec hwf hlit).2 nu S' h).1 d).mp hd with ⟨_, h1, h2⟩ | ⟨c, hc, h1, _, hdc⟩
  · exact ⟨h1, h2⟩
  · subst hdc
    constructor
    · intro hmem
      exact h1 (List.erase_subset _ _ hmem)
    · exact ((hwf.2 c hc).nodup).not_mem_erase

theorem propagate_subset_lits {S : CNFSystem} {lit : ℤ} {nu : List ℤ} {S' : CNFSystem}
    (hwf : WfSystem S) (hlit : lit ≠ 0)
    (h : concurrent_dpll_propagate S lit = some (nu, S')) :
    ∀ d ∈ S'.clauses, ∃ c ∈ S.clauses, d.literals ⊆ c.literals := by
  intro d hd
  rcases (((propagate_spec hwf hlit).2 nu S' h).1 d).mp hd with ⟨hdS, _, _⟩ | ⟨c, hc, _, _, hdc⟩
  · exact ⟨d, hdS, fun x hx => hx⟩
  · subst hdc
    exact ⟨c, hc, fun x hx => List.erase_subset _ _ hx⟩

theorem propagate_occurs_mono {S : CNFSystem} {lit : ℤ} {nu : List ℤ} {S' : CNFSystem}
    (hwf : WfSystem S) (hlit : lit ≠ 0)
    (h : concurrent_dpll_propagate S lit = some (nu, S')) :
    ∀ x, occursB S' x = true → occursB S x = true := by
  intro x hx
  obtain ⟨d, hd, hxd⟩ := occursB_iff.mp hx
  obtain ⟨c, hc, hsub⟩ := propagate_subset_lits hwf hlit h d hd
  exact occursB_iff.mpr ⟨c, hc, hsub hxd⟩

theorem propagate_NoZero {S : CNFSystem} {lit : ℤ} {nu : List ℤ} {S' : CNFSystem}
    (hwf : WfSystem S) (hlit : lit ≠ 0)
    (h : concurrent_dpll_propagate S lit = some (nu, S')) (hz : NoZero S) : NoZero S' := by
  intro d hd hmem
  obtain ⟨c, hc, hsub⟩ := propagate_subset_lits hwf hlit h d hd
  exact hz c hc (hsub hmem)

theorem propagate_NoEmpty {S : CNFSystem} {lit : ℤ} {nu : List ℤ} {S' : CNFSystem}
    (hwf : WfSystem S) (hlit : lit ≠ 0)
    (h : concurrent_dpll_propagate S lit = some (nu, S')) (hne : NoEmptyClause S) :
    NoEmptyClause S' := by
  intro d hd
  rcases (((propagate_spec hwf hlit).2 nu S' h).1 d).mp hd with ⟨hdS, _, _⟩ | ⟨c, hc, _, hcneg, hdc⟩
  · exact hne d hdS
  · subst hdc
    intro hnil
    simp only at hnil
    have : c.literals = [-lit] := by
      rcases erase_eq_nil hnil with h0 | h0
      · rw [h0] at hcneg
        exact absurd hcneg (List.not_mem_nil _)
      · exact h0
    have := (propagate_spec hwf hlit).1.mpr ⟨c, hc, this⟩
    rw [this] at h
    exact Option.noConfusion h

theorem propagate_cover {S : CNFSystem} {lit : ℤ} {nu : List ℤ} {S' : CNFSystem}
    (hwf : WfSystem S) (hlit : lit ≠ 0)
    (h : concurrent_dpll_propagate S lit = some (nu, S')) :
    ∀ c ∈ S.clauses, lit ∈ c.literals ∨ ∃ r ∈ S'.clauses, r.literals ⊆ c.literals := by
  intro c hc
  by_cases hlitc : lit ∈ c.literals
  · exact Or.inl hlitc
  · by_cases hneg : -lit ∈ c.literals
    · refine Or.inr ⟨⟨c.literals.erase (-lit)⟩, ?_, fun x hx => List.erase_subset _ _ hx⟩
      exact (((propagate_spec hwf hlit).2 nu S' h).1 _).mpr (Or.inr ⟨c, hc, hlitc, hneg, rfl⟩)
    · refine Or.inr ⟨c, ?_, fun x hx => hx⟩
      exact (((propagate_spec hwf hlit).2 nu S' h).1 _).mpr (Or.inl ⟨hc, hlitc, hneg⟩)

theorem propagate_units {S : CNFSystem} {lit : ℤ} {nu : List ℤ} {S' : CNFSystem}
    (hwf : WfSystem S) (hlit : lit ≠ 0)
    (h : concurrent_dpll_propagate S lit = some (nu, S')) :
    ∀ x ∈ nu, (⟨[x]⟩ : CNFClause) ∈ S'.clauses ∧ x ≠ lit ∧ x ≠ -lit ∧ occursB S x = true := by
  intro x hx
  obtain ⟨c, hc, h1, h2, h3⟩ := (((propagate_spec hwf hlit).2 nu S' h).2.1 x).mp hx
  have hxc : x ∈ c.literals := List.erase_subset _ _ (h3 ▸ List.mem_singleton_self x)
  refine ⟨?_, ?_, ?_, occursB_iff.mpr ⟨c, hc, hxc⟩⟩
  · have := (((propagate_spec hwf hlit).2 nu S' h).1 _).mpr (Or.inr ⟨c, hc, h1, h2, rfl⟩)
    rw [h3] at this
    exact this
  · intro hxl
    exact h1 (hxl ▸ hxc)
  · intro hxl
    have : x ∈ c.literals.erase (-lit) := h3 ▸ List.mem_singleton_self x
    rw [hxl] at this
    exact ((hwf.2 c hc).nodup).not_mem_erase this

theorem propagate_singleton_kept {S : CNFSystem} {lit : ℤ} {nu : List ℤ} {S' : CNFSystem}
    (hwf : WfSystem S) (hlit : lit ≠ 0)
    (h : concurrent_dpll_propagate S lit = some (nu, S')) {v : ℤ}
    (hv : (⟨[v]⟩ : CNFClause) ∈ S.clauses) (h1 : v ≠ lit) (h2 : v ≠ -lit) :
    (⟨[v]⟩ : CNFClause) ∈ S'.clauses := by
  refine (((propagate_spec hwf hlit).2 nu S' h).1 _).mpr (Or.inl ⟨hv, ?_, ?_⟩)
  · simpa using fun h' => h1 h'.symm
  · simpa using fun h' => h2 h'.symm

theorem propagate_conflict_unit {S : CNFSystem} {lit : ℤ}
    (hwf : WfSystem S) (hlit : lit ≠ 0)
    (hv : (⟨[-lit]⟩ : CNFClause) ∈ S.clauses) :
    concurrent_dpll_propagate S lit = none :=
  (propagate_spec hwf hlit).1.mpr ⟨⟨[-lit]⟩, hv, rfl⟩

/-- C2: on a well-formed system and nonzero literal, propagation removes
every clause containing `l`, removes `-l` from every remaining clause that
contained it (keeping the clause), leaves everything else, conflicts iff
some clause is thereby emptied, and returns exactly the literals of the
clauses reduced to length one. -/
theorem C2_propagate_contract (S : CNFSystem) (lit : ℤ) (hwf : WfSystem S) (hlit : lit ≠ 0) :
    (concurrent_dpll_propagate S lit = none ↔
      ∃ c ∈ S.clauses, lit ∉ c.literals ∧ -lit ∈ c.literals ∧ c.literals.erase (-lit) = []) ∧
    (∀ nu S', concurrent_dpll_propagate S lit = some (nu, S') →
      (∀ c ∈ S.clauses, lit ∈ c.literals → c ∉ S'.clauses) ∧
      (∀ c ∈ S.clauses, lit ∉ c.literals → -lit ∈ c.literals →
        (⟨c.literals.erase (-lit)⟩ : CNFClause) ∈ S'.clauses) ∧
      (∀ c ∈ S.clauses, lit ∉ c.literals → -lit ∉ c.literals → c ∈ S'.clauses) ∧
      (∀ d ∈ S'.clauses, lit ∉ d.literals ∧ -lit ∉ d.literals) ∧
      (∀ x, x ∈ nu ↔
        ∃ c ∈ S.clauses, lit ∉ c.literals ∧ -lit ∈ c.literals ∧ c.literals.erase (-lit) = [x])) := by
  obtain ⟨hnone, hsome⟩ := propagate_spec hwf hlit
  constructor
  · rw [hnone]
    constructor
    · rintro ⟨c, hc, hce⟩
      refine ⟨c, hc, ?_, ?_, ?_⟩
      · rw [hce]
        simp only [List.mem_singleton]
        intro h'
        exact hlit (by omega)
      · rw [hce]
        simp
      · rw [hce]
        simp
    · rintro ⟨c, hc, _, hneg, hce⟩
      refine ⟨c, hc, ?_⟩
      rcases erase_eq_nil hce with h0 | h0
      · rw [h0] at hneg
        exact absurd hneg (List.not_mem_nil _)
      · exact h0
  · intro nu S' h
    obtain ⟨hmem, hnu, _⟩ := hsome nu S' h
    refine ⟨?_, ?_, ?_, ?_, hnu⟩
    · intro c hc hlitc hcS'
      exact (propagate_scrub hwf hlit h c hcS').1 hlitc
    · intro c hc h1 h2
      exact (hmem _).mpr (Or.inr ⟨c, hc, h1, h2, rfl⟩)
    · intro c hc h1 h2
      exact (hmem c).mpr (Or.inl ⟨hc, h1, h2⟩)
    · exact propagate_scrub hwf hlit h

/-- Witness for C2: a concrete propagation with one removal, one reduction
to a new unit, and the contract's unit set. -/
theorem C2_propagate_contract_witness :
    concurrent_dpll_propagate ⟨[⟨[1, 2]⟩, ⟨[-2, 3]⟩, ⟨[2]⟩]⟩ 2 = some ([3], ⟨[⟨[3]⟩]⟩) ∧
    ((3 : ℤ) ∈ [(3 : ℤ)] ↔ ∃ c ∈ [(⟨[1, 2]⟩ : CNFClause), ⟨[-2, 3]⟩, ⟨[2]⟩],
      (2 : ℤ) ∉ c.literals ∧ (-2 : ℤ) ∈ c.literals ∧ c.literals.erase (-2) = [3]) := by
  refine ⟨by decide, ?_⟩
  have h := (C2_propagate_contract ⟨[⟨[1, 2]⟩, ⟨[-2, 3]⟩, ⟨[2]⟩]⟩ 2
    ⟨by decide, by decide⟩ (by decide)).2 [3] ⟨[⟨[3]⟩]⟩ (by decide)
  exact h.2.2.2.2 3

/-! ### The unit-propagation loop of `concurrent_dpll` -/

theorem processUnits_len (us : List ℤ) : ∀ (S : CNFSystem) (interp rev : List ℤ)
    (S1 : CNFSystem) (i1 rev1 : List ℤ),
    processUnits us S interp rev = Except.ok (S1, i1, rev1) →
    totalLen S1 ≤ totalLen S ∧ (totalLen S1 = totalLen S → rev1 = rev) := by
  induction us with
  | nil =>
    intro S interp rev S1 i1 rev1 h
    simp only [processUnits, Except.ok.injEq, Prod.mk.injEq] at h
    obtain ⟨rfl, rfl, rfl⟩ := h
    exact ⟨le_refl _, fun _ => rfl⟩
  | cons u rest ih =>
    intro S interp rev S1 i1 rev1 h
    rcases hp : concurrent_dpll_propagate S u with _ | ⟨nu, Snext⟩
    · simp only [processUnits, hp] at h
      exact Except.noConfusion h
    · simp only [processUnits, hp] at h
      by_cases hlen : Snext.len = 0
      · rw [if_pos hlen] at h
        exact Except.noConfusion h
      · rw [if_neg hlen] at h
        obtain ⟨hle, heq⟩ := ih _ _ _ _ _ _ h
        obtain ⟨hple, hpnu, _⟩ := propagate_len hp
        refine ⟨le_trans hle hple, ?_⟩
        intro heq2
        have h1 : totalLen Snext = totalLen S := le_antisymm hple (heq2 ▸ hle)
        have hnu : nu = [] := by
          by_contra hne
          exact absurd h1 (ne_of_lt (hpnu hne))
        have := heq (by omega)
        rw [this, hnu]
        rfl

theorem processUnits_rel (us : List ℤ) : ∀ (S : CNFSystem) (interp rev : List ℤ)
    (S1 : CNFSystem) (i1 rev1 : List ℤ),
    (∃ u ∈ us, occursB S u = true ∨ occursB S (-u) = true) →
    processUnits us S interp rev = Except.ok (S1, i1, rev1) →
    totalLen S1 < totalLen S := by
  induction us with
  | nil =>
    rintro S interp rev S1 i1 rev1 ⟨u, hu, -⟩ h
    exact absurd hu (List.not_mem_nil u)
  | cons u rest ih =>
    rintro S interp rev S1 i1 rev1 ⟨w, hw, hocc⟩ h
    rcases hp : concurrent_dpll_propagate S u with _ | ⟨nu, Snext⟩
    · simp only [processUnits, hp] at h
      exact Except.noConfusion h
    · simp only [processUnits, hp] at h
      by_cases hlen : Snext.len = 0
      · rw [if_pos hlen] at h
        exact Except.noConfusion h
      · rw [if_neg hlen] at h
        by_cases htouch : occursB S u = true ∨ occursB S (-u) = true
        · obtain ⟨hple, _, hptouch⟩ := propagate_len hp
          obtain ⟨hle, _⟩ := processUnits_len rest _ _ _ _ _ _ h
          exact lt_of_le_of_lt hle (hptouch htouch)
        · push_neg at htouch
          obtain ⟨h1, h2⟩ := htouch
          have hno := propagate_no_op (by simpa using h1) (by simpa using h2)
          rw [hno] at hp
          injection hp with hp'
          obtain ⟨rfl, rfl⟩ := Prod.mk.injEq _ _ _ _ |>.mp hp'.symm
          rcases List.mem_cons.mp hw with rfl | hw
          · rcases hocc with hc | hc
            · exact absurd hc (by simpa using h1)
            · exact absurd hc (by simpa using h2)
          · exact ih _ _ _ _ _ _ ⟨w, hw, hocc⟩ h

theorem propagateUnits_suff (g : ℕ) : ∀ (S : CNFSystem) (units interp : List ℤ),
    totalLen S + 2 ≤ g → propagateUnits g S units interp ≠ none := by
  induction g with
  | zero => intro S units interp h; omega
  | succ f ih =>
    intro S units interp hg
    rw [propagateUnits]
    by_cases hl : units.length = 0
    · rw [if_pos hl]
      exact Option.noConfusion
    · rw [if_neg hl]
      rcases hpr : processUnits units S interp [] with r | ⟨S1, i1, rev⟩
      · exact Option.noConfusion
      · rcases hrev : rev with _ | ⟨x, xs⟩
        · cases f with
          | zero => omega
          | succ f2 =>
            show propagateUnits (f2 + 1) S1 [] i1 ≠ none
            rw [propagateUnits]
            norm_num
            exact Option.noConfusion
        · obtain ⟨hle, heq⟩ := processUnits_len units _ _ _ _ _ _ hpr
          have hlt : totalLen S1 < totalLen S := by
            rcases lt_or_eq_of_le hle with h' | h'
            · exact h'
            · have := heq h'
              rw [hrev] at this
              exact absurd this (by simp)
          show propagateUnits f S1 (x :: xs) i1 ≠ none
          exact ih S1 (x :: xs) i1 (by omega)

theorem propagateUnits_len (g : ℕ) : ∀ (S : CNFSystem) (units interp : List ℤ)
    (S1 : CNFSystem) (i1 : List ℤ),
    propagateUnits g S units interp = some (Except.ok (S1, i1)) →
    totalLen S1 ≤ totalLen S ∧
    (relevantB S units = true → totalLen S1 < totalLen S) := by
  induction g with
  | zero =>
    intro S units interp S1 i1 h
    exact Option.noConfusion h
  | succ f ih =>
    intro S units interp S1 i1 h
    rw [propagateUnits] at h
    by_cases hl : units.length = 0
    · rw [if_pos hl] at h
      simp only [Option.some.injEq, Except.ok.injEq, Prod.mk.injEq] at h
      obtain ⟨rfl, rfl⟩ := h
      refine ⟨le_refl _, ?_⟩
      intro hrel
      rw [List.length_eq_zero] at hl
      subst hl
      simp [relevantB] at hrel
    · rw [if_neg hl] at h
      rcases hpr : processUnits units S interp [] with r | ⟨S2, i2, rev⟩
      · rw [hpr] at h
        simp only [Option.some.injEq] at h
        exact Except.noConfusion h
      · rw [hpr] at h
        obtain ⟨hle2, _⟩ := processUnits_len units _ _ _ _ _ _ hpr
        obtain ⟨hle1, _⟩ := ih _ _ _ _ _ h
        refine ⟨le_trans hle1 hle2, ?_⟩
        intro hrel
        simp only [relevantB, List.any_eq_true, Bool.or_eq_true] at hrel
        obtain ⟨u, hu, hocc⟩ := hrel
        have := processUnits_rel units _ _ _ _ _ _ ⟨u, hu, hocc⟩ hpr
        omega

/-! ### Step lemmas and fuel facts for `dpllF` -/

theorem decisionLiteral_occurs {S : CNFSystem} {l : ℤ}
    (h : decisionLiteral S = some l) : occursB S l = true := by
  unfold decisionLiteral at h
  rcases hS : S.clauses with _ | ⟨c, rest⟩
  · rw [hS] at h
    exact Option.noConfusion h
  · rw [hS] at h
    refine occursB_iff.mpr ⟨c, by rw [hS]; exact List.mem_cons_self c rest, ?_⟩
    exact List.mem_of_mem_head? h

theorem dpllF_step_error {f : ℕ} {S : CNFSystem} {units : List ℤ} {tc : ℤ}
    {r : ClauseType × List ℤ}
    (hq : propagateUnits (totalLen S + 2) S units [] = some (Except.error r)) :
    dpllF (f + 1) S units tc = some (some r) := by
  simp [dpllF, hq]

theorem dpllF_step_panic {f : ℕ} {S : CNFSystem} {units : List ℤ} {tc : ℤ}
    {S1 : CNFSystem} {interp : List ℤ}
    (hq : propagateUnits (totalLen S + 2) S units [] = some (Except.ok (S1, interp)))
    (hd : decisionLiteral S1 = none) :
    dpllF (f + 1) S units tc = some none := by
  simp [dpllF, hq, hd]

theorem dpllF_step_some {f : ℕ} {S : CNFSystem} {units : List ℤ} {tc : ℤ}
    {S1 : CNFSystem} {interp : List ℤ} {l : ℤ} {a b : Option (ClauseType × List ℤ)}
    (hq : propagateUnits (totalLen S + 2) S units [] = some (Except.ok (S1, interp)))
    (hd : decisionLiteral S1 = some l)
    (hp : dpllF f S1 [l] (if 2 ≤ tc then tc - 2 else 0) = some a)
    (hn : dpllF f S1 [-l] (if 2 ≤ tc then tc - 2 else 0) = some b) :
    dpllF (f + 1) S units tc = some (combineRes interp a b) := by
  simp [dpllF, hq, hd, hp, hn]

theorem dpllF_step_posfuel {f : ℕ} {S : CNFSystem} {units : List ℤ} {tc : ℤ}
    {S1 : CNFSystem} {interp : List ℤ} {l : ℤ}
    (hq : propagateUnits (totalLen S + 2) S units [] = some (Except.ok (S1, interp)))
    (hd : decisionLiteral S1 = some l)
    (hp : dpllF f S1 [l] (if 2 ≤ tc then tc - 2 else 0) = none) :
    dpllF (f + 1) S units tc = none := by
  simp [dpllF, hq, hd, hp]

theorem dpllF_step_negfuel {f : ℕ} {S : CNFSystem} {units : List ℤ} {tc : ℤ}
    {S1 : CNFSystem} {interp : List ℤ} {l : ℤ} {a : Option (ClauseType × List ℤ)}
    (hq : propagateUnits (totalLen S + 2) S units [] = some (Except.ok (S1, interp)))
    (hd : decisionLiteral S1 = some l)
    (hp : dpllF f S1 [l] (if 2 ≤ tc then tc - 2 else 0) = some a)
    (hn : dpllF f S1 [-l] (if 2 ≤ tc then tc - 2 else 0) = none) :
    dpllF (f + 1) S units tc = none := by
  simp [dpllF, hq, hd, hp, hn]

theorem relevantB_single_pos {S : CNFSystem} {l : ℤ} (h : occursB S l = true) :
    relevantB S [l] = true := by
  simp [relevantB, h]

theorem relevantB_single_neg {S : CNFSystem} {l : ℤ} (h : occursB S l = true) :
    relevantB S [-l] = true := by
  simp only [relevantB, List.any_cons, List.any_nil, Bool.or_false, Bool.or_eq_true]
  right
  rw [neg_neg]
  exact h

theorem dpllF_suff (f : ℕ) : ∀ (S : CNFSystem) (units : List ℤ) (tc : ℤ),
    2 * totalLen S + (if relevantB S units = true then 0 else 1) < f →
    dpllF f S units tc ≠ none := by
  induction f with
  | zero =>
    intro S units tc hf
    split_ifs at hf <;> omega
  | succ f ih =>
    intro S units tc hf
    rcases hq : propagateUnits (totalLen S + 2) S units [] with _ | (r | ⟨S1, interp⟩)
    · exact absurd hq (propagateUnits_suff _ S units [] (by omega))
    · rw [dpllF_step_error hq]
      exact Option.noConfusion
    · rcases hd : decisionLiteral S1 with _ | l
      · rw [dpllF_step_panic hq hd]
        exact Option.noConfusion
      · have hocc : occursB S1 l = true := decisionLiteral_occurs hd
        obtain ⟨hle, hrel⟩ := propagateUnits_len _ _ _ _ _ _ hq
        have hfS1 : 2 * totalLen S1 < f := by
          by_cases hR : relevantB S units = true
          · have := hrel hR
            rw [if_pos hR] at hf
            omega
          · rw [if_neg hR] at hf
            omega
        have hb1 : 2 * totalLen S1 + (if relevantB S1 [l] = true then 0 else 1) < f := by
          rw [if_pos (relevantB_single_pos hocc)]
          omega
        have hb2 : 2 * totalLen S1 + (if relevantB S1 [-l] = true then 0 else 1) < f := by
          rw [if_pos (relevantB_single_neg hocc)]
          omega
        rcases hp : dpllF f S1 [l] (if 2 ≤ tc then tc - 2 else 0) with _ | a
        · exact absurd hp (ih S1 [l] _ hb1)
        · rcases hn : dpllF f S1 [-l] (if 2 ≤ tc then tc - 2 else 0) with _ | b
          · exact absurd hn (ih S1 [-l] _ hb2)
          · rw [dpllF_step_some hq hd hp hn]
            exact Option.noConfusion

theorem dpllF_fuel_irrel (f1 : ℕ) : ∀ (f2 : ℕ) (S : CNFSystem) (units : List ℤ) (tc : ℤ),
    2 * totalLen S + (if relevantB S units = true then 0 else 1) < f1 →
    2 * totalLen S + (if relevantB S units = true then 0 else 1) < f2 →
    dpllF f1 S units tc = dpllF f2 S units tc := by
  induction f1 with
  | zero =>
    intro f2 S units tc hf1 _
    split_ifs at hf1 <;> omega
  | succ f ih =>
    intro f2 S units tc hf1 hf2
    cases f2 with
    | zero => split_ifs at hf2 <;> omega
    | succ g =>
      rcases hq : propagateUnits (totalLen S + 2) S units [] with _ | (r | ⟨S1, interp⟩)
      · exact absurd hq (propagateUnits_suff _ S units [] (by omega))
      · rw [dpllF_step_error hq, dpllF_step_error hq]
      · rcases hd : decisionLiteral S1 with _ | l
        · rw [dpllF_step_panic hq hd, dpllF_step_panic hq hd]
        · have hocc : occursB S1 l = true := decisionLiteral_occurs hd
          obtain ⟨hle, hrel⟩ := propagateUnits_len _ _ _ _ _ _ hq
          have hfS1 : 2 * totalLen S1 < f ∧ 2 * totalLen S1 < g := by
            by_cases hR : relevantB S units = true
            · have := hrel hR
              rw [if_pos hR] at hf1 hf2
              omega
            · rw [if_neg hR] at hf1 hf2
              omega
          have hb1 : 2 * totalLen S1 + (if relevantB S1 [l] = true then 0 else 1) < f := by
            rw [if_pos (relevantB_single_pos hocc)]
            omega
          have hb1g : 2 * totalLen S1 + (if relevantB S1 [l] = true then 0 else 1) < g := by
            rw [if_pos (relevantB_single_pos hocc)]
            omega
          have hb2 : 2 * totalLen S1 + (if relevantB S1 [-l] = true then 0 else 1) < f := by
            rw [if_pos (relevantB_single_neg hocc)]
            omega
          have hb2g : 2 * totalLen S1 + (if relevantB S1 [-l] = true then 0 else 1) < g := by
            rw [if_pos (relevantB_single_neg hocc)]
            omega
          rcases hp : dpllF f S1 [l] (if 2 ≤ tc then tc - 2 else 0) with _ | a
          · exact absurd hp (dpllF_suff f S1 [l] _ hb1)
          · rcases hn : dpllF f S1 [-l] (if 2 ≤ tc then tc - 2 else 0) with _ | b
            · exact absurd hn (dpllF_suff f S1 [-l] _ hb2)
            · have hp2 : dpllF g S1 [l] (if 2 ≤ tc then tc - 2 else 0) = some a := by
                rw [← ih g S1 [l] _ hb1 hb1g]
                exact hp
              have hn2 : dpllF g S1 [-l] (if 2 ≤ tc then tc - 2 else 0) = some b := by
                rw [← ih g S1 [-l] _ hb2 hb2g]
                exact hn
              rw [dpllF_step_some hq hd hp hn, dpllF_step_some hq hd hp2 hn2]

theorem dpllF_tc_irrel (f : ℕ) : ∀ (S : CNFSystem) (units : List ℤ) (tc1 tc2 : ℤ),
    dpllF f S units tc1 = dpllF f S units tc2 := by
  induction f with
  | zero => intro S units tc1 tc2; rfl
  | succ f ih =>
    intro S units tc1 tc2
    rcases hq : propagateUnits (totalLen S + 2) S units [] with _ | (r | ⟨S1, interp⟩)
    · simp [dpllF, hq]
    · rw [dpllF_step_error hq, dpllF_step_error hq]
    · rcases hd : decisionLiteral S1 with _ | l
      · rw [dpllF_step_panic hq hd, dpllF_step_panic hq hd]
      · rcases hp : dpllF f S1 [l] (if 2 ≤ tc1 then tc1 - 2 else 0) with _ | a
        · have hp2 : dpllF f S1 [l] (if 2 ≤ tc2 then tc2 - 2 else 0) = none := by
            rw [ih S1 [l] _ (if 2 ≤ tc1 then tc1 - 2 else 0)]
            exact hp
          rw [dpllF_step_posfuel hq hd hp, dpllF_step_posfuel hq hd hp2]
        · have hp2 : dpllF f S1 [l] (if 2 ≤ tc2 then tc2 - 2 else 0) = some a := by
            rw [ih S1 [l] _ (if 2 ≤ tc1 then tc1 - 2 else 0)]
            exact hp
          rcases hn : dpllF f S1 [-l] (if 2 ≤ tc1 then tc1 - 2 else 0) with _ | b
          · have hn2 : dpllF f S1 [-l] (if 2 ≤ tc2 then tc2 - 2 else 0) = none := by
              rw [ih S1 [-l] _ (if 2 ≤ tc1 then tc1 - 2 else 0)]
              exact hn
            rw [dpllF_step_negfuel hq hd hp hn, dpllF_step_negfuel hq hd hp2 hn2]
          · have hn2 : dpllF f S1 [-l] (if 2 ≤ tc2 then tc2 - 2 else 0) = some b := by
              rw [ih S1 [-l] _ (if 2 ≤ tc1 then tc1 - 2 else 0)]
              exact hn
            rw [dpllF_step_some hq hd hp hn, dpllF_step_some hq hd hp2 hn2]

/-- The wrapper equals the fueled search at any sufficient fuel. -/
theorem concurrent_dpll_eq_dpllF {S : CNFSystem} {units : List ℤ} {tc : ℤ} {f : ℕ}
    (hf : 2 * totalLen S + (if relevantB S units = true then 0 else 1) < f) :
    concurrent_dpll S units tc = (dpllF f S units tc).join := by
  unfold concurrent_dpll
  rw [dpllF_fuel_irrel (2 * totalLen S + 2) f S units tc (by split_ifs <;> omega) hf]

/-! ### Verdict dichotomy -/

theorem processUnits_error_type (us : List ℤ) : ∀ (S : CNFSystem) (interp rev : List ℤ)
    (r : ClauseType × List ℤ), processUnits us S interp rev = Except.error r →
    r.1 = ClauseType.Unsatisfiable ∨ r.1 = ClauseType.Satisfiable := by
  induction us with
  | nil =>
    intro S interp rev r h
    exact Except.noConfusion h
  | cons u rest ih =>
    intro S interp rev r h
    rcases hp : concurrent_dpll_propagate S u with _ | ⟨nu, Snext⟩
    · simp only [processUnits, hp] at h
      injection h with h'
      rw [← h']
      exact Or.inl rfl
    · simp only [processUnits, hp] at h
      by_cases hlen : Snext.len = 0
      · rw [if_pos hlen] at h
        injection h with h'
        rw [← h']
        exact Or.inr rfl
      · rw [if_neg hlen] at h
        exact ih _ _ _ _ h

theorem propagateUnits_error_type (g : ℕ) : ∀ (S : CNFSystem) (units interp : List ℤ)
    (r : ClauseType × List ℤ), propagateUnits g S units interp = some (Except.error r) →
    r.1 = ClauseType.Unsatisfiable ∨ r.1 = ClauseType.Satisfiable := by
  induction g with
  | zero =>
    intro S units interp r h
    exact Option.noConfusion h
  | succ f ih =>
    intro S units interp r h
    rw [propagateUnits] at h
    by_cases hl : units.length = 0
    · rw [if_pos hl] at h
      simp only [Option.some.injEq] at h
      exact Except.noConfusion h
    · rw [if_neg hl] at h
      rcases hpr : processUnits units S interp [] with r2 | ⟨S1, i1, rev⟩
      · rw [hpr] at h
        simp only [Option.some.injEq, Except.error.injEq] at h
        subst h
        exact processUnits_error_type units _ _ _ _ hpr
      · rw [hpr] at h
        exact ih _ _ _ _ h

theorem dpllF_verdict (f : ℕ) : ∀ (S : CNFSystem) (units : List ℤ) (tc : ℤ)
    (v : ClauseType) (I : List ℤ), dpllF f S units tc = some (some (v, I)) →
    v = ClauseType.Satisfiable ∨ v = ClauseType.Unsatisfiable := by
  induction f with
  | zero =>
    intro S units tc v I h
    exact Option.noConfusion h
  | succ f ih =>
    intro S units tc v I h
    rcases hq : propagateUnits (totalLen S + 2) S units [] with _ | (r | ⟨S1, interp⟩)
    · simp only [dpllF, hq] at h
      exact Option.noConfusion h
    · rw [dpllF_step_error hq] at h
      simp only [Option.some.injEq] at h
      subst h
      rcases propagateUnits_error_type _ _ _ _ _ hq with h' | h'
      · exact Or.inr h'
      · exact Or.inl h'
    · rcases hd : decisionLiteral S1 with _ | l
      · rw [dpllF_step_panic hq hd] at h
        simp only [Option.some.injEq] at h
        exact Option.noConfusion h
      · rcases hp : dpllF f S1 [l] (if 2 ≤ tc then tc - 2 else 0) with _ | a
        · rw [dpllF_step_posfuel hq hd hp] at h
          exact Option.noConfusion h
        · rcases hn : dpllF f S1 [-l] (if 2 ≤ tc then tc - 2 else 0) with _ | b
          · rw [dpllF_step_negfuel hq hd hp hn] at h
            exact Option.noConfusion h
          · rw [dpllF_step_some hq hd hp hn] at h
            simp only [Option.some.injEq] at h
            rcases a with _ | ⟨va, Ia⟩
            · simp [combineRes] at h
            · rcases b with _ | ⟨vb, Ib⟩
              · simp [combineRes] at h
              · simp only [combineRes] at h
                by_cases hva : va = ClauseType.Unsatisfiable
                · rw [if_pos hva] at h
                  by_cases hvb : vb = ClauseType.Unsatisfiable
                  · rw [if_pos hvb] at h
                    injection h with h'
                    injection h' with h1 h2
                    exact Or.inr h1.symm
                  · rw [if_neg hvb] at h
                    injection h with h'
                    injection h' with h1 h2
                    rw [← h1]
                    exact ih _ _ _ _ _ hn
                · rw [if_neg hva] at h
                  injection h with h'
                  injection h' with h1 h2
                  rw [← h1]
                  exact ih _ _ _ _ _ hp

theorem join_eq_some {α : Type} {o : Option (Option α)} {a : α} :
    o.join = some a ↔ o = some (some a) := by
  rcases o with _ | (_ | b) <;> simp

/-! ### Claims C3, C4 and C8 -/

/-- C4: `concurrent_dpll` is deterministic — the result does not depend on
the thread budget, and two runs on the same System and unit list (under the
fixed traversal order the embedding carries) give the same verdict; the
decision literal is the least literal of the first clause in traversal
order. -/
theorem C4_determinism (S : CNFSystem) (units : List ℤ) :
    (∀ tc1 tc2 : ℤ, concurrent_dpll S units tc1 = concurrent_dpll S units tc2) ∧
    (∀ c cs, S.clauses = c :: cs → c.literals.Sorted (· < ·) →
      ∀ l, decisionLiteral S = some l → l ∈ c.literals ∧ ∀ x ∈ c.literals, l ≤ x) := by
  constructor
  · intro tc1 tc2
    unfold concurrent_dpll
    rw [dpllF_tc_irrel _ S units tc1 tc2]
  · intro c cs hS hsort l hl
    have hl2 : c.literals.head? = some l := by
      unfold decisionLiteral at hl
      rw [hS] at hl
      exact hl
    rcases hc : c.literals with _ | ⟨x, t⟩
    · rw [hc] at hl2
      exact Option.noConfusion hl2
    · rw [hc] at hl2
      injection hl2 with hl'
      subst hl'
      rw [hc] at hsort
      rw [List.sorted_cons] at hsort
      refine ⟨List.mem_cons_self _ _, ?_⟩
      intro y hy
      rcases List.mem_cons.mp hy with rfl | hy
      · exact le_refl y
      · exact le_of_lt (hsort.1 y hy)

/-- Witness for C4 at a concrete system, unit list and thread budgets. -/
theorem C4_determinism_witness :
    concurrent_dpll ⟨[⟨[2, 5]⟩]⟩ [] 16 = concurrent_dpll ⟨[⟨[2, 5]⟩]⟩ [] 0 ∧
    ((2 : ℤ) ∈ [(2 : ℤ), 5] ∧ ∀ x ∈ [(2 : ℤ), 5], 2 ≤ x) := by
  constructor
  · exact (C4_determinism ⟨[⟨[2, 5]⟩]⟩ []).1 16 0
  · exact (C4_determinism ⟨[⟨[2, 5]⟩]⟩ []).2 ⟨[2, 5]⟩ [] rfl (by decide) 2 rfl

/-- C8 counterexample: on an empty System with an empty unit set,
`concurrent_dpll` does not return SATISFIABLE with an empty interpretation —
it panics (`unwrap` of the first clause of an empty clause set), modelled as
`none`. -/
theorem C8_empty_empty_panics : concurrent_dpll ⟨[]⟩ [] 16 = none := by decide

/-- C8 (amended): an empty System with an empty unit set makes
`concurrent_dpll` panic, for every thread budget (its documented
precondition requires at least one clause); with a nonempty unit set an
empty System yields SATISFIABLE with exactly the first unit as the
interpretation. -/
theorem C8_empty_system (units : List ℤ) (tc : ℤ) :
    concurrent_dpll ⟨[]⟩ [] tc = none ∧
    (∀ u us, units = u :: us →
      concurrent_dpll ⟨[]⟩ units tc = some (ClauseType.Satisfiable, [u])) := by
  constructor
  · show (dpllF (2 * totalLen ⟨[]⟩ + 2) ⟨[]⟩ [] tc).join = none
    have hq : propagateUnits (totalLen ⟨[]⟩ + 2) ⟨[]⟩ ([] : List ℤ) [] =
        some (Except.ok (⟨[]⟩, [])) := rfl
    have hd : decisionLiteral ⟨[]⟩ = none := rfl
    rw [show (2 * totalLen ⟨[]⟩ + 2 : ℕ) = 1 + 1 from rfl, dpllF_step_panic hq hd]
    rfl
  · intro u us hu
    subst hu
    show (dpllF (2 * totalLen ⟨[]⟩ + 2) ⟨[]⟩ (u :: us) tc).join = _
    have hq : propagateUnits (totalLen ⟨[]⟩ + 2) ⟨[]⟩ (u :: us) [] =
        some (Except.error (ClauseType.Satisfiable, [u])) := rfl
    rw [show (2 * totalLen ⟨[]⟩ + 2 : ℕ) = 1 + 1 from rfl, dpllF_step_error hq]
    rfl

/-- Witness for C8 with a concrete nonempty unit list. -/
theorem C8_empty_system_witness :
    concurrent_dpll ⟨[]⟩ [7, -3] 16 = some (ClauseType.Satisfiable, [7]) :=
  (C8_empty_system [7, -3] 16).2 7 [-3] rfl

/-- C3: the combiner of `concurrent_dpll` at a decision on literal `l`
returns SATISFIABLE whenever either branch does — with the branch's
interpretation unioned into the already-accumulated units — and returns
UNSATISFIABLE exactly when both branches return UNSATISFIABLE. -/
theorem C3_combiner (S : CNFSystem) (units : List ℤ) (tc : ℤ)
    (S1 : CNFSystem) (interp : List ℤ) (l : ℤ)
    (hq : propagateUnits (totalLen S + 2) S units [] = some (Except.ok (S1, interp)))
    (hd : decisionLiteral S1 = some l)
    (vp : ClauseType) (Ip : List ℤ) (vn : ClauseType) (In : List ℤ)
    (hp : concurrent_dpll S1 [l] (if 2 ≤ tc then tc - 2 else 0) = some (vp, Ip))
    (hn : concurrent_dpll S1 [-l] (if 2 ≤ tc then tc - 2 else 0) = some (vn, In)) :
    (vp = ClauseType.Satisfiable ∨ vn = ClauseType.Satisfiable →
      ∃ I, concurrent_dpll S units tc = some (ClauseType.Satisfiable, I) ∧
        (I = interpExtend interp Ip ∨ I = interpExtend interp In)) ∧
    (vp = ClauseType.Satisfiable →
      concurrent_dpll S units tc = some (ClauseType.Satisfiable, interpExtend interp Ip)) ∧
    (vp = ClauseType.Unsatisfiable → vn = ClauseType.Satisfiable →
      concurrent_dpll S units tc = some (ClauseType.Satisfiable, interpExtend interp In)) ∧
    (∀ v I, concurrent_dpll S units tc = some (v, I) →
      (v = ClauseType.Unsatisfiable ↔
        vp = ClauseType.Unsatisfiable ∧ vn = ClauseType.Unsatisfiable)) := by
  have hocc : occursB S1 l = true := decisionLiteral_occurs hd
  obtain ⟨hle, _⟩ := propagateUnits_len _ _ _ _ _ _ hq
  have hple : 2 * totalLen S1 + (if relevantB S1 [l] = true then 0 else 1) <
      2 * totalLen S1 + 2 := by split_ifs <;> omega
  have hnle : 2 * totalLen S1 + (if relevantB S1 [-l] = true then 0 else 1) <
      2 * totalLen S1 + 2 := by split_ifs <;> omega
  have hpf : dpllF (2 * totalLen S + 1) S1 [l] (if 2 ≤ tc then tc - 2 else 0) =
      some (some (vp, Ip)) := by
    rw [dpllF_fuel_irrel _ (2 * totalLen S1 + 2) S1 [l] _
      (by rw [if_pos (relevantB_single_pos hocc)]; omega) hple]
    exact join_eq_some.mp hp
  have hnf : dpllF (2 * totalLen S + 1) S1 [-l] (if 2 ≤ tc then tc - 2 else 0) =
      some (some (vn, In)) := by
    rw [dpllF_fuel_irrel _ (2 * totalLen S1 + 2) S1 [-l] _
      (by rw [if_pos (relevantB_single_neg hocc)]; omega) hnle]
    exact join_eq_some.mp hn
  have hrun : concurrent_dpll S units tc =
      combineRes interp (some (vp, Ip)) (some (vn, In)) := by
    show (dpllF (2 * totalLen S + 2) S units tc).join = _
    rw [show (2 * totalLen S + 2 : ℕ) = (2 * totalLen S + 1) + 1 from rfl,
      dpllF_step_some hq hd hpf hnf]
    rfl
  refine ⟨?_, ?_, ?_, ?_⟩
  · rintro (hvp | hvn)
    · subst hvp
      refine ⟨interpExtend interp Ip, ?_, Or.inl rfl⟩
      rw [hrun]
      simp [combineRes]
    · by_cases hvp : vp = ClauseType.Unsatisfiable
      · subst hvn
        refine ⟨interpExtend interp In, ?_, Or.inr rfl⟩
        rw [hrun]
        simp [combineRes, hvp]
      · have hdich := dpllF_verdict _ _ _ _ _ _ hpf
        rcases hdich with hvp2 | hvp2
        · subst hvp2
          refine ⟨interpExtend interp Ip, ?_, Or.inl rfl⟩
          rw [hrun]
          simp [combineRes]
        · exact absurd hvp2 hvp
  · intro hvp
    subst hvp
    rw [hrun]
    simp [combineRes]
  · intro hvp hvn
    subst hvp
    subst hvn
    rw [hrun]
    simp [combineRes]
  · intro v I hv
    rw [hrun] at hv
    by_cases hvp : vp = ClauseType.Unsatisfiable
    · by_cases hvn : vn = ClauseType.Unsatisfiable
      · simp only [combineRes, if_pos hvp, if_pos hvn, Option.some.injEq, Prod.mk.injEq] at hv
        obtain ⟨h1, h2⟩ := hv
        subst h1
        simp [hvp, hvn]
      · simp only [combineRes, if_pos hvp, if_neg hvn, Option.some.injEq, Prod.mk.injEq] at hv
        obtain ⟨h1, h2⟩ := hv
        subst h1
        simp [hvn]
    · simp only [combineRes, if_neg hvp, Option.some.injEq, Prod.mk.injEq] at hv
      obtain ⟨h1, h2⟩ := hv
      subst h1
      simp [hvp]

/-- Witness for C3 at a concrete decision. -/
theorem C3_combiner_witness :
    concurrent_dpll ⟨[⟨[1, 2]⟩, ⟨[-1, 2]⟩]⟩ [] 16 =
      some (ClauseType.Satisfiable, [1, 2]) := by
  have h := (C3_combiner ⟨[⟨[1, 2]⟩, ⟨[-1, 2]⟩]⟩ [] 16 ⟨[⟨[1, 2]⟩, ⟨[-1, 2]⟩]⟩ [] 1
    (by rfl) (by rfl) ClauseType.Satisfiable [1, 2] ClauseType.Satisfiable [-1, 2]
    (by rfl) (by rfl)).2.1 rfl
  rw [h]
  rfl

/-! ### The consistency and cover invariant of the propagation loop -/

theorem occursB_false_iff {S : CNFSystem} {x : ℤ} :
    occursB S x = false ↔ ∀ c ∈ S.clauses, x ∉ c.literals := by
  simp [occursB]

theorem ne_zero_of_occurs {S : CNFSystem} {x : ℤ} (hz : NoZero S)
    (h : occursB S x = true) : x ≠ 0 := by
  obtain ⟨c, hc, hx⟩ := occursB_iff.mp h
  intro h0
  subst h0
  exact hz c hc hx

theorem consistent_insert {i : List ℤ} {u : ℤ}
    (HC : ∀ x ∈ i, -x ∉ i ∧ x ≠ 0) (hu0 : u ≠ 0) (hnu : -u ∉ i) :
    ∀ x ∈ insertSorted u i, -x ∉ insertSorted u i ∧ x ≠ 0 := by
  intro x hx
  rcases mem_insertSorted.mp hx with rfl | hxi
  · refine ⟨?_, hu0⟩
    intro hmem
    rcases mem_insertSorted.mp hmem with h' | h'
    · omega
    · exact hnu h'
  · obtain ⟨h1, h2⟩ := HC x hxi
    refine ⟨?_, h2⟩
    intro hmem
    rcases mem_insertSorted.mp hmem with h' | h'
    · apply hnu
      have hxu : x = -u := by omega
      rwa [hxu] at hxi
    · exact h1 h'

theorem processUnits_main (us : List ℤ) : ∀ (S : CNFSystem) (i rev : List ℤ),
    WfSystem S → NoZero S →
    (∀ x ∈ i, -x ∉ i ∧ x ≠ 0) →
    (∀ x ∈ i, occursB S x = false ∧ occursB S (-x) = false) →
    (∀ v, v ∈ us ∨ v ∈ rev → -v ∉ i ∧ v ≠ 0) →
    ((∀ v, v ∈ us ∨ v ∈ rev → (⟨[v]⟩ : CNFClause) ∈ S.clauses ∨ v ∈ i) ∨
      (i = [] ∧ rev = [] ∧ ∃ l0, us = [l0])) →
    (∀ (ct : ClauseType) (I : List ℤ), processUnits us S i rev = Except.error (ct, I) →
      (∀ x ∈ I, x ∈ i ∨ x ∈ us) ∧
      (ct = ClauseType.Satisfiable →
        (∀ x ∈ I, -x ∉ I ∧ x ≠ 0) ∧
        (∀ c ∈ S.clauses, ∃ x ∈ c.literals, x ∈ I) ∧
        (∀ x ∈ i, x ∈ I))) ∧
    (∀ (S1 : CNFSystem) (i1 rev1 : List ℤ),
      processUnits us S i rev = Except.ok (S1, i1, rev1) →
      WfSystem S1 ∧ NoZero S1 ∧
      (∀ x ∈ i1, -x ∉ i1 ∧ x ≠ 0) ∧
      (∀ x ∈ i1, occursB S1 x = false ∧ occursB S1 (-x) = false) ∧
      (∀ c ∈ S.clauses, (∃ x ∈ c.literals, x ∈ i1) ∨
        ∃ r ∈ S1.clauses, r.literals ⊆ c.literals) ∧
      (∀ x ∈ i, x ∈ i1) ∧
      (∀ x ∈ i1, x ∈ i ∨ x ∈ us) ∧
      (∀ x ∈ rev1, x ∈ rev ∨ occursB S x = true) ∧
      (∀ x, occursB S1 x = true → occursB S x = true) ∧
      (∀ v ∈ rev1, -v ∉ i1 ∧ v ≠ 0) ∧
      (∀ v ∈ rev1, (⟨[v]⟩ : CNFClause) ∈ S1.clauses ∨ v ∈ i1)) := by
  induction us with
  | nil =>
    intro S i rev HW HZ HC HCl HP HB
    constructor
    · intro ct I h
      exact Except.noConfusion h
    · intro S1 i1 rev1 h
      simp only [processUnits, Except.ok.injEq, Prod.mk.injEq] at h
      obtain ⟨rfl, rfl, rfl⟩ := h
      refine ⟨HW, HZ, HC, HCl, ?_, fun x hx => hx, fun x hx => Or.inl hx, fun x hx => Or.inl hx,
        fun x hx => hx, ?_, ?_⟩
      · intro c hc
        exact Or.inr ⟨c, hc, fun x hx => hx⟩
      · intro v hv
        exact HP v (Or.inr hv)
      · intro v hv
        rcases HB with HB | ⟨_, hrev, _, _⟩
        · exact HB v (Or.inr hv)
        · rw [hrev] at hv
          exact absurd hv (List.not_mem_nil v)
  | cons u rest ih =>
    intro S i rev HW HZ HC HCl HP HB
    have hu0 : u ≠ 0 := (HP u (Or.inl (List.mem_cons_self u rest))).2
    have hnui : -u ∉ i := (HP u (Or.inl (List.mem_cons_self u rest))).1
    rcases hp : concurrent_dpll_propagate S u with _ | ⟨nu, Snext⟩
    · -- conflict: early UNSATISFIABLE return
      constructor
      · intro ct I h
        simp only [processUnits, hp, Except.error.injEq, Prod.mk.injEq] at h
        obtain ⟨rfl, rfl⟩ := h
        exact ⟨fun x hx => Or.inl hx, fun hct => ClauseType.noConfusion hct⟩
      · intro S1 i1 rev1 h
        simp only [processUnits, hp] at h
        exact Except.noConfusion h
    · -- successful propagation of u
      have hnegu_pend : -u ∉ rest ∧ -u ∉ rev := by
        rcases HB with HB | ⟨hi0, hrev, l0, hl0⟩
        · constructor
          · intro hmem
            rcases HB (-u) (Or.inl (List.mem_cons_of_mem u hmem)) with hb | hb
            · rw [propagate_conflict_unit HW hu0 hb] at hp
              exact Option.noConfusion hp
            · exact hnui hb
          · intro hmem
            rcases HB (-u) (Or.inr hmem) with hb | hb
            · rw [propagate_conflict_unit HW hu0 hb] at hp
              exact Option.noConfusion hp
            · exact hnui hb
        · injection hl0 with h1 h2
          rw [h2, hrev]
          exact ⟨List.not_mem_nil _, List.not_mem_nil _⟩
      have hwf2 : WfSystem Snext := propagate_wf HW hu0 hp
      have hz2 : NoZero Snext := propagate_NoZero HW hu0 hp HZ
      have hscrub := propagate_scrub HW hu0 hp
      have hunits := propagate_units HW hu0 hp
      have hcover := propagate_cover HW hu0 hp
      have hmono := propagate_occurs_mono HW hu0 hp
      have hci1 : ∀ x ∈ insertSorted u i, -x ∉ insertSorted u i ∧ x ≠ 0 :=
        consistent_insert HC hu0 hnui
      have hcl1 : ∀ x ∈ insertSorted u i,
          occursB Snext x = false ∧ occursB Snext (-x) = false := by
        intro x hx
        rcases mem_insertSorted.mp hx with rfl | hxi
        · constructor
          · exact occursB_false_iff.mpr (fun c hc => (hscrub c hc).1)
          · exact occursB_false_iff.mpr (fun c hc => (hscrub c hc).2)
        · obtain ⟨h1, h2⟩ := HCl x hxi
          constructor
          · rcases hb : occursB Snext x with _ | _
            · rfl
            · exact absurd (hmono x hb) (by rw [h1]; exact Bool.false_ne_true)
          · rcases hb : occursB Snext (-x) with _ | _
            · rfl
            · exact absurd (hmono (-x) hb) (by rw [h2]; exact Bool.false_ne_true)
      by_cases hlen : Snext.len = 0
      · -- the system emptied: early SATISFIABLE return
        have hempty : Snext.clauses = [] := by
          unfold CNFSystem.len at hlen
          exact List.length_eq_zero.mp hlen
        constructor
        · intro ct I h
          simp only [processUnits, hp, if_pos hlen, Except.error.injEq, Prod.mk.injEq] at h
          obtain ⟨rfl, rfl⟩ := h
          refine ⟨?_, ?_⟩
          · intro x hx
            rcases mem_insertSorted.mp hx with rfl | hxi
            · exact Or.inr (List.mem_cons_self _ _)
            · exact Or.inl hxi
          · intro _
            refine ⟨hci1, ?_, ?_⟩
            · intro c hc
              rcases hcover c hc with hcu | ⟨r, hr, _⟩
              · exact ⟨u, hcu, mem_insertSorted.mpr (Or.inl rfl)⟩
              · rw [hempty] at hr
                exact absurd hr (List.not_mem_nil r)
            · intro x hx
              exact mem_insertSorted.mpr (Or.inr hx)
        · intro S1 i1 rev1 h
          simp only [processUnits, hp, if_pos hlen] at h
          exact Except.noConfusion h
      · -- continue with the rest of the generation
        have hstep : processUnits (u :: rest) S i rev =
            processUnits rest Snext (insertSorted u i) (listExtend rev nu) := by
          simp only [processUnits, hp, if_neg hlen]
        have hp1 : ∀ v, v ∈ rest ∨ v ∈ listExtend rev nu →
            -v ∉ insertSorted u i ∧ v ≠ 0 := by
          intro v hv
          have hvrevnu : v ∈ rest ∨ (v ∈ rev ∨ v ∈ nu) := by
            rcases hv with hv | hv
            · exact Or.inl hv
            · exact Or.inr (mem_listExtend.mp hv)
          rcases hvrevnu with hv | hv | hv
          · obtain ⟨h1, h2⟩ := HP v (Or.inl (List.mem_cons_of_mem u hv))
            refine ⟨?_, h2⟩
            intro hmem
            rcases mem_insertSorted.mp hmem with h' | h'
            · have : v = -u := by omega
              exact hnegu_pend.1 (this ▸ hv)
            · exact h1 h'
          · obtain ⟨h1, h2⟩ := HP v (Or.inr hv)
            refine ⟨?_, h2⟩
            intro hmem
            rcases mem_insertSorted.mp hmem with h' | h'
            · have : v = -u := by omega
              exact hnegu_pend.2 (this ▸ hv)
            · exact h1 h'
          · obtain ⟨hback, hvu, hvnu, hocc⟩ := hunits v hv
            refine ⟨?_, ne_zero_of_occurs HZ hocc⟩
            intro hmem
            rcases mem_insertSorted.mp hmem with h' | h'
            · have : v = -u := by omega
              exact hvnu this
            · have := (HCl (-v) h').2
              rw [neg_neg] at this
              rw [hocc] at this
              exact Bool.noConfusion this
        have hb1 : ∀ v, v ∈ rest ∨ v ∈ listExtend rev nu →
            (⟨[v]⟩ : CNFClause) ∈ Snext.clauses ∨ v ∈ insertSorted u i := by
          intro v hv
          have hvrevnu : v ∈ rest ∨ (v ∈ rev ∨ v ∈ nu) := by
            rcases hv with hv | hv
            · exact Or.inl hv
            · exact Or.inr (mem_listExtend.mp hv)
          rcases hvrevnu with hv | hv | hv
          · rcases HB with HB | ⟨hi0, hrev, l0, hl0⟩
            · rcases HB v (Or.inl (List.mem_cons_of_mem u hv)) with hb | hb
              · by_cases hvu : v = u
                · exact Or.inr (mem_insertSorted.mpr (Or.inl hvu))
                · refine Or.inl (propagate_singleton_kept HW hu0 hp hb hvu ?_)
                  intro hvnu
                  exact hnegu_pend.1 (hvnu ▸ hv)
              · exact Or.inr (mem_insertSorted.mpr (Or.inr hb))
            · injection hl0 with h1 h2
              rw [h2] at hv
              exact absurd hv (List.not_mem_nil v)
          · rcases HB with HB | ⟨hi0, hrev, l0, hl0⟩
            · rcases HB v (Or.inr hv) with hb | hb
              · by_cases hvu : v = u
                · exact Or.inr (mem_insertSorted.mpr (Or.inl hvu))
                · refine Or.inl (propagate_singleton_kept HW hu0 hp hb hvu ?_)
                  intro hvnu
                  exact hnegu_pend.2 (hvnu ▸ hv)
              · exact Or.inr (mem_insertSorted.mpr (Or.inr hb))
            · rw [hrev] at hv
              exact absurd hv (List.not_mem_nil v)
          · exact Or.inl (hunits v hv).1
        obtain ⟨iherr, ihok⟩ := ih Snext (insertSorted u i) (listExtend rev nu)
          hwf2 hz2 hci1 hcl1 hp1 (Or.inl hb1)
        constructor
        · intro ct I h
          rw [hstep] at h
          obtain ⟨ihrange, ihsat⟩ := iherr ct I h
          constructor
          · intro x hx
            rcases ihrange x hx with hx' | hx'
            · rcases mem_insertSorted.mp hx' with rfl | hx''
              · exact Or.inr (List.mem_cons_self _ _)
              · exact Or.inl hx''
            · exact Or.inr (List.mem_cons_of_mem u hx')
          · intro hct
            obtain ⟨hcons, hcov, himon⟩ := ihsat hct
            refine ⟨hcons, ?_, ?_⟩
            · intro c hc
              rcases hcover c hc with hcu | ⟨r, hr, hsub⟩
              · exact ⟨u, hcu, himon u (mem_insertSorted.mpr (Or.inl rfl))⟩
              · obtain ⟨x, hx1, hx2⟩ := hcov r hr
                exact ⟨x, hsub hx1, hx2⟩
            · intro x hx
              exact himon x (mem_insertSorted.mpr (Or.inr hx))
        · intro S1 i1 rev1 h
          rw [hstep] at h
          obtain ⟨w1, w2, w3, w4, w5, w6, w7, w8, w9, w10, w11⟩ := ihok S1 i1 rev1 h
          refine ⟨w1, w2, w3, w4, ?_, ?_, ?_, ?_, ?_, w10, w11⟩
          · intro c hc
            rcases hcover c hc with hcu | ⟨r, hr, hsub⟩
            · exact Or.inl ⟨u, hcu, w6 u (mem_insertSorted.mpr (Or.inl rfl))⟩
            · rcases w5 r hr with ⟨x, hx1, hx2⟩ | ⟨r2, hr2, hsub2⟩
              · exact Or.inl ⟨x, hsub hx1, hx2⟩
              · exact Or.inr ⟨r2, hr2, fun y hy => hsub (hsub2 hy)⟩
          · intro x hx
            exact w6 x (mem_insertSorted.mpr (Or.inr hx))
          · intro x hx
            rcases w7 x hx with hx' | hx'
            · rcases mem_insertSorted.mp hx' with rfl | hx''
              · exact Or.inr (List.mem_cons_self _ _)
              · exact Or.inl hx''
            · exact Or.inr (List.mem_cons_of_mem u hx')
          · intro x hx
            rcases w8 x hx with hx' | hx'
            · rcases mem_listExtend.mp hx' with hx'' | hx''
              · exact Or.inl hx''
              · exact Or.inr (hunits x hx'').2.2.2
            · exact Or.inr (hmono x hx')
          · intro x hx
            exact hmono x (w9 x hx)

theorem propagateUnits_main (f : ℕ) : ∀ (S : CNFSystem) (units i : List ℤ),
    WfSystem S → NoZero S →
    (∀ x ∈ i, -x ∉ i ∧ x ≠ 0) →
    (∀ x ∈ i, occursB S x = false ∧ occursB S (-x) = false) →
    (∀ v ∈ units, -v ∉ i ∧ v ≠ 0) →
    ((∀ v ∈ units, (⟨[v]⟩ : CNFClause) ∈ S.clauses ∨ v ∈ i) ∨
      (i = [] ∧ ∃ l0, units = [l0])) →
    (∀ (ct : ClauseType) (I : List ℤ),
      propagateUnits f S units i = some (Except.error (ct, I)) →
      (∀ x ∈ I, x ∈ i ∨ x ∈ units ∨ occursB S x = true) ∧
      (ct = ClauseType.Satisfiable →
        (∀ x ∈ I, -x ∉ I ∧ x ≠ 0) ∧
        (∀ c ∈ S.clauses, ∃ x ∈ c.literals, x ∈ I) ∧
        (∀ x ∈ i, x ∈ I))) ∧
    (∀ (S1 : CNFSystem) (i1 : List ℤ),
      propagateUnits f S units i = some (Except.ok (S1, i1)) →
      WfSystem S1 ∧ NoZero S1 ∧
      (∀ x ∈ i1, -x ∉ i1 ∧ x ≠ 0) ∧
      (∀ x ∈ i1, occursB S1 x = false ∧ occursB S1 (-x) = false) ∧
      (∀ c ∈ S.clauses, (∃ x ∈ c.literals, x ∈ i1) ∨
        ∃ r ∈ S1.clauses, r.literals ⊆ c.literals) ∧
      (∀ x ∈ i, x ∈ i1) ∧
      (∀ x ∈ i1, x ∈ i ∨ x ∈ units ∨ occursB S x = true) ∧
      (∀ x, occursB S1 x = true → occursB S x = true)) := by
  induction f with
  | zero =>
    intro S units i _ _ _ _ _ _
    constructor
    · intro ct I h
      exact Option.noConfusion h
    · intro S1 i1 h
      exact Option.noConfusion h
  | succ f ih =>
    intro S units i HW HZ HC HCl HP HB
    by_cases hlen : units.length = 0
    · constructor
      · intro ct I h
        simp only [propagateUnits, if_pos hlen] at h
        exact Except.noConfusion (Option.some.inj h)
      · intro S1 i1 h
        simp only [propagateUnits, if_pos hlen, Option.some.injEq, Except.ok.injEq,
          Prod.mk.injEq] at h
        obtain ⟨rfl, rfl⟩ := h
        refine ⟨HW, HZ, HC, HCl, ?_, fun x hx => hx, fun x hx => Or.inl hx, fun x hx => hx⟩
        intro c hc
        exact Or.inr ⟨c, hc, fun y hy => hy⟩
    · have HPm : ∀ v, v ∈ units ∨ v ∈ ([] : List ℤ) → -v ∉ i ∧ v ≠ 0 := by
        intro v hv
        rcases hv with hv | hv
        · exact HP v hv
        · exact absurd hv (List.not_mem_nil v)
      have HBm : (∀ v, v ∈ units ∨ v ∈ ([] : List ℤ) →
          (⟨[v]⟩ : CNFClause) ∈ S.clauses ∨ v ∈ i) ∨
          (i = [] ∧ ([] : List ℤ) = [] ∧ ∃ l0, units = [l0]) := by
        rcases HB with HB | ⟨hi0, hl0⟩
        · refine Or.inl ?_
          intro v hv
          rcases hv with hv | hv
          · exact HB v hv
          · exact absurd hv (List.not_mem_nil v)
        · exact Or.inr ⟨hi0, rfl, hl0⟩
      obtain ⟨merr, mok⟩ := processUnits_main units S i [] HW HZ HC HCl HPm HBm
      rcases hq : processUnits units S i [] with ⟨ct0, I0⟩ | ⟨S1m, i1m, rev1⟩
      · obtain ⟨qrange, qsat⟩ := merr ct0 I0 hq
        constructor
        · intro ct I h
          simp only [propagateUnits, if_neg hlen, hq, Option.some.injEq, Except.error.injEq,
            Prod.mk.injEq] at h
          obtain ⟨rfl, rfl⟩ := h
          constructor
          · intro x hx
            rcases qrange x hx with hx' | hx'
            · exact Or.inl hx'
            · exact Or.inr (Or.inl hx')
          · exact qsat
        · intro S1 i1 h
          simp only [propagateUnits, if_neg hlen, hq] at h
          exact Except.noConfusion (Option.some.inj h)
      · obtain ⟨w1, w2, w3, w4, w5, w6, w7, w8, w9, w10, w11⟩ := mok S1m i1m rev1 hq
        have hstep : propagateUnits (f + 1) S units i = propagateUnits f S1m rev1 i1m := by
          simp only [propagateUnits, if_neg hlen, hq]
        obtain ⟨iherr, ihok⟩ := ih S1m rev1 i1m w1 w2 w3 w4 w10 (Or.inl w11)
        constructor
        · intro ct I h
          rw [hstep] at h
          obtain ⟨ihrange, ihsat⟩ := iherr ct I h
          constructor
          · intro x hx
            rcases ihrange x hx with hx' | hx' | hx'
            · rcases w7 x hx' with h2 | h2
              · exact Or.inl h2
              · exact Or.inr (Or.inl h2)
            · rcases w8 x hx' with h2 | h2
              · exact absurd h2 (List.not_mem_nil x)
              · exact Or.inr (Or.inr h2)
            · exact Or.inr (Or.inr (w9 x hx'))
          · intro hct
            obtain ⟨hcons, hcov, himon⟩ := ihsat hct
            refine ⟨hcons, ?_, ?_⟩
            · intro c hc
              rcases w5 c hc with ⟨x, hx1, hx2⟩ | ⟨r, hr, hsub⟩
              · exact ⟨x, hx1, himon x hx2⟩
              · obtain ⟨y, hy1, hy2⟩ := hcov r hr
                exact ⟨y, hsub hy1, hy2⟩
            · intro x hx
              exact himon x (w6 x hx)
        · intro S1 i1 h
          rw [hstep] at h
          obtain ⟨v1, v2, v3, v4, v5, v6, v7, v8⟩ := ihok S1 i1 h
          refine ⟨v1, v2, v3, v4, ?_, ?_, ?_, ?_⟩
          · intro c hc
            rcases w5 c hc with ⟨x, hx1, hx2⟩ | ⟨r, hr, hsub⟩
            · exact Or.inl ⟨x, hx1, v6 x hx2⟩
            · rcases v5 r hr with ⟨x, hx1, hx2⟩ | ⟨r2, hr2, hsub2⟩
              · exact Or.inl ⟨x, hsub hx1, hx2⟩
              · exact Or.inr ⟨r2, hr2, fun y hy => hsub (hsub2 hy)⟩
          · intro x hx
            exact v6 x (w6 x hx)
          · intro x hx
            rcases v7 x hx with hx' | hx' | hx'
            · rcases w7 x hx' with h2 | h2
              · exact Or.inl h2
              · exact Or.inr (Or.inl h2)
            · rcases w8 x hx' with h2 | h2
              · exact absurd h2 (List.not_mem_nil x)
              · exact Or.inr (Or.inr h2)
            · exact Or.inr (Or.inr (w9 x hx'))
          · intro x hx
            exact w9 x (v8 x hx)

theorem consistent_extend {S1 : CNFSystem} {interp Ip : List ℤ}
    (HC : ∀ x ∈ interp, -x ∉ interp ∧ x ≠ 0)
    (HCl : ∀ x ∈ interp, occursB S1 x = false ∧ occursB S1 (-x) = false)
    (HCp : ∀ x ∈ Ip, -x ∉ Ip ∧ x ≠ 0)
    (Hr : ∀ x ∈ Ip, occursB S1 x = true ∨ occursB S1 (-x) = true) :
    ∀ x ∈ interpExtend interp Ip, -x ∉ interpExtend interp Ip ∧ x ≠ 0 := by
  intro x hx
  rcases mem_interpExtend.mp hx with hxi | hxp
  · refine ⟨?_, (HC x hxi).2⟩
    intro hmem
    rcases mem_interpExtend.mp hmem with h' | h'
    · exact (HC x hxi).1 h'
    · rcases Hr (-x) h' with ho | ho
      · rw [(HCl x hxi).2] at ho
        exact Bool.noConfusion ho
      · rw [neg_neg] at ho
        rw [(HCl x hxi).1] at ho
        exact Bool.noConfusion ho
  · refine ⟨?_, (HCp x hxp).2⟩
    intro hmem
    rcases mem_interpExtend.mp hmem with h' | h'
    · have h1 := (HCl (-x) h').1
      have h2 := (HCl (-x) h').2
      rw [neg_neg] at h2
      rcases Hr x hxp with ho | ho
      · rw [h2] at ho
        exact Bool.noConfusion ho
      · rw [h1] at ho
        exact Bool.noConfusion ho
    · exact (HCp x hxp).1 h'

theorem dpllF_main (f : ℕ) : ∀ (S : CNFSystem) (units : List ℤ) (tc : ℤ),
    WfSystem S → NoZero S →
    ((∀ v ∈ units, v ≠ 0 ∧ (⟨[v]⟩ : CNFClause) ∈ S.clauses) ∨
      (∃ l0, units = [l0] ∧ l0 ≠ 0)) →
    ∀ (v : ClauseType) (I : List ℤ),
      dpllF f S units tc = some (some (v, I)) →
      (∀ x ∈ I, x ∈ units ∨ occursB S x = true ∨ occursB S (-x) = true) ∧
      (v = ClauseType.Satisfiable →
        (∀ x ∈ I, -x ∉ I ∧ x ≠ 0) ∧
        (∀ c ∈ S.clauses, ∃ x ∈ c.literals, x ∈ I)) := by
  induction f with
  | zero =>
    intro S units tc _ _ _ v I h
    exact Option.noConfusion h
  | succ f ih =>
    intro S units tc HW HZ HU v I h
    have HP0 : ∀ u ∈ units, -u ∉ ([] : List ℤ) ∧ u ≠ 0 := by
      intro u hu
      refine ⟨List.not_mem_nil _, ?_⟩
      rcases HU with HU | ⟨l0, hl0, hl0z⟩
      · exact (HU u hu).1
      · rw [hl0] at hu
        rcases List.mem_singleton.mp hu with rfl
        exact hl0z
    have HB0 : (∀ u ∈ units, (⟨[u]⟩ : CNFClause) ∈ S.clauses ∨ u ∈ ([] : List ℤ)) ∨
        (([] : List ℤ) = [] ∧ ∃ l0, units = [l0]) := by
      rcases HU with HU | ⟨l0, hl0, _⟩
      · exact Or.inl (fun u hu => Or.inl (HU u hu).2)
      · exact Or.inr ⟨rfl, l0, hl0⟩
    have HC0 : ∀ x ∈ ([] : List ℤ), -x ∉ ([] : List ℤ) ∧ x ≠ 0 := by
      intro x hx
      exact absurd hx (List.not_mem_nil x)
    have HCl0 : ∀ x ∈ ([] : List ℤ), occursB S x = false ∧ occursB S (-x) = false := by
      intro x hx
      exact absurd hx (List.not_mem_nil x)
    obtain ⟨merr, mok⟩ := propagateUnits_main (totalLen S + 2) S units [] HW HZ HC0 HCl0 HP0 HB0
    rcases hq : propagateUnits (totalLen S + 2) S units [] with _ | (⟨ct0, I0⟩ | ⟨S1, interp⟩)
    · simp only [dpllF, hq] at h
      exact Option.noConfusion h
    · rw [dpllF_step_error hq] at h
      have h2 : (ct0, I0) = (v, I) := Option.some.inj (Option.some.inj h)
      injection h2 with h3 h4
      subst h3
      subst h4
      obtain ⟨qrange, qsat⟩ := merr _ _ hq
      constructor
      · intro x hx
        rcases qrange x hx with hx' | hx' | hx'
        · exact absurd hx' (List.not_mem_nil x)
        · exact Or.inl hx'
        · exact Or.inr (Or.inl hx')
      · intro hv
        obtain ⟨hcons, hcov, _⟩ := qsat hv
        exact ⟨hcons, hcov⟩
    · obtain ⟨w1, w2, w3, w4, w5, w6, w7, w8⟩ := mok S1 interp hq
      rcases hd : decisionLiteral S1 with _ | l
      · rw [dpllF_step_panic hq hd] at h
        exact Option.noConfusion (Option.some.inj h)
      · have hl : occursB S1 l = true := decisionLiteral_occurs hd
        have hl0 : l ≠ 0 := ne_zero_of_occurs w2 hl
        rcases hp : dpllF f S1 [l] (if 2 ≤ tc then tc - 2 else 0) with _ | a
        · rw [dpllF_step_posfuel hq hd hp] at h
          exact Option.noConfusion h
        · rcases hn : dpllF f S1 [-l] (if 2 ≤ tc then tc - 2 else 0) with _ | b
          · rw [dpllF_step_negfuel hq hd hp hn] at h
            exact Option.noConfusion h
          · rw [dpllF_step_some hq hd hp hn] at h
            have hcomb : combineRes interp a b = some (v, I) := Option.some.inj h
            rcases a with _ | ⟨vp, Ip⟩
            · simp only [combineRes] at hcomb
              exact Option.noConfusion hcomb
            · rcases b with _ | ⟨vn, In⟩
              · simp only [combineRes] at hcomb
                exact Option.noConfusion hcomb
              · obtain ⟨prange, psat⟩ := ih S1 [l]
                  (if 2 ≤ tc then tc - 2 else 0) w1 w2 (Or.inr ⟨l, rfl, hl0⟩) vp Ip hp
                obtain ⟨nrange, nsat⟩ := ih S1 [-l]
                  (if 2 ≤ tc then tc - 2 else 0) w1 w2
                  (Or.inr ⟨-l, rfl, neg_ne_zero.mpr hl0⟩) vn In hn
                have prange2 : ∀ x ∈ Ip, occursB S1 x = true ∨ occursB S1 (-x) = true := by
                  intro x hx
                  rcases prange x hx with hx' | hx' | hx'
                  · rcases List.mem_singleton.mp hx' with rfl
                    exact Or.inl hl
                  · exact Or.inl hx'
                  · exact Or.inr hx'
                have nrange2 : ∀ x ∈ In, occursB S1 x = true ∨ occursB S1 (-x) = true := by
                  intro x hx
                  rcases nrange x hx with hx' | hx' | hx'
                  · rcases List.mem_singleton.mp hx' with rfl
                    rw [neg_neg]
                    exact Or.inr hl
                  · exact Or.inl hx'
                  · exact Or.inr hx'
                have hiftomain : ∀ J : List ℤ,
                    (∀ x ∈ J, occursB S1 x = true ∨ occursB S1 (-x) = true) →
                    ∀ x ∈ interpExtend interp J,
                      x ∈ units ∨ occursB S x = true ∨ occursB S (-x) = true := by
                  intro J hJ x hx
                  rcases mem_interpExtend.mp hx with hx' | hx'
                  · rcases w7 x hx' with h' | h' | h'
                    · exact absurd h' (List.not_mem_nil x)
                    · exact Or.inl h'
                    · exact Or.inr (Or.inl h')
                  · rcases hJ x hx' with h' | h'
                    · exact Or.inr (Or.inl (w8 x h'))
                    · exact Or.inr (Or.inr (w8 (-x) h'))
                have hcovmain : ∀ J : List ℤ,
                    (∀ c ∈ S1.clauses, ∃ x ∈ c.literals, x ∈ J) →
                    ∀ c ∈ S.clauses, ∃ x ∈ c.literals, x ∈ interpExtend interp J := by
                  intro J hJ c hc
                  rcases w5 c hc with ⟨x, hx1, hx2⟩ | ⟨r, hr, hsub⟩
                  · exact ⟨x, hx1, mem_interpExtend.mpr (Or.inl hx2)⟩
                  · obtain ⟨y, hy1, hy2⟩ := hJ r hr
                    exact ⟨y, hsub hy1, mem_interpExtend.mpr (Or.inr hy2)⟩
                by_cases hvp : vp = ClauseType.Unsatisfiable
                · by_cases hvn : vn = ClauseType.Unsatisfiable
                  · simp only [combineRes, hvp, hvn, if_pos, Option.some.injEq,
                      Prod.mk.injEq] at hcomb
                    obtain ⟨h1, h2⟩ := hcomb
                    subst h2
                    constructor
                    · intro x hx
                      rcases nrange x hx with hx' | hx' | hx'
                      · rcases List.mem_singleton.mp hx' with rfl
                        refine Or.inr (Or.inr ?_)
                        rw [neg_neg]
                        exact w8 l hl
                      · exact Or.inr (Or.inl (w8 x hx'))
                      · exact Or.inr (Or.inr (w8 (-x) hx'))
                    · intro hv
                      rw [← h1] at hv
                      exact absurd hv (by simp)
                  · simp only [combineRes, hvp, if_pos, if_neg hvn, Option.some.injEq,
                      Prod.mk.injEq] at hcomb
                    obtain ⟨h1, h2⟩ := hcomb
                    subst h1
                    subst h2
                    constructor
                    · exact hiftomain In nrange2
                    · intro hv
                      obtain ⟨hcons, hcov⟩ := nsat hv
                      exact ⟨consistent_extend w3 w4 hcons nrange2, hcovmain In hcov⟩
                · simp only [combineRes, if_neg hvp, Option.some.injEq, Prod.mk.injEq] at hcomb
                  obtain ⟨h1, h2⟩ := hcomb
                  subst h1
                  subst h2
                  constructor
                  · exact hiftomain Ip prange2
                  · intro hv
                    obtain ⟨hcons, hcov⟩ := psat hv
                    exact ⟨consistent_extend w3 w4 hcons prange2, hcovmain Ip hcov⟩

theorem sysSat_modelOf {S : CNFSystem} {I : List ℤ}
    (hcons : ∀ x ∈ I, -x ∉ I ∧ x ≠ 0)
    (hcov : ∀ c ∈ S.clauses, ∃ x ∈ c.literals, x ∈ I) :
    sysSat (modelOf I) S := by
  intro c hc
  obtain ⟨x, hx1, hx2⟩ := hcov c hc
  obtain ⟨hneg, hx0⟩ := hcons x hx2
  refine ⟨x, hx1, ?_⟩
  unfold litTrue modelOf
  by_cases hpos : 0 < x
  · rw [if_pos hpos]
    exact decide_eq_true hx2
  · rw [if_neg hpos]
    exact decide_eq_false hneg

/-- C1, counterexample to the claim as stated: with an arbitrary
(uncontracted) unit set, `concurrent_dpll` can report SATISFIABLE with an
interpretation that falsifies an original clause: on the system
`{{1}, {2}}` with unit set `{1, -1}` the verdict is SATISFIABLE with
interpretation `{-1, 1, 2}`, and every literal of the original clause
`{1}` has its negation in that interpretation. -/
theorem C1_falsified_clause :
    concurrent_dpll ⟨[⟨[1]⟩, ⟨[2]⟩]⟩ [1, -1] 16 =
      some (ClauseType.Satisfiable, [-1, 1, 2]) ∧
    (⟨[1]⟩ : CNFClause) ∈ (⟨[⟨[1]⟩, ⟨[2]⟩]⟩ : CNFSystem).clauses ∧
    (∀ x ∈ (⟨[1]⟩ : CNFClause).literals, -x ∈ [(-1 : ℤ), 1, 2]) := by
  refine ⟨by decide, by decide, by decide⟩

/-- C1, amended: under the caller's contract — a well-formed, zero-free
system whose unit set consists of literals backed by unit clauses of the
system (as in `main.rs`) — a SATISFIABLE verdict of `concurrent_dpll` is
sound: every original clause contains a literal that is in the returned
interpretation and whose negation is not, and the Boolean assignment read
off the interpretation satisfies the whole original system. -/
theorem C1_soundness (S : CNFSystem) (units : List ℤ) (tc : ℤ)
    (HW : WfSystem S) (HZ : NoZero S)
    (HU : ∀ u ∈ units, u ≠ 0 ∧ (⟨[u]⟩ : CNFClause) ∈ S.clauses)
    (I : List ℤ)
    (h : concurrent_dpll S units tc = some (ClauseType.Satisfiable, I)) :
    (∀ c ∈ S.clauses, ∃ x ∈ c.literals, x ∈ I ∧ -x ∉ I) ∧
    sysSat (modelOf I) S := by
  unfold concurrent_dpll at h
  have h2 := join_eq_some.mp h
  obtain ⟨hrange, hsat⟩ := dpllF_main (2 * totalLen S + 2) S units tc HW HZ
    (Or.inl HU) ClauseType.Satisfiable I h2
  obtain ⟨hcons, hcov⟩ := hsat rfl
  constructor
  · intro c hc
    obtain ⟨x, hx1, hx2⟩ := hcov c hc
    exact ⟨x, hx1, hx2, (hcons x hx2).1⟩
  · exact sysSat_modelOf hcons hcov

theorem C1_soundness_witness :
    concurrent_dpll ⟨[⟨[1, 2]⟩, ⟨[-1, 2]⟩]⟩ [] 16 =
      some (ClauseType.Satisfiable, [1, 2]) ∧
    ((∀ c ∈ (⟨[⟨[1, 2]⟩, ⟨[-1, 2]⟩]⟩ : CNFSystem).clauses,
        ∃ x ∈ c.literals, x ∈ [(1 : ℤ), 2] ∧ -x ∉ [(1 : ℤ), 2]) ∧
      sysSat (modelOf [(1 : ℤ), 2]) ⟨[⟨[1, 2]⟩, ⟨[-1, 2]⟩]⟩) :=
  ⟨by decide, C1_soundness ⟨[⟨[1, 2]⟩, ⟨[-1, 2]⟩]⟩ [] 16 ⟨by decide, by decide⟩
    (by unfold NoZero; decide) (fun u hu => absurd hu (List.not_mem_nil u)) [1, 2] (by decide)⟩

/-- C5, counterexample to the claim as stated: with an arbitrary
(uncontracted) unit set, the SATISFIABLE interpretation can assign a
variable both ways: on the system `{{1}, {2}}` with unit set `{1, -1}`
both `1` and `-1` are members of the returned interpretation. -/
theorem C5_inconsistent_interp :
    concurrent_dpll ⟨[⟨[1]⟩, ⟨[2]⟩]⟩ [1, -1] 16 =
      some (ClauseType.Satisfiable, [-1, 1, 2]) ∧
    (1 : ℤ) ∈ [(-1 : ℤ), 1, 2] ∧ (-1 : ℤ) ∈ [(-1 : ℤ), 1, 2] := by
  refine ⟨by decide, by decide, by decide⟩

/-- C5, amended: under the caller's contract — well-formed, zero-free
system, unit set backed by unit clauses of the system — the
interpretation returned with a SATISFIABLE verdict of `concurrent_dpll`
never contains a literal together with its negation. -/
theorem C5_consistency (S : CNFSystem) (units : List ℤ) (tc : ℤ)
    (HW : WfSystem S) (HZ : NoZero S)
    (HU : ∀ u ∈ units, u ≠ 0 ∧ (⟨[u]⟩ : CNFClause) ∈ S.clauses)
    (I : List ℤ)
    (h : concurrent_dpll S units tc = some (ClauseType.Satisfiable, I)) :
    ∀ x ∈ I, -x ∉ I := by
  unfold concurrent_dpll at h
  have h2 := join_eq_some.mp h
  obtain ⟨_, hsat⟩ := dpllF_main (2 * totalLen S + 2) S units tc HW HZ
    (Or.inl HU) ClauseType.Satisfiable I h2
  intro x hx
  exact ((hsat rfl).1 x hx).1

theorem C5_consistency_witness :
    concurrent_dpll ⟨[⟨[1, 2]⟩, ⟨[-1, 2]⟩]⟩ [] 16 =
      some (ClauseType.Satisfiable, [1, 2]) ∧
    (∀ x ∈ [(1 : ℤ), 2], -x ∉ [(1 : ℤ), 2]) :=
  ⟨by decide, C5_consistency ⟨[⟨[1, 2]⟩, ⟨[-1, 2]⟩]⟩ [] 16 ⟨by decide, by decide⟩
    (by unfold NoZero; decide) (fun u hu => absurd hu (List.not_mem_nil u)) [1, 2] (by decide)⟩

/-! ### Semantic helper lemmas -/

theorem litTrue_neg {A : ℤ → Bool} {u : ℤ} (hu : u ≠ 0)
    (h : litTrue A u) : ¬ litTrue A (-u) := by
  unfold litTrue at h ⊢
  by_cases hpos : 0 < u
  · rw [if_pos hpos] at h
    rw [if_neg (by omega), neg_neg, h]
    exact fun hc => Bool.noConfusion hc
  · rw [if_neg hpos] at h
    rw [if_pos (by omega), h]
    exact fun hc => Bool.noConfusion hc

theorem litTrue_total {A : ℤ → Bool} {u : ℤ} (hu : u ≠ 0) :
    litTrue A u ∨ litTrue A (-u) := by
  unfold litTrue
  by_cases hpos : 0 < u
  · rw [if_pos hpos, if_neg (by omega), neg_neg]
    rcases hb : A u with _ | _
    · exact Or.inr rfl
    · exact Or.inl rfl
  · rw [if_neg hpos, if_pos (by omega)]
    rcases hb : A (-u) with _ | _
    · exact Or.inl rfl
    · exact Or.inr rfl

theorem litTrue_forceLit_self {A : ℤ → Bool} {u : ℤ} (hu : u ≠ 0) :
    litTrue (forceLit A u) u := by
  unfold litTrue forceLit
  by_cases hpos : 0 < u
  · rw [if_pos hpos, if_pos (Or.inl rfl)]
    exact decide_eq_true hpos
  · rw [if_neg hpos, if_pos (Or.inr rfl)]
    exact decide_eq_false hpos

theorem litTrue_forceLit_other {A : ℤ → Bool} {u x : ℤ}
    (h1 : x ≠ u) (h2 : x ≠ -u) :
    litTrue (forceLit A u) x ↔ litTrue A x := by
  unfold litTrue forceLit
  by_cases hpos : 0 < x
  · rw [if_pos hpos, if_pos hpos, if_neg (by push_neg; exact ⟨h1, h2⟩)]
  · rw [if_neg hpos, if_neg hpos, if_neg (by push_neg; constructor <;> omega)]

theorem clauseSat_forceLit {A : ℤ → Bool} {u : ℤ} {c : CNFClause}
    (hu : u ∉ c.literals) (hnu : -u ∉ c.literals) :
    clauseSat (forceLit A u) c ↔ clauseSat A c := by
  unfold clauseSat
  constructor
  · rintro ⟨x, hx1, hx2⟩
    have hxu : x ≠ u := by intro h; rw [h] at hx1; exact hu hx1
    have hxnu : x ≠ -u := by intro h; rw [h] at hx1; exact hnu hx1
    exact ⟨x, hx1, (litTrue_forceLit_other hxu hxnu).mp hx2⟩
  · rintro ⟨x, hx1, hx2⟩
    have hxu : x ≠ u := by intro h; rw [h] at hx1; exact hu hx1
    have hxnu : x ≠ -u := by intro h; rw [h] at hx1; exact hnu hx1
    exact ⟨x, hx1, (litTrue_forceLit_other hxu hxnu).mpr hx2⟩

/-! ### Unit-clause extraction lemmas -/

theorem get_unit_eq_some {c : CNFClause} {u : ℤ} :
    c.get_unit = some u ↔ c.literals = [u] := by
  unfold CNFClause.get_unit CNFClause.len
  constructor
  · intro h
    split_ifs at h with hlen
    · obtain ⟨a, ha⟩ := List.length_eq_one.mp hlen
      rw [ha] at h ⊢
      simp only [List.head?_cons, Option.some.injEq] at h
      rw [h]
  · intro h
    rw [h]
    simp

theorem unitLiterals_mem {S : CNFSystem} {u : ℤ} (h : u ∈ unitLiterals S) :
    (⟨[u]⟩ : CNFClause) ∈ S.clauses := by
  unfold unitLiterals at h
  have main : ∀ (cs : List CNFClause) (acc : List ℤ),
      u ∈ cs.foldr (fun c a => match c.get_unit with | some v => a.insert v | none => a) acc →
      (∃ c ∈ cs, c.get_unit = some u) ∨ u ∈ acc := by
    intro cs
    induction cs with
    | nil =>
      intro acc h
      exact Or.inr h
    | cons c rest ih =>
      intro acc h
      simp only [List.foldr_cons] at h
      rcases hg : c.get_unit with _ | v
      · rw [hg] at h
        rcases ih acc h with ⟨d, hd1, hd2⟩ | hacc
        · exact Or.inl ⟨d, List.mem_cons_of_mem c hd1, hd2⟩
        · exact Or.inr hacc
      · rw [hg] at h
        rcases List.mem_insert_iff.mp h with rfl | h2
        · exact Or.inl ⟨c, List.mem_cons_self c rest, hg⟩
        · rcases ih acc h2 with ⟨d, hd1, hd2⟩ | hacc
          · exact Or.inl ⟨d, List.mem_cons_of_mem c hd1, hd2⟩
          · exact Or.inr hacc
  rcases main S.clauses [] h with ⟨c, hc1, hc2⟩ | hacc
  · have := get_unit_eq_some.mp hc2
    have hcu : c = ⟨[u]⟩ := by
      cases c
      simpa using this
    rw [← hcu]
    exact hc1
  · exact absurd hacc (List.not_mem_nil u)

theorem basic_get_unit_spec {S : CNFSystem} {u : ℤ}
    (h : basic_dpll_get_unit_literal S = some u) :
    (⟨[u]⟩ : CNFClause) ∈ S.clauses := by
  unfold basic_dpll_get_unit_literal at h
  obtain ⟨c, hc1, hc2⟩ := List.exists_of_findSome?_eq_some h
  have := get_unit_eq_some.mp hc2
  have hcu : c = ⟨[u]⟩ := by
    cases c
    simpa using this
  rw [← hcu]
  exact hc1

/-! ### Model transport through concurrent propagation -/

theorem propagate_model {S : CNFSystem} {lit : ℤ} {nu : List ℤ} {S' : CNFSystem}
    (hwf : WfSystem S) (hlit : lit ≠ 0)
    (hp : concurrent_dpll_propagate S lit = some (nu, S'))
    {A : ℤ → Bool} (hA : sysSat A S) (hl : litTrue A lit) : sysSat A S' := by
  intro d hd
  rcases (((propagate_spec hwf hlit).2 nu S' hp).1 d).mp hd with
    ⟨hdS, _, _⟩ | ⟨c, hc, hclit, hcneg, hdc⟩
  · exact hA d hdS
  · obtain ⟨x, hx1, hx2⟩ := hA c hc
    have hxne : x ≠ -lit := by
      intro h
      rw [h] at hx2
      exact litTrue_neg hlit hl hx2
    refine ⟨x, ?_, hx2⟩
    rw [hdc]
    exact (List.mem_erase_of_ne hxne).mpr hx1

theorem propagate_conflict_model {S : CNFSystem} {lit : ℤ}
    (hwf : WfSystem S) (hlit : lit ≠ 0)
    (hp : concurrent_dpll_propagate S lit = none)
    {A : ℤ → Bool} (hA : sysSat A S) (hl : litTrue A lit) : False := by
  obtain ⟨c, hc, hceq⟩ := (propagate_spec hwf hlit).1.mp hp
  obtain ⟨x, hx1, hx2⟩ := hA c hc
  rw [hceq] at hx1
  rcases List.mem_singleton.mp hx1 with rfl
  exact litTrue_neg hlit hl hx2

theorem processUnits_model (us : List ℤ) : ∀ (S : CNFSystem) (i rev : List ℤ)
    (A : ℤ → Bool),
    WfSystem S → NoZero S →
    (∀ v, v ∈ us ∨ v ∈ rev → v ≠ 0) →
    sysSat A S →
    (∀ v, v ∈ us ∨ v ∈ rev → litTrue A v) →
    (∀ (ct : ClauseType) (I : List ℤ),
      processUnits us S i rev = Except.error (ct, I) → ct ≠ ClauseType.Unsatisfiable) ∧
    (∀ (S1 : CNFSystem) (i1 rev1 : List ℤ),
      processUnits us S i rev = Except.ok (S1, i1, rev1) →
      sysSat A S1 ∧ WfSystem S1 ∧ NoZero S1 ∧
      (∀ v ∈ rev1, v ≠ 0 ∧ litTrue A v)) := by
  induction us with
  | nil =>
    intro S i rev A HW HZ HZu hA hF
    constructor
    · intro ct I h
      exact Except.noConfusion h
    · intro S1 i1 rev1 h
      simp only [processUnits, Except.ok.injEq, Prod.mk.injEq] at h
      obtain ⟨rfl, rfl, rfl⟩ := h
      exact ⟨hA, HW, HZ, fun v hv => ⟨HZu v (Or.inr hv), hF v (Or.inr hv)⟩⟩
  | cons u rest ih =>
    intro S i rev A HW HZ HZu hA hF
    have hu0 : u ≠ 0 := HZu u (Or.inl (List.mem_cons_self u rest))
    have hFu : litTrue A u := hF u (Or.inl (List.mem_cons_self u rest))
    rcases hp : concurrent_dpll_propagate S u with _ | ⟨nu, Snext⟩
    · exact absurd (propagate_conflict_model HW hu0 hp hA hFu) (fun h => h)
    · have hwf2 : WfSystem Snext := propagate_wf HW hu0 hp
      have hz2 : NoZero Snext := propagate_NoZero HW hu0 hp HZ
      have hA2 : sysSat A Snext := propagate_model HW hu0 hp hA hFu
      have hunits := propagate_units HW hu0 hp
      by_cases hlen : Snext.len = 0
      · constructor
        · intro ct I h
          simp only [processUnits, hp, if_pos hlen, Except.error.injEq, Prod.mk.injEq] at h
          obtain ⟨rfl, rfl⟩ := h
          exact fun hc => ClauseType.noConfusion hc
        · intro S1 i1 rev1 h
          simp only [processUnits, hp, if_pos hlen] at h
          exact Except.noConfusion h
      · have hstep : processUnits (u :: rest) S i rev =
            processUnits rest Snext (insertSorted u i) (listExtend rev nu) := by
          simp only [processUnits, hp, if_neg hlen]
        have hZu2 : ∀ v, v ∈ rest ∨ v ∈ listExtend rev nu → v ≠ 0 := by
          intro v hv
          rcases hv with hv | hv
          · exact HZu v (Or.inl (List.mem_cons_of_mem u hv))
          · rcases mem_listExtend.mp hv with hv' | hv'
            · exact HZu v (Or.inr hv')
            · exact ne_zero_of_occurs HZ (hunits v hv').2.2.2
        have hF2 : ∀ v, v ∈ rest ∨ v ∈ listExtend rev nu → litTrue A v := by
          intro v hv
          rcases hv with hv | hv
          · exact hF v (Or.inl (List.mem_cons_of_mem u hv))
          · rcases mem_listExtend.mp hv with hv' | hv'
            · exact hF v (Or.inr hv')
            · obtain ⟨hback, _, _, _⟩ := hunits v hv'
              obtain ⟨x, hx1, hx2⟩ := hA2 _ hback
              rcases List.mem_singleton.mp hx1 with rfl
              exact hx2
        obtain ⟨iherr, ihok⟩ := ih Snext (insertSorted u i) (listExtend rev nu) A
          hwf2 hz2 hZu2 hA2 hF2
        constructor
        · intro ct I h
          rw [hstep] at h
          exact iherr ct I h
        · intro S1 i1 rev1 h
          rw [hstep] at h
          exact ihok S1 i1 rev1 h

theorem propagateUnits_model (f : ℕ) : ∀ (S : CNFSystem) (units i : List ℤ)
    (A : ℤ → Bool),
    WfSystem S → NoZero S →
    (∀ v ∈ units, v ≠ 0) →
    sysSat A S →
    (∀ v ∈ units, litTrue A v) →
    (∀ (ct : ClauseType) (I : List ℤ),
      propagateUnits f S units i = some (Except.error (ct, I)) →
      ct ≠ ClauseType.Unsatisfiable) ∧
    (∀ (S1 : CNFSystem) (i1 : List ℤ),
      propagateUnits f S units i = some (Except.ok (S1, i1)) →
      sysSat A S1 ∧ WfSystem S1 ∧ NoZero S1) := by
  induction f with
  | zero =>
    intro S units i A _ _ _ _ _
    constructor
    · intro ct I h
      exact Option.noConfusion h
    · intro S1 i1 h
      exact Option.noConfusion h
  | succ f ih =>
    intro S units i A HW HZ HZu hA hF
    by_cases hlen : units.length = 0
    · constructor
      · intro ct I h
        simp only [propagateUnits, if_pos hlen] at h
        exact Except.noConfusion (Option.some.inj h)
      · intro S1 i1 h
        simp only [propagateUnits, if_pos hlen, Option.some.injEq, Except.ok.injEq,
          Prod.mk.injEq] at h
        obtain ⟨rfl, rfl⟩ := h
        exact ⟨hA, HW, HZ⟩
    · have hZu0 : ∀ v, v ∈ units ∨ v ∈ ([] : List ℤ) → v ≠ 0 := by
        intro v hv
        rcases hv with hv | hv
        · exact HZu v hv
        · exact absurd hv (List.not_mem_nil v)
      have hF0 : ∀ v, v ∈ units ∨ v ∈ ([] : List ℤ) → litTrue A v := by
        intro v hv
        rcases hv with hv | hv
        · exact hF v hv
        · exact absurd hv (List.not_mem_nil v)
      obtain ⟨merr, mok⟩ := processUnits_model units S i [] A HW HZ hZu0 hA hF0
      rcases hq : processUnits units S i [] with ⟨ct0, I0⟩ | ⟨S1m, i1m, rev1⟩
      · constructor
        · intro ct I h
          simp only [propagateUnits, if_neg hlen, hq, Option.some.injEq, Except.error.injEq,
            Prod.mk.injEq] at h
          obtain ⟨rfl, rfl⟩ := h
          exact merr _ _ hq
        · intro S1 i1 h
          simp only [propagateUnits, if_neg hlen, hq] at h
          exact Except.noConfusion (Option.some.inj h)
      · obtain ⟨hA1, hwf1, hz1, hrev1⟩ := mok S1m i1m rev1 hq
        have hstep : propagateUnits (f + 1) S units i = propagateUnits f S1m rev1 i1m := by
          simp only [propagateUnits, if_neg hlen, hq]
        obtain ⟨iherr, ihok⟩ := ih S1m rev1 i1m A hwf1 hz1
          (fun v hv => (hrev1 v hv).1) hA1 (fun v hv => (hrev1 v hv).2)
        constructor
        · intro ct I h
          rw [hstep] at h
          exact iherr ct I h
        · intro S1 i1 h
          rw [hstep] at h
          exact ihok S1 i1 h

theorem dpllF_complete (f : ℕ) : ∀ (S : CNFSystem) (units : List ℤ) (tc : ℤ)
    (A : ℤ → Bool),
    WfSystem S → NoZero S →
    (∀ v ∈ units, v ≠ 0) →
    sysSat A S →
    (∀ u ∈ units, litTrue A u) →
    ∀ (I : List ℤ),
      dpllF f S units tc = some (some (ClauseType.Unsatisfiable, I)) → False := by
  induction f with
  | zero =>
    intro S units tc A _ _ _ _ _ I h
    exact Option.noConfusion h
  | succ f ih =>
    intro S units tc A HW HZ HZu hA hF I h
    obtain ⟨merr, mok⟩ := propagateUnits_model (totalLen S + 2) S units [] A HW HZ HZu hA hF
    rcases hq : propagateUnits (totalLen S + 2) S units [] with _ | (⟨ct0, I0⟩ | ⟨S1, interp⟩)
    · simp only [dpllF, hq] at h
      exact Option.noConfusion h
    · rw [dpllF_step_error hq] at h
      have h2 : (ct0, I0) = (ClauseType.Unsatisfiable, I) :=
        Option.some.inj (Option.some.inj h)
      injection h2 with h3 _
      exact merr ct0 I0 hq h3
    · obtain ⟨hA1, hwf1, hz1⟩ := mok S1 interp hq
      rcases hd : decisionLiteral S1 with _ | l
      · rw [dpllF_step_panic hq hd] at h
        exact Option.noConfusion (Option.some.inj h)
      · have hl : occursB S1 l = true := decisionLiteral_occurs hd
        have hl0 : l ≠ 0 := ne_zero_of_occurs hz1 hl
        rcases hp : dpllF f S1 [l] (if 2 ≤ tc then tc - 2 else 0) with _ | a
        · rw [dpllF_step_posfuel hq hd hp] at h
          exact Option.noConfusion h
        · rcases hn : dpllF f S1 [-l] (if 2 ≤ tc then tc - 2 else 0) with _ | b
          · rw [dpllF_step_negfuel hq hd hp hn] at h
            exact Option.noConfusion h
          · rw [dpllF_step_some hq hd hp hn] at h
            have hcomb : combineRes interp a b = some (ClauseType.Unsatisfiable, I) :=
              Option.some.inj h
            rcases a with _ | ⟨vp, Ip⟩
            · simp only [combineRes] at hcomb
              exact Option.noConfusion hcomb
            · rcases b with _ | ⟨vn, In⟩
              · simp only [combineRes] at hcomb
                exact Option.noConfusion hcomb
              · have hvp : vp = ClauseType.Unsatisfiable := by
                  by_contra hvp
                  simp only [combineRes, if_neg hvp, Option.some.injEq, Prod.mk.injEq] at hcomb
                  exact hvp hcomb.1
                have hvn : vn = ClauseType.Unsatisfiable := by
                  by_contra hvn
                  simp only [combineRes, hvp, if_pos, if_neg hvn, Option.some.injEq,
                    Prod.mk.injEq] at hcomb
                  exact hvn hcomb.1
                rw [hvp] at hp
                rw [hvn] at hn
                rcases litTrue_total (A := A) hl0 with hAl | hAnl
                · exact ih S1 [l] (if 2 ≤ tc then tc - 2 else 0) A hwf1 hz1
                    (fun v hv => by rcases List.mem_singleton.mp hv with rfl; exact hl0)
                    hA1
                    (fun v hv => by rcases List.mem_singleton.mp hv with rfl; exact hAl)
                    Ip hp
                · exact ih S1 [-l] (if 2 ≤ tc then tc - 2 else 0) A hwf1 hz1
                    (fun v hv => by
                      rcases List.mem_singleton.mp hv with rfl
                      exact neg_ne_zero.mpr hl0)
                    hA1
                    (fun v hv => by rcases List.mem_singleton.mp hv with rfl; exact hAnl)
                    In hn

/-! ### Characterization of `basic_dpll_propagate` -/

theorem basicReduce_cons {lit : ℤ} {c : CNFClause} {rest : List CNFClause}
    {W : CNFSystem} {flag : Bool} (hcW : c ∈ W.clauses) :
    basicReduce lit (c :: rest) W flag =
      basicReduce lit rest
        ((CNFSystem.mk (W.clauses.erase c)).add_clause ⟨c.literals.erase (-lit)⟩).2
        (if flag then !(⟨c.literals.erase (-lit)⟩ : CNFClause).is_empty else flag) := by
  simp [basicReduce, CNFSystem.remove_clause, hcW]

theorem basicReduce_go (lit : ℤ) (todo : List CNFClause) :
    ∀ (W : CNFSystem) (flag : Bool),
    (∀ c ∈ todo, c ∈ W.clauses) →
    todo.Nodup →
    W.clauses.Nodup →
    (∀ c ∈ todo, lit ∉ c.literals ∧ -lit ∈ c.literals ∧ c.literals.Nodup) →
    ∀ fl W', basicReduce lit todo W flag = (fl, W') →
      (fl = true ↔ (flag = true ∧ ∀ c ∈ todo, c.literals.erase (-lit) ≠ [])) ∧
      (∀ d, d ∈ W'.clauses ↔
        (d ∈ W.clauses ∧ d ∉ todo) ∨ ∃ c ∈ todo, d = ⟨c.literals.erase (-lit)⟩) ∧
      W'.clauses.Nodup := by
  induction todo with
  | nil =>
    intro W flag _ _ hWnd _ fl W' h
    simp only [basicReduce, Prod.mk.injEq] at h
    obtain ⟨rfl, rfl⟩ := h
    refine ⟨by simp, fun d => by simp, hWnd⟩
  | cons c rest ih =>
    intro W flag hpres hnd hWnd hc fl W' h
    have hcW : c ∈ W.clauses := hpres c (List.mem_cons_self c rest)
    obtain ⟨hclit, hcneg, hcnodup⟩ := hc c (List.mem_cons_self c rest)
    have hcnotrest : c ∉ rest := (List.nodup_cons.mp hnd).1
    have hndrest : rest.Nodup := (List.nodup_cons.mp hnd).2
    have hcrest : ∀ d ∈ rest, lit ∉ d.literals ∧ -lit ∈ d.literals ∧ d.literals.Nodup :=
      fun d hd => hc d (List.mem_cons_of_mem c hd)
    have hpresrest : ∀ d ∈ rest, d ∈ W.clauses :=
      fun d hd => hpres d (List.mem_cons_of_mem c hd)
    have hnegout : -lit ∉ c.literals.erase (-lit) := hcnodup.not_mem_erase
    have hc2rest : (⟨c.literals.erase (-lit)⟩ : CNFClause) ∉ rest := by
      intro hmem
      exact hnegout (hcrest _ hmem).2.1
    have hW1nd : (W.clauses.erase c).Nodup := hWnd.erase c
    have hW2nd : ((CNFSystem.mk (W.clauses.erase c)).add_clause
        ⟨c.literals.erase (-lit)⟩).2.clauses.Nodup := add_clause_nodup hW1nd
    have hpres2 : ∀ d ∈ rest, d ∈ ((CNFSystem.mk (W.clauses.erase c)).add_clause
        ⟨c.literals.erase (-lit)⟩).2.clauses := by
      intro d hd
      refine mem_add_clause.mpr (Or.inl ?_)
      exact (List.Nodup.mem_erase_iff hWnd).mpr
        ⟨fun h' => hcnotrest (h' ▸ hd), hpresrest d hd⟩
    rw [basicReduce_cons hcW] at h
    obtain ⟨ihflag, ihmem, ihnd⟩ := ih _ _ hpres2 hndrest hW2nd hcrest fl W' h
    have hW2mem : ∀ e : CNFClause,
        e ∈ ((CNFSystem.mk (W.clauses.erase c)).add_clause
          ⟨c.literals.erase (-lit)⟩).2.clauses ↔
        (e ≠ c ∧ e ∈ W.clauses) ∨ e = ⟨c.literals.erase (-lit)⟩ := by
      intro e
      rw [mem_add_clause]
      constructor
      · rintro (he | rfl)
        · exact Or.inl ((List.Nodup.mem_erase_iff hWnd).mp he)
        · exact Or.inr rfl
      · rintro (⟨hne, he⟩ | rfl)
        · exact Or.inl ((List.Nodup.mem_erase_iff hWnd).mpr ⟨hne, he⟩)
        · exact Or.inr rfl
    refine ⟨?_, ?_, ihnd⟩
    · have hflag2 : ((if flag then !(⟨c.literals.erase (-lit)⟩ : CNFClause).is_empty
          else flag) = true) ↔ (flag = true ∧ c.literals.erase (-lit) ≠ []) := by
        rcases flag with _ | _
        · simp
        · simp [CNFClause.is_empty, CNFClause.len, List.length_eq_zero]
      rw [ihflag, hflag2, List.forall_mem_cons]
      tauto
    · intro d
      rw [ihmem d]
      constructor
      · rintro (⟨hdW2, hdrest⟩ | ⟨c', hc', hdc'⟩)
        · rcases (hW2mem d).mp hdW2 with ⟨hne, hdW⟩ | rfl
          · refine Or.inl ⟨hdW, ?_⟩
            intro hmem
            rcases List.mem_cons.mp hmem with rfl | h'
            · exact hne rfl
            · exact hdrest h'
          · exact Or.inr ⟨c, List.mem_cons_self c rest, rfl⟩
        · exact Or.inr ⟨c', List.mem_cons_of_mem c hc', hdc'⟩
      · rintro (⟨hdW, hdall⟩ | ⟨c', hc', hdc'⟩)
        · refine Or.inl ⟨(hW2mem d).mpr
            (Or.inl ⟨fun h' => hdall (h' ▸ List.mem_cons_self c rest), hdW⟩), ?_⟩
          exact fun h' => hdall (List.mem_cons_of_mem c h')
        · rcases List.mem_cons.mp hc' with rfl | hc'
          · refine Or.inl ⟨(hW2mem d).mpr (Or.inr hdc'), ?_⟩
            rw [hdc']
            exact hc2rest
          · exact Or.inr ⟨c', hc', hdc'⟩

theorem basic_propagate_spec {S : CNFSystem} {lit : ℤ} (hwf : WfSystem S) (hlit : lit ≠ 0) :
    ∀ (fl : Bool) (S' : CNFSystem), basic_dpll_propagate S lit = (fl, S') →
      (fl = false ↔ ∃ c ∈ S.clauses, c.literals = [-lit]) ∧
      (∀ d, d ∈ S'.clauses ↔
        (d ∈ S.clauses ∧ lit ∉ d.literals ∧ -lit ∉ d.literals) ∨
        (∃ c ∈ S.clauses, lit ∉ c.literals ∧ -lit ∈ c.literals ∧
          d = ⟨c.literals.erase (-lit)⟩)) ∧
      WfSystem S' := by
  intro fl S' h
  have hS1 := removePhase_clauses S lit
  set todo := S.clauses.filter (fun c => !(c.contains lit) && c.contains (-lit)) with htodo
  set S1 := removeClauses S (S.clauses.filter (fun c => c.contains lit)) with hS1def
  have hpres : ∀ c ∈ todo, c ∈ S1.clauses := by
    intro c hc
    rw [hS1]
    obtain ⟨hcs, h1, _⟩ := propagate_todo_spec.mp hc
    rw [List.mem_filter]
    exact ⟨hcs, by simp [CNFClause.contains, h1]⟩
  have hnd : todo.Nodup := hwf.1.filter _
  have hS1nd : S1.clauses.Nodup := by
    rw [hS1]
    exact hwf.1.filter _
  have hctodo : ∀ c ∈ todo, lit ∉ c.literals ∧ -lit ∈ c.literals ∧ c.literals.Nodup := by
    intro c hc
    obtain ⟨hcs, h1, h2⟩ := propagate_todo_spec.mp hc
    exact ⟨h1, h2, (hwf.2 c hcs).nodup⟩
  have hprop : basic_dpll_propagate S lit = basicReduce lit todo S1 true := rfl
  rw [hprop] at h
  obtain ⟨hflag, hmem, hndW⟩ := basicReduce_go lit todo S1 true hpres hnd hS1nd hctodo fl S' h
  have hS1mem : ∀ d : CNFClause, d ∈ S1.clauses ↔ d ∈ S.clauses ∧ lit ∉ d.literals := by
    intro d
    rw [hS1, List.mem_filter]
    simp [CNFClause.contains]
  refine ⟨?_, ?_, ?_⟩
  · have h1 : ¬(fl = true) ↔ ∃ c ∈ todo, c.literals.erase (-lit) = [] := by
      rw [hflag]
      simp only [true_and]
      push_neg
      rfl
    have h2 : (fl = false) ↔ ¬(fl = true) := by
      rcases fl with _ | _ <;> simp
    rw [h2, h1]
    constructor
    · rintro ⟨c, hc, hce⟩
      obtain ⟨hcs, hl1, hl2⟩ := propagate_todo_spec.mp hc
      refine ⟨c, hcs, ?_⟩
      rcases erase_eq_nil hce with h0 | h0
      · rw [h0] at hl2
        exact absurd hl2 (by simp)
      · exact h0
    · rintro ⟨c, hc, hce⟩
      refine ⟨c, propagate_todo_spec.mpr ⟨hc, ?_, ?_⟩, ?_⟩
      · rw [hce]
        simp only [List.mem_singleton]
        intro h'
        exact hlit (by omega)
      · rw [hce]
        simp
      · rw [hce]
        simp
  · intro d
    rw [hmem d]
    constructor
    · rintro (⟨hdS1, hdtodo⟩ | ⟨c, hc, hdc⟩)
      · obtain ⟨hdS, hdlit⟩ := (hS1mem d).mp hdS1
        refine Or.inl ⟨hdS, hdlit, ?_⟩
        intro hneg
        exact hdtodo (propagate_todo_spec.mpr ⟨hdS, hdlit, hneg⟩)
      · obtain ⟨hcs, h1, h2⟩ := propagate_todo_spec.mp hc
        exact Or.inr ⟨c, hcs, h1, h2, hdc⟩
    · rintro (⟨hdS, h1, h2⟩ | ⟨c, hcs, h1, h2, hdc⟩)
      · refine Or.inl ⟨(hS1mem d).mpr ⟨hdS, h1⟩, ?_⟩
        intro hdtodo
        exact h2 (propagate_todo_spec.mp hdtodo).2.2
      · exact Or.inr ⟨c, propagate_todo_spec.mpr ⟨hcs, h1, h2⟩, hdc⟩
  · refine ⟨hndW, ?_⟩
    intro d hd
    rcases (hmem d).mp hd with ⟨hdS1, _⟩ | ⟨c, hc, hdc⟩
    · exact hwf.2 d ((hS1mem d).mp hdS1).1
    · obtain ⟨hcs, _, _⟩ := propagate_todo_spec.mp hc
      rw [hdc]
      exact (hwf.2 c hcs).sublist (List.erase_sublist _ _)

theorem basic_propagate_NoZero {S : CNFSystem} {lit : ℤ} {fl : Bool} {S' : CNFSystem}
    (hwf : WfSystem S) (hlit : lit ≠ 0)
    (h : basic_dpll_propagate S lit = (fl, S')) (hz : NoZero S) : NoZero S' := by
  intro d hd hmem
  rcases (((basic_propagate_spec hwf hlit fl S' h).2.1) d).mp hd with
    ⟨hdS, _, _⟩ | ⟨c, hc, _, _, hdc⟩
  · exact hz d hdS hmem
  · rw [hdc] at hmem
    exact hz c hc (List.erase_subset _ _ hmem)

theorem basic_propagate_scrub {S : CNFSystem} {lit : ℤ} {fl : Bool} {S' : CNFSystem}
    (hwf : WfSystem S) (hlit : lit ≠ 0)
    (h : basic_dpll_propagate S lit = (fl, S')) :
    ∀ d ∈ S'.clauses, lit ∉ d.literals ∧ -lit ∉ d.literals := by
  intro d hd
  rcases (((basic_propagate_spec hwf hlit fl S' h).2.1) d).mp hd with
    ⟨_, h1, h2⟩ | ⟨c, hc, h1, _, hdc⟩
  · exact ⟨h1, h2⟩
  · rw [hdc]
    constructor
    · intro hmem
      exact h1 (List.erase_subset _ _ hmem)
    · exact ((hwf.2 c hc).nodup).not_mem_erase

theorem basic_propagate_model {S : CNFSystem} {lit : ℤ} {fl : Bool} {S' : CNFSystem}
    (hwf : WfSystem S) (hlit : lit ≠ 0)
    (h : basic_dpll_propagate S lit = (fl, S'))
    {A : ℤ → Bool} (hA : sysSat A S) (hl : litTrue A lit) : sysSat A S' := by
  intro d hd
  rcases (((basic_propagate_spec hwf hlit fl S' h).2.1) d).mp hd with
    ⟨hdS, _, _⟩ | ⟨c, hc, _, _, hdc⟩
  · exact hA d hdS
  · obtain ⟨x, hx1, hx2⟩ := hA c hc
    have hxne : x ≠ -lit := by
      intro h'
      rw [h'] at hx2
      exact litTrue_neg hlit hl hx2
    refine ⟨x, ?_, hx2⟩
    rw [hdc]
    exact (List.mem_erase_of_ne hxne).mpr hx1

theorem basic_propagate_model_rev {S : CNFSystem} {lit : ℤ} {fl : Bool} {S' : CNFSystem}
    (hwf : WfSystem S) (hlit : lit ≠ 0)
    (h : basic_dpll_propagate S lit = (fl, S'))
    {A : ℤ → Bool} (hA : sysSat A S') (hl : litTrue A lit) : sysSat A S := by
  intro c hc
  by_cases hclit : lit ∈ c.literals
  · exact ⟨lit, hclit, hl⟩
  · by_cases hcneg : -lit ∈ c.literals
    · have hred : (⟨c.literals.erase (-lit)⟩ : CNFClause) ∈ S'.clauses :=
        (((basic_propagate_spec hwf hlit fl S' h).2.1) _).mpr
          (Or.inr ⟨c, hc, hclit, hcneg, rfl⟩)
      obtain ⟨x, hx1, hx2⟩ := hA _ hred
      exact ⟨x, List.erase_subset _ _ hx1, hx2⟩
    · have huntouched : c ∈ S'.clauses :=
        (((basic_propagate_spec hwf hlit fl S' h).2.1) c).mpr (Or.inl ⟨hc, hclit, hcneg⟩)
      exact hA c huntouched

theorem basic_propagate_conflict_model {S : CNFSystem} {lit : ℤ} {S' : CNFSystem}
    (hwf : WfSystem S) (hlit : lit ≠ 0)
    (h : basic_dpll_propagate S lit = (false, S'))
    {A : ℤ → Bool} (hA : sysSat A S) (hl : litTrue A lit) : False := by
  obtain ⟨c, hc, hceq⟩ := ((basic_propagate_spec hwf hlit false S' h).1).mp rfl
  obtain ⟨x, hx1, hx2⟩ := hA c hc
  rw [hceq] at hx1
  rcases List.mem_singleton.mp hx1 with rfl
  exact litTrue_neg hlit hl hx2

theorem basic_propagate_satisfiable {S : CNFSystem} {lit : ℤ} {fl : Bool} {S' : CNFSystem}
    (hwf : WfSystem S) (hlit : lit ≠ 0)
    (h : basic_dpll_propagate S lit = (fl, S'))
    (hsat : Satisfiable S') : Satisfiable S := by
  obtain ⟨A, hA⟩ := hsat
  have hscrub := basic_propagate_scrub hwf hlit h
  have hA2 : sysSat (forceLit A lit) S' := by
    intro d hd
    rw [clauseSat_forceLit (hscrub d hd).1 (hscrub d hd).2]
    exact hA d hd
  exact ⟨forceLit A lit,
    basic_propagate_model_rev hwf hlit h hA2 (litTrue_forceLit_self hlit)⟩

/-! ### The unit-propagation loop of `basic_dpll` -/

theorem basicLoopF_wf (f : ℕ) : ∀ (S : CNFSystem) (i : List ℤ),
    WfSystem S → NoZero S →
    ∀ (S1 : CNFSystem) (i1 : List ℤ),
      basicLoopF f S i = some (Except.ok (S1, i1)) →
      WfSystem S1 ∧ NoZero S1 := by
  induction f with
  | zero =>
    intro S i _ _ S1 i1 h
    exact Option.noConfusion h
  | succ f ih =>
    intro S i HW HZ S1 i1 h
    rcases hg : basic_dpll_get_unit_literal S with _ | lit
    · simp only [basicLoopF, hg, Option.some.injEq, Except.ok.injEq, Prod.mk.injEq] at h
      obtain ⟨rfl, rfl⟩ := h
      exact ⟨HW, HZ⟩
    · have hu := basic_get_unit_spec hg
      have hl0 : lit ≠ 0 := by
        intro h0
        exact HZ _ hu (by rw [h0]; exact List.mem_singleton.mpr rfl)
      rcases hpr : basic_dpll_propagate S lit with ⟨fl, S2⟩
      have hwf2 : WfSystem S2 := (basic_propagate_spec HW hl0 fl S2 hpr).2.2
      have hz2 : NoZero S2 := basic_propagate_NoZero HW hl0 hpr HZ
      rcases fl with _ | _
      · simp only [basicLoopF, hg, hpr] at h
        exact Except.noConfusion (Option.some.inj h)
      · by_cases hlen : S2.len = 0
        · simp only [basicLoopF, hg, hpr, hlen] at h
          simp only [Bool.not_true, Bool.false_eq_true, if_false, if_pos] at h
          exact Except.noConfusion (Option.some.inj h)
        · have hstep : basicLoopF (f + 1) S i = basicLoopF f S2 i := by
            simp [basicLoopF, hg, hpr, hlen]
          rw [hstep] at h
          exact ih S2 i hwf2 hz2 S1 i1 h

theorem basicLoopF_error_type (f : ℕ) : ∀ (S : CNFSystem) (i : List ℤ)
    (ct : ClauseType) (I : List ℤ),
    basicLoopF f S i = some (Except.error (ct, I)) →
    ct = ClauseType.Satisfiable ∨ ct = ClauseType.Unsatisfiable := by
  induction f with
  | zero =>
    intro S i ct I h
    exact Option.noConfusion h
  | succ f ih =>
    intro S i ct I h
    rcases hg : basic_dpll_get_unit_literal S with _ | lit
    · simp only [basicLoopF, hg] at h
      exact Except.noConfusion (Option.some.inj h)
    · rcases hpr : basic_dpll_propagate S lit with ⟨fl, S2⟩
      rcases fl with _ | _
      · simp only [basicLoopF, hg, hpr, Bool.not_false, if_pos, Option.some.injEq,
          Except.error.injEq, Prod.mk.injEq] at h
        exact Or.inr h.1.symm
      · by_cases hlen : S2.len = 0
        · simp only [basicLoopF, hg, hpr, hlen, Bool.not_true, Bool.false_eq_true, if_false,
            if_pos, Option.some.injEq, Except.error.injEq, Prod.mk.injEq] at h
          exact Or.inl h.1.symm
        · have hstep : basicLoopF (f + 1) S i = basicLoopF f S2 i := by
            simp [basicLoopF, hg, hpr, hlen]
          rw [hstep] at h
          exact ih S2 i ct I h

theorem basicLoopF_model (f : ℕ) : ∀ (S : CNFSystem) (i : List ℤ) (A : ℤ → Bool),
    WfSystem S → NoZero S → sysSat A S →
    (∀ (ct : ClauseType) (I : List ℤ),
      basicLoopF f S i = some (Except.error (ct, I)) → ct ≠ ClauseType.Unsatisfiable) ∧
    (∀ (S1 : CNFSystem) (i1 : List ℤ),
      basicLoopF f S i = some (Except.ok (S1, i1)) → sysSat A S1) := by
  induction f with
  | zero =>
    intro S i A _ _ _
    exact ⟨fun ct I h => Option.noConfusion h, fun S1 i1 h => Option.noConfusion h⟩
  | succ f ih =>
    intro S i A HW HZ hA
    rcases hg : basic_dpll_get_unit_literal S with _ | lit
    · constructor
      · intro ct I h
        simp only [basicLoopF, hg] at h
        exact Except.noConfusion (Option.some.inj h)
      · intro S1 i1 h
        simp only [basicLoopF, hg, Option.some.injEq, Except.ok.injEq, Prod.mk.injEq] at h
        obtain ⟨rfl, rfl⟩ := h
        exact hA
    · have hu := basic_get_unit_spec hg
      have hl0 : lit ≠ 0 := by
        intro h0
        exact HZ _ hu (by rw [h0]; exact List.mem_singleton.mpr rfl)
      have hforced : litTrue A lit := by
        obtain ⟨x, hx1, hx2⟩ := hA _ hu
        rcases List.mem_singleton.mp hx1 with rfl
        exact hx2
      rcases hpr : basic_dpll_propagate S lit with ⟨fl, S2⟩
      rcases fl with _ | _
      · exact absurd (basic_propagate_conflict_model HW hl0 hpr hA hforced) (fun h => h)
      · have hwf2 : WfSystem S2 := (basic_propagate_spec HW hl0 true S2 hpr).2.2
        have hz2 : NoZero S2 := basic_propagate_NoZero HW hl0 hpr HZ
        have hA2 : sysSat A S2 := basic_propagate_model HW hl0 hpr hA hforced
        by_cases hlen : S2.len = 0
        · constructor
          · intro ct I h
            simp only [basicLoopF, hg, hpr, hlen, Bool.not_true, Bool.false_eq_true, if_false,
              if_pos, Option.some.injEq, Except.error.injEq, Prod.mk.injEq] at h
            rw [← h.1]
            exact fun hc => ClauseType.noConfusion hc
          · intro S1 i1 h
            simp only [basicLoopF, hg, hpr, hlen, Bool.not_true, Bool.false_eq_true, if_false,
              if_pos] at h
            exact Except.noConfusion (Option.some.inj h)
        · have hstep : basicLoopF (f + 1) S i = basicLoopF f S2 i := by
            simp [basicLoopF, hg, hpr, hlen]
          obtain ⟨iherr, ihok⟩ := ih S2 i A hwf2 hz2 hA2
          constructor
          · intro ct I h
            rw [hstep] at h
            exact iherr ct I h
          · intro S1 i1 h
            rw [hstep] at h
            exact ihok S1 i1 h

theorem basicLoopF_sat (f : ℕ) : ∀ (S : CNFSystem) (i : List ℤ),
    WfSystem S → NoZero S →
    (∀ (ct : ClauseType) (I : List ℤ),
      basicLoopF f S i = some (Except.error (ct, I)) →
      ct = ClauseType.Satisfiable → Satisfiable S) ∧
    (∀ (S1 : CNFSystem) (i1 : List ℤ),
      basicLoopF f S i = some (Except.ok (S1, i1)) →
      Satisfiable S1 → Satisfiable S) := by
  induction f with
  | zero =>
    intro S i _ _
    exact ⟨fun ct I h => Option.noConfusion h, fun S1 i1 h => Option.noConfusion h⟩
  | succ f ih =>
    intro S i HW HZ
    rcases hg : basic_dpll_get_unit_literal S with _ | lit
    · constructor
      · intro ct I h
        simp only [basicLoopF, hg] at h
        exact absurd (Option.some.inj h) (fun hc => Except.noConfusion hc)
      · intro S1 i1 h
        simp only [basicLoopF, hg, Option.some.injEq, Except.ok.injEq, Prod.mk.injEq] at h
        obtain ⟨rfl, rfl⟩ := h
        exact fun hs => hs
    · have hu := basic_get_unit_spec hg
      have hl0 : lit ≠ 0 := by
        intro h0
        exact HZ _ hu (by rw [h0]; exact List.mem_singleton.mpr rfl)
      rcases hpr : basic_dpll_propagate S lit with ⟨fl, S2⟩
      rcases fl with _ | _
      · constructor
        · intro ct I h hct
          simp only [basicLoopF, hg, hpr, Bool.not_false, if_pos, Option.some.injEq,
            Except.error.injEq, Prod.mk.injEq] at h
          rw [hct] at h
          exact absurd h.1 (fun hc => ClauseType.noConfusion hc)
        · intro S1 i1 h
          simp only [basicLoopF, hg, hpr, Bool.not_false, if_pos] at h
          exact absurd (Option.some.inj h) (fun hc => Except.noConfusion hc)
      · have hwf2 : WfSystem S2 := (basic_propagate_spec HW hl0 true S2 hpr).2.2
        have hz2 : NoZero S2 := basic_propagate_NoZero HW hl0 hpr HZ
        by_cases hlen : S2.len = 0
        · constructor
          · intro ct I h _
            have hempty : S2.clauses = [] := by
              unfold CNFSystem.len at hlen
              exact List.length_eq_zero.mp hlen
            have hS2sat : Satisfiable S2 := by
              refine ⟨modelOf [], ?_⟩
              intro c hc
              rw [hempty] at hc
              exact absurd hc (List.not_mem_nil c)
            exact basic_propagate_satisfiable HW hl0 hpr hS2sat
          · intro S1 i1 h
            simp only [basicLoopF, hg, hpr, hlen, Bool.not_true, Bool.false_eq_true, if_false,
              if_pos] at h
            exact absurd (Option.some.inj h) (fun hc => Except.noConfusion hc)
        · have hstep : basicLoopF (f + 1) S i = basicLoopF f S2 i := by
            simp [basicLoopF, hg, hpr, hlen]
          obtain ⟨iherr, ihok⟩ := ih S2 i hwf2 hz2
          constructor
          · intro ct I h hct
            rw [hstep] at h
            exact basic_propagate_satisfiable HW hl0 hpr (iherr ct I h hct)
          · intro S1 i1 h hs
            rw [hstep] at h
            exact basic_propagate_satisfiable HW hl0 hpr (ihok S1 i1 h hs)

/-! ### The decision level of `basic_dpll` -/

theorem add_clause_wf {S : CNFSystem} {l : ℤ} (hwf : WfSystem S) :
    WfSystem (S.add_clause ⟨[l]⟩).2 := by
  constructor
  · exact add_clause_nodup hwf.1
  · intro c hc
    rcases mem_add_clause.mp hc with hc | rfl
    · exact hwf.2 c hc
    · simp

theorem add_clause_NoZero {S : CNFSystem} {l : ℤ} (hz : NoZero S) (hl : l ≠ 0) :
    NoZero (S.add_clause ⟨[l]⟩).2 := by
  intro c hc hmem
  rcases mem_add_clause.mp hc with hc | rfl
  · exact hz c hc hmem
  · rw [List.mem_singleton] at hmem
    exact hl hmem.symm

theorem sysSat_add_clause {S : CNFSystem} {l : ℤ} {A : ℤ → Bool}
    (hA : sysSat A S) (hl : litTrue A l) : sysSat A (S.add_clause ⟨[l]⟩).2 := by
  intro c hc
  rcases mem_add_clause.mp hc with hc | rfl
  · exact hA c hc
  · exact ⟨l, List.mem_singleton.mpr rfl, hl⟩

theorem satisfiable_of_add {S : CNFSystem} {c : CNFClause}
    (h : Satisfiable (S.add_clause c).2) : Satisfiable S := by
  obtain ⟨A, hA⟩ := h
  exact ⟨A, fun d hd => hA d (mem_add_clause.mpr (Or.inl hd))⟩

theorem basicDpllF_step_error {f : ℕ} {S : CNFSystem} {r : ClauseType × List ℤ}
    (hq : basicLoopF (totalLen S + 1) S [] = some (Except.error r)) :
    basicDpllF (f + 1) S = some (some r) := by
  simp [basicDpllF, hq]

theorem basicDpllF_step_panic {f : ℕ} {S S1 : CNFSystem} {interp : List ℤ}
    (hq : basicLoopF (totalLen S + 1) S [] = some (Except.ok (S1, interp)))
    (hd : decisionLiteral S1 = none) :
    basicDpllF (f + 1) S = some none := by
  simp [basicDpllF, hq, hd]

theorem basicDpllF_step_zero {f : ℕ} {S S1 : CNFSystem} {interp : List ℤ} {l : ℤ}
    (hq : basicLoopF (totalLen S + 1) S [] = some (Except.ok (S1, interp)))
    (hd : decisionLiteral S1 = some l) (hl0 : l = 0) :
    basicDpllF (f + 1) S = some none := by
  simp [basicDpllF, hq, hd, hl0]

theorem basicDpllF_step {f : ℕ} {S S1 : CNFSystem} {interp : List ℤ} {l : ℤ}
    (hq : basicLoopF (totalLen S + 1) S [] = some (Except.ok (S1, interp)))
    (hd : decisionLiteral S1 = some l) (hl0 : ¬ l = 0) :
    basicDpllF (f + 1) S =
      match basicDpllF f (S1.add_clause ⟨[l]⟩).2 with
      | none => none
      | some none => some none
      | some (some p1) =>
        if p1.1 = ClauseType.Unsatisfiable then
          match basicDpllF f (S1.add_clause ⟨[-l]⟩).2 with
          | none => none
          | some none => some none
          | some (some p2) =>
            if p2.1 = ClauseType.Satisfiable then
              some (some (ClauseType.Satisfiable,
                interpExtend (insertSorted (-l) interp) p2.2))
            else some (some (p2.1, p2.2))
        else some (some (p1.1, interpExtend (insertSorted l interp) p1.2)) := by
  simp [basicDpllF, hq, hd, hl0]

theorem basicDpllF_verdict (f : ℕ) : ∀ (S : CNFSystem) (v : ClauseType) (I : List ℤ),
    basicDpllF f S = some (some (v, I)) →
    v = ClauseType.Satisfiable ∨ v = ClauseType.Unsatisfiable := by
  induction f with
  | zero =>
    intro S v I h
    exact Option.noConfusion h
  | succ f ih =>
    intro S v I h
    rcases hq : basicLoopF (totalLen S + 1) S [] with _ | (⟨ct0, I0⟩ | ⟨S1, interp⟩)
    · simp only [basicDpllF, hq] at h
      exact Option.noConfusion h
    · rw [basicDpllF_step_error hq] at h
      have h2 : (ct0, I0) = (v, I) := Option.some.inj (Option.some.inj h)
      injection h2 with h3 _
      rw [← h3]
      exact basicLoopF_error_type (totalLen S + 1) S [] ct0 I0 hq
    · rcases hd : decisionLiteral S1 with _ | l
      · rw [basicDpllF_step_panic hq hd] at h
        exact Option.noConfusion (Option.some.inj h)
      · by_cases hl0 : l = 0
        · rw [basicDpllF_step_zero hq hd hl0] at h
          exact Option.noConfusion (Option.some.inj h)
        · rw [basicDpllF_step hq hd hl0] at h
          rcases hp : basicDpllF f (S1.add_clause ⟨[l]⟩).2 with _ | (_ | ⟨vp, Ip⟩)
          · simp only [hp] at h
            exact Option.noConfusion h
          · simp only [hp] at h
            exact Option.noConfusion (Option.some.inj h)
          · simp only [hp] at h
            by_cases hvp : vp = ClauseType.Unsatisfiable
            · simp only [hvp, if_pos] at h
              rcases hn : basicDpllF f (S1.add_clause ⟨[-l]⟩).2 with _ | (_ | ⟨vn, In⟩)
              · simp only [hn] at h
                exact Option.noConfusion h
              · simp only [hn] at h
                exact Option.noConfusion (Option.some.inj h)
              · simp only [hn] at h
                by_cases hvn : vn = ClauseType.Satisfiable
                · simp only [hvn, if_pos, Option.some.injEq, Prod.mk.injEq] at h
                  exact Or.inl h.1.symm
                · simp only [if_neg hvn, Option.some.injEq, Prod.mk.injEq] at h
                  rw [← h.1]
                  exact ih _ vn In hn
            · simp only [if_neg hvp, Option.some.injEq, Prod.mk.injEq] at h
              rw [← h.1]
              exact ih _ vp Ip hp

theorem basicDpllF_sound (f : ℕ) : ∀ (S : CNFSystem),
    WfSystem S → NoZero S →
    ∀ (I : List ℤ), basicDpllF f S = some (some (ClauseType.Satisfiable, I)) →
    Satisfiable S := by
  induction f with
  | zero =>
    intro S _ _ I h
    exact Option.noConfusion h
  | succ f ih =>
    intro S HW HZ I h
    rcases hq : basicLoopF (totalLen S + 1) S [] with _ | (⟨ct0, I0⟩ | ⟨S1, interp⟩)
    · simp only [basicDpllF, hq] at h
      exact Option.noConfusion h
    · rw [basicDpllF_step_error hq] at h
      have h2 : (ct0, I0) = (ClauseType.Satisfiable, I) := Option.some.inj (Option.some.inj h)
      injection h2 with h3 _
      exact (basicLoopF_sat (totalLen S + 1) S [] HW HZ).1 ct0 I0 hq h3
    · obtain ⟨hwf1, hz1⟩ := basicLoopF_wf (totalLen S + 1) S [] HW HZ S1 interp hq
      rcases hd : decisionLiteral S1 with _ | l
      · rw [basicDpllF_step_panic hq hd] at h
        exact Option.noConfusion (Option.some.inj h)
      · by_cases hl0 : l = 0
        · rw [basicDpllF_step_zero hq hd hl0] at h
          exact Option.noConfusion (Option.some.inj h)
        · rw [basicDpllF_step hq hd hl0] at h
          have hS1ofpos : Satisfiable (S1.add_clause ⟨[l]⟩).2 → Satisfiable S := by
            intro hs
            exact (basicLoopF_sat (totalLen S + 1) S [] HW HZ).2 S1 interp hq
              (satisfiable_of_add hs)
          have hS1ofneg : Satisfiable (S1.add_clause ⟨[-l]⟩).2 → Satisfiable S := by
            intro hs
            exact (basicLoopF_sat (totalLen S + 1) S [] HW HZ).2 S1 interp hq
              (satisfiable_of_add hs)
          rcases hp : basicDpllF f (S1.add_clause ⟨[l]⟩).2 with _ | (_ | ⟨vp, Ip⟩)
          · simp only [hp] at h
            exact Option.noConfusion h
          · simp only [hp] at h
            exact Option.noConfusion (Option.some.inj h)
          · simp only [hp] at h
            by_cases hvp : vp = ClauseType.Unsatisfiable
            · simp only [hvp, if_pos] at h
              rcases hn : basicDpllF f (S1.add_clause ⟨[-l]⟩).2 with _ | (_ | ⟨vn, In⟩)
              · simp only [hn] at h
                exact Option.noConfusion h
              · simp only [hn] at h
                exact Option.noConfusion (Option.some.inj h)
              · simp only [hn] at h
                by_cases hvn : vn = ClauseType.Satisfiable
                · refine hS1ofneg (ih _ (add_clause_wf hwf1)
                    (add_clause_NoZero hz1 (neg_ne_zero.mpr hl0)) In ?_)
                  rw [hn, hvn]
                · simp only [if_neg hvn, Option.some.injEq, Prod.mk.injEq] at h
                  exact absurd h.1 hvn
            · simp only [if_neg hvp, Option.some.injEq, Prod.mk.injEq] at h
              refine hS1ofpos (ih _ (add_clause_wf hwf1) (add_clause_NoZero hz1 hl0) Ip ?_)
              rw [hp, h.1]

theorem basicDpllF_complete (f : ℕ) : ∀ (S : CNFSystem) (A : ℤ → Bool),
    WfSystem S → NoZero S → sysSat A S →
    ∀ (I : List ℤ), basicDpllF f S = some (some (ClauseType.Unsatisfiable, I)) →
    False := by
  induction f with
  | zero =>
    intro S A _ _ _ I h
    exact Option.noConfusion h
  | succ f ih =>
    intro S A HW HZ hA I h
    rcases hq : basicLoopF (totalLen S + 1) S [] with _ | (⟨ct0, I0⟩ | ⟨S1, interp⟩)
    · simp only [basicDpllF, hq] at h
      exact Option.noConfusion h
    · rw [basicDpllF_step_error hq] at h
      have h2 : (ct0, I0) = (ClauseType.Unsatisfiable, I) := Option.some.inj (Option.some.inj h)
      injection h2 with h3 _
      exact (basicLoopF_model (totalLen S + 1) S [] A HW HZ hA).1 ct0 I0 hq h3
    · obtain ⟨hwf1, hz1⟩ := basicLoopF_wf (totalLen S + 1) S [] HW HZ S1 interp hq
      have hA1 : sysSat A S1 :=
        (basicLoopF_model (totalLen S + 1) S [] A HW HZ hA).2 S1 interp hq
      rcases hd : decisionLiteral S1 with _ | l
      · rw [basicDpllF_step_panic hq hd] at h
        exact Option.noConfusion (Option.some.inj h)
      · by_cases hl0 : l = 0
        · rw [basicDpllF_step_zero hq hd hl0] at h
          exact Option.noConfusion (Option.some.inj h)
        · rw [basicDpllF_step hq hd hl0] at h
          rcases hp : basicDpllF f (S1.add_clause ⟨[l]⟩).2 with _ | (_ | ⟨vp, Ip⟩)
          · simp only [hp] at h
            exact Option.noConfusion h
          · simp only [hp] at h
            exact Option.noConfusion (Option.some.inj h)
          · simp only [hp] at h
            by_cases hvp : vp = ClauseType.Unsatisfiable
            · simp only [hvp, if_pos] at h
              rcases hn : basicDpllF f (S1.add_clause ⟨[-l]⟩).2 with _ | (_ | ⟨vn, In⟩)
              · simp only [hn] at h
                exact Option.noConfusion h
              · simp only [hn] at h
                exact Option.noConfusion (Option.some.inj h)
              · simp only [hn] at h
                have hvn : vn = ClauseType.Unsatisfiable := by
                  by_cases hvn1 : vn = ClauseType.Satisfiable
                  · simp only [hvn1, if_pos, Option.some.injEq, Prod.mk.injEq] at h
                    exact absurd h.1 (fun hc => ClauseType.noConfusion hc)
                  · simp only [if_neg hvn1, Option.some.injEq, Prod.mk.injEq] at h
                    exact h.1
                rcases litTrue_total (A := A) hl0 with hAl | hAnl
                · refine ih (S1.add_clause ⟨[l]⟩).2 A (add_clause_wf hwf1)
                    (add_clause_NoZero hz1 hl0) (sysSat_add_clause hA1 hAl) Ip ?_
                  rw [hp, hvp]
                · refine ih (S1.add_clause ⟨[-l]⟩).2 A (add_clause_wf hwf1)
                    (add_clause_NoZero hz1 (neg_ne_zero.mpr hl0))
                    (sysSat_add_clause hA1 hAnl) In ?_
                  rw [hn, hvn]
            · simp only [if_neg hvp, Option.some.injEq, Prod.mk.injEq] at h
              exact hvp h.1

/-- C10, counterexample to the claim as stated: on the one-clause system
`{{0, 1}}` (buildable through the public API via `CNFClause::empty` plus
`add(1)`), `basic_dpll` panics (decision literal `0` makes
`CNFClause::add` panic) and returns no verdict, while `concurrent_dpll`
returns SATISFIABLE — so the two solvers do not return the same verdict
on every system with at least one clause. -/
theorem C10_panic_mismatch :
    (⟨[⟨[0, 1]⟩]⟩ : CNFSystem).clauses ≠ [] ∧
    basic_dpll ⟨[⟨[0, 1]⟩]⟩ = none ∧
    concurrent_dpll ⟨[⟨[0, 1]⟩]⟩ (unitLiterals ⟨[⟨[0, 1]⟩]⟩) 16 =
      some (ClauseType.Satisfiable, [0]) := by
  refine ⟨by decide, by decide, by decide⟩

/-- C10, amended: on a well-formed zero-free system, whenever both
`basic_dpll` and `concurrent_dpll` (given the system's initial unit
literals) return verdicts, the verdicts are equal, and they are
SATISFIABLE or UNSATISFIABLE.  Both solvers decide propositional
satisfiability of the clause set, so their verdicts coincide. -/
theorem C10_verdict_agreement (S : CNFSystem) (tc : ℤ)
    (HW : WfSystem S) (HZ : NoZero S)
    (v1 v2 : ClauseType) (I1 I2 : List ℤ)
    (h1 : basic_dpll S = some (v1, I1))
    (h2 : concurrent_dpll S (unitLiterals S) tc = some (v2, I2)) :
    v1 = v2 ∧ (v1 = ClauseType.Satisfiable ∨ v1 = ClauseType.Unsatisfiable) := by
  unfold basic_dpll at h1
  unfold concurrent_dpll at h2
  have h1j := join_eq_some.mp h1
  have h2j := join_eq_some.mp h2
  have hd1 := basicDpllF_verdict _ S v1 I1 h1j
  have hd2 := dpllF_verdict _ S (unitLiterals S) tc v2 I2 h2j
  have HU : ∀ u ∈ unitLiterals S, u ≠ 0 ∧ (⟨[u]⟩ : CNFClause) ∈ S.clauses := by
    intro u hu
    have hb := unitLiterals_mem hu
    refine ⟨?_, hb⟩
    intro h0
    exact HZ _ hb (by rw [h0]; exact List.mem_singleton.mpr rfl)
  have key1 : v1 = ClauseType.Satisfiable ↔ Satisfiable S := by
    constructor
    · intro hv
      rw [hv] at h1j
      exact basicDpllF_sound _ S HW HZ I1 h1j
    · intro hs
      rcases hd1 with hv | hv
      · exact hv
      · obtain ⟨A, hA⟩ := hs
        rw [hv] at h1j
        exact absurd (basicDpllF_complete _ S A HW HZ hA I1 h1j) (fun h => h)
  have key2 : v2 = ClauseType.Satisfiable ↔ Satisfiable S := by
    constructor
    · intro hv
      rw [hv] at h2j
      obtain ⟨_, hsat⟩ := dpllF_main _ S (unitLiterals S) tc HW HZ (Or.inl HU) _ I2 h2j
      obtain ⟨hcons, hcov⟩ := hsat rfl
      exact ⟨modelOf I2, sysSat_modelOf hcons hcov⟩
    · intro hs
      rcases hd2 with hv | hv
      · exact hv
      · obtain ⟨A, hA⟩ := hs
        rw [hv] at h2j
        have hforced : ∀ u ∈ unitLiterals S, litTrue A u := by
          intro u hu
          obtain ⟨x, hx1, hx2⟩ := hA _ (unitLiterals_mem hu)
          rcases List.mem_singleton.mp hx1 with rfl
          exact hx2
        exact absurd (dpllF_complete _ S (unitLiterals S) tc A HW HZ
          (fun u hu => (HU u hu).1) hA hforced I2 h2j) (fun h => h)
  refine ⟨?_, hd1⟩
  by_cases hs : Satisfiable S
  · rw [key1.mpr hs, key2.mpr hs]
  · rcases hd1 with hv1 | hv1 <;> rcases hd2 with hv2 | hv2
    · rw [hv1, hv2]
    · exact absurd (key1.mp hv1) hs
    · exact absurd (key2.mp hv2) hs
    · rw [hv1, hv2]

theorem C10_verdict_agreement_witness :
    basic_dpll ⟨[⟨[1, 2]⟩, ⟨[-1, 2]⟩, ⟨[-2]⟩]⟩ = some (ClauseType.Unsatisfiable, []) ∧
    concurrent_dpll ⟨[⟨[1, 2]⟩, ⟨[-1, 2]⟩, ⟨[-2]⟩]⟩
      (unitLiterals ⟨[⟨[1, 2]⟩, ⟨[-1, 2]⟩, ⟨[-2]⟩]⟩) 16 =
      some (ClauseType.Unsatisfiable, [-2]) ∧
    (ClauseType.Unsatisfiable = ClauseType.Unsatisfiable ∧
      (ClauseType.Unsatisfiable = ClauseType.Satisfiable ∨
        ClauseType.Unsatisfiable = ClauseType.Unsatisfiable)) :=
  ⟨by decide, by decide,
    C10_verdict_agreement ⟨[⟨[1, 2]⟩, ⟨[-1, 2]⟩, ⟨[-2]⟩]⟩ 16 ⟨by decide, by decide⟩
      (by unfold NoZero; decide) ClauseType.Unsatisfiable ClauseType.Unsatisfiable [] [-2]
      (by decide) (by decide)⟩
